import Mathlib

/-!
Verification of the nanothread task-graph thread pool (enoki-thread fork).

The repository ships the public API header `include/enoki-thread/thread.h`.
The pool/scheduler implementation itself (task records, ready queue, worker
loop) is not part of the sources, so the scheduler is modelled from the
specification, with the header's documentation as the authority where the two
disagree.  The `blocked_range` / `parallel_for` templates are real code in the
header and are embedded directly.

Modelling conventions:
* machine integers become `Nat`/`Int`; the `(uint32_t)` cast in
  `blocked_range::blocks` is an explicit `% 2 ^ 32`;
* a worker popping a work unit, running the callback and posting the
  decrement is one atomic step of the transition system (the pool mutex
  serializes all structural mutations, so this is the granularity the spec
  itself reasons at);
* callbacks are represented by a per-task outcome oracle
  `outcome : Nat → Option Nat` giving for each work-unit index the failure
  (if any) the callback raises there;
* payload buffers are modelled by their byte contents (`List Nat`);
* the observable history is an append-only trace of events (callback
  invocations, completions, payload frees, deleter invocations).
-/

namespace Nanothread

/-- How the pool holds a task's payload: a null pointer, a borrowed caller
buffer, or an internal copy of a prefix of the caller's buffer.  Modelled from
the spec (§4.F) and the header documentation (thread.h lines 111-125). -/
inductive StoredPayload where
  | nullp : StoredPayload
  | borrowed : List Nat → StoredPayload
  | copied : List Nat → StoredPayload
deriving DecidableEq, Repr

/-- Observable events of an execution.  `run t i p res` records one invocation
of task `t`'s callback with work-unit index `i`, payload `p` and failure result
`res`; `inlineRun` records an inline fast-path invocation on the submitting
thread (no task record exists for those); `completed t` marks the transition of
`t` to the completed state; `delRun t` the payload-deleter invocation and
`freeCopy t` the release of the pool's internal payload copy. -/
inductive Event where
  | run : Nat → Nat → StoredPayload → Option Nat → Event
  | inlineRun : StoredPayload → Event
  | completed : Nat → Event
  | delRun : Nat → Event
  | freeCopy : Nat → Event
deriving DecidableEq, Repr

/-- A task record.  Modelled from the spec (§3, §4.A): work-unit counter,
remaining-parent counter, child list, payload, failure slot, refcount and a
liveness flag standing for "not yet recycled".  `dparents` additionally keeps
the declared (non-null, existing) parents for stating dependency properties. -/
structure TaskRec where
  size : Nat
  hasFunc : Bool
  outcome : Nat → Option Nat
  payload : StoredPayload
  deleter : Bool
  dparents : List Nat
  remWork : Nat
  remParents : Nat
  armed : Bool
  children : List Nat
  refcount : Nat
  exc : Option Nat
  live : Bool

/-- Arguments of `task_submit_dep` (thread.h lines 179-187): parent list with
possible null entries, work-unit count, callback presence and failure oracle,
payload pointer nullity, caller-buffer contents, `payload_size`, and presence
of a `payload_deleter`. -/
structure SubmitArgs where
  parents : List (Option Nat)
  size : Nat
  hasFunc : Bool
  outcome : Nat → Option Nat
  pnull : Bool
  pbytes : List Nat
  psize : Nat
  deleter : Bool

/-- Pool state: the task store (a task's id is its index; allocation appends,
recycling clears the `live` flag), the FIFO ready queue of
(task, work-unit index) pairs, the event trace, and a ghost copy of every
allocated task's initial record, used only to state theorems about tasks whose
record was recycled. -/
structure PoolState where
  tasks : List TaskRec
  queue : List (Nat × Nat)
  trace : List Event
  submitted : List (Nat × TaskRec)

/-- Effective number of work units: `remaining_work` is initialized to
`max(size, 1)` (spec §3); a size-0 task is handled equivalently to a unit-sized
task except that it enforces asynchronous execution (thread.h lines 132-136). -/
def effSize (n : Nat) : Nat := max n 1

/-- Record of task `t`, provided it has not been recycled. -/
def liveRec (s : PoolState) (t : Nat) : Option TaskRec :=
  match s.tasks[t]? with
  | some r => if r.live then some r else none
  | none => none

/-- A parent is still incomplete if it has a live record with remaining work.
Null, unknown and completed parents are all ignored at submit time. -/
def isIncomplete (s : PoolState) (p : Nat) : Bool :=
  match liveRec s p with
  | some r => !(r.remWork == 0)
  | none => false

/-- Payload ownership resolution at submit time.  Modelled from the spec
(§4.F) and thread.h lines 111-125: when `size == 0` or a deleter is given the
payload is forwarded (borrowed); otherwise the pool takes an internal copy of
`payload_size` bytes. -/
def resolvePayload (a : SubmitArgs) : StoredPayload :=
  if a.size = 0 ∨ a.deleter = true then
    (if a.pnull then StoredPayload.nullp else StoredPayload.borrowed a.pbytes)
  else if a.pnull then StoredPayload.nullp
  else StoredPayload.copied (a.pbytes.take a.psize)

/-- The queue entries for all work units of task `t` with `n` units. -/
def unitsFor (t n : Nat) : List (Nat × Nat) :=
  (List.range n).map (fun i => (t, i))

/-- Register a fresh task `t` as a child of parent `p` and take a reference on
`p` (spec §4.E submit step 4). -/
def linkParent (t : Nat) (tasks : List TaskRec) (p : Nat) : List TaskRec :=
  match tasks[p]? with
  | some r => tasks.set p
      { r with children := r.children ++ [t], refcount := r.refcount + 1 }
  | none => tasks

/-- The freshly allocated task record (spec §4.E submit steps 2-4):
`remaining_work = max(size, 1)`, `refcount = 1` for the returned handle,
`remaining_parents` counting the still-incomplete parents, armed (ready to
enqueue) exactly when no incomplete parent exists. -/
def freshRec (a : SubmitArgs) (dpar ipar : List Nat) : TaskRec :=
  { size := a.size
    hasFunc := a.hasFunc
    outcome := a.outcome
    payload := resolvePayload a
    deleter := a.deleter
    dparents := dpar
    remWork := effSize a.size
    remParents := ipar.length
    armed := ipar.isEmpty
    children := []
    refcount := 1
    exc := none
    live := true }

/-- Modelled from the spec: `task_submit_dep` (submit logic, spec §4.E; the
implementation is absent from the sources).  Fast path: a unit-sized task
without deleter whose parents have all completed runs inline on the calling
thread and yields a null handle.  Otherwise a record is allocated with
`remaining_work = max(size, 1)` and `refcount = 1`, the task is linked to each
still-incomplete parent, and if no incomplete parent exists all its work units
are pushed onto the ready queue. -/
def submit (a : SubmitArgs) (s : PoolState) : PoolState × Option Nat :=
  let dpar := (a.parents.filterMap id).filter (fun p => (liveRec s p).isSome)
  let ipar := dpar.filter (fun p => isIncomplete s p)
  if a.size = 1 ∧ a.deleter = false ∧ ipar = [] then
    ({ s with trace := s.trace ++
        (if a.hasFunc then [Event.inlineRun (resolvePayload a)] else []) },
      none)
  else
    let t := s.tasks.length
    let r : TaskRec := freshRec a dpar ipar
    let tasks2 := (ipar.foldl (linkParent t) s.tasks) ++ [r]
    let q := if ipar.isEmpty then s.queue ++ unitsFor t (effSize a.size)
             else s.queue
    ({ tasks := tasks2
       queue := q
       trace := s.trace
       submitted := s.submitted ++ [(t, r)] }, some t)

/-- Does completion of a task with child list `ch` arm the waiting task with
record `rc`, found `List.count`-many times in `ch`?  It does when the
remaining-parent counter is decremented to zero and the task was not armed
before. -/
def armsNow (ch : List Nat) (c : Nat) (rc : TaskRec) : Bool :=
  decide (0 < ch.count c) && decide (rc.remParents ≤ ch.count c) && !rc.armed

/-- Decrement the remaining-parent counter of a waiting task once per
occurrence in the completing task's child list; arm it when the counter
reaches zero (spec §4.E completion step 2). -/
def decParents (ch : List Nat) (c : Nat) (rc : TaskRec) : TaskRec :=
  if ch.count c = 0 then rc
  else if armsNow ch c rc then { rc with remParents := 0, armed := true }
  else { rc with remParents := rc.remParents - ch.count c }

/-- Queue entries for all work units of the children newly armed by a
completing task with child list `ch`. -/
def armedUnits (ch : List Nat) (tasks : List TaskRec) : List (Nat × Nat) :=
  ((List.range tasks.length).filter (fun c =>
      match tasks[c]? with
      | some rc => armsNow ch c rc
      | none => false)).flatMap (fun c =>
    match tasks[c]? with
    | some rc => unitsFor c (effSize rc.size)
    | none => [])

/-- Apply an index-aware update to every record of the task store, starting
at index `n`. -/
def updAllAux (f : Nat → TaskRec → TaskRec) : Nat → List TaskRec → List TaskRec
  | _, [] => []
  | n, r :: rs => f n r :: updAllAux f (n + 1) rs

/-- Apply an index-aware update to every record of the task store. -/
def updAll (f : Nat → TaskRec → TaskRec) (l : List TaskRec) : List TaskRec :=
  updAllAux f 0 l

/-- Events emitted by completion handling: the completion itself, then the
payload deleter (if any), then the release of the pool's internal payload
copy (if one was made). -/
def completionEvents (t : Nat) (r : TaskRec) : List Event :=
  Event.completed t ::
    ((if r.deleter then [Event.delRun t] else []) ++
      (match r.payload with
       | StoredPayload.copied _ => [Event.freeCopy t]
       | _ => []))

/-- Trace fragment of one callback invocation; a task with a null `func`
emits nothing (its work unit merely decrements the counter). -/
def runTrace (t i : Nat) (r : TaskRec) : List Event :=
  if r.hasFunc then [Event.run t i r.payload (r.outcome i)] else []

/-- First-writer-wins failure capture (spec §4.G): a failure raised by the
callback is stored only when the slot is still empty. -/
def newExc (r : TaskRec) (i : Nat) : Option Nat :=
  match r.exc with
  | some e => some e
  | none => if r.hasFunc then r.outcome i else none

/-- Modelled from the spec: one worker step (spec §4.D, §4.E; the worker-loop
implementation is absent from the sources).  Pop the front work unit, invoke
the callback (capturing a failure first-writer-wins), decrement
`remaining_work`; on the last unit run completion handling: emit the
completion events, decrement every child's remaining-parent counter, enqueue
the work units of children that became ready, drop the per-child references
and recycle the record if the refcount reached zero. -/
def exec (s : PoolState) : PoolState :=
  match s.queue with
  | [] => s
  | (t, i) :: rest =>
    match liveRec s t with
    | none => { s with queue := rest }
    | some r =>
      let exc1 := newExc r i
      let tr1 := s.trace ++ runTrace t i r
      if r.remWork = 1 then
        let ch := r.children
        let tasks1 := updAll (fun c rc => if c = t then rc else decParents ch c rc)
          s.tasks
        let rc2 := r.refcount - ch.length
        let r2 : TaskRec :=
          { r with
            remWork := 0
            exc := exc1
            children := []
            refcount := rc2
            live := decide (rc2 ≠ 0) }
        { tasks := tasks1.set t r2
          queue := rest ++ armedUnits ch s.tasks
          trace := tr1 ++ completionEvents t r
          submitted := s.submitted }
      else
        { s with
          queue := rest
          tasks := s.tasks.set t { r with remWork := r.remWork - 1, exc := exc1 }
          trace := tr1 }

/-- Modelled from the spec: `task_release` (spec §4.E Release): null is a
no-op; otherwise drop one reference and recycle the record once the refcount
is zero and the task has completed (spec §3 invariant 5). -/
def task_release (ot : Option Nat) (s : PoolState) : PoolState :=
  match ot with
  | none => s
  | some t =>
    match liveRec s t with
    | none => s
    | some r =>
      if r.refcount - 1 = 0 ∧ r.remWork = 0 then
        { s with tasks := s.tasks.set t { r with refcount := 0, live := false } }
      else
        { s with tasks := s.tasks.set t { r with refcount := r.refcount - 1 } }

/-- Helping loop of `task_wait` (spec §4.E Wait): while the awaited task has
remaining work, pop and execute ready work units.  The loop is fuelled because
the shallow embedding is a total function; a completed task returns
immediately regardless of fuel. -/
def waitAux (fuel t : Nat) (s : PoolState) : PoolState :=
  match fuel with
  | 0 => s
  | f + 1 =>
    match liveRec s t with
    | none => s
    | some r => if r.remWork = 0 then s else waitAux f t (exec s)

/-- Modelled from the spec: `task_wait` (spec §4.E Wait): null is a no-op;
otherwise help until the task completes, then re-raise the captured failure
(returned as the second component) while leaving the exception slot
populated. -/
def task_wait (fuel : Nat) (ot : Option Nat) (s : PoolState) :
    PoolState × Option Nat :=
  match ot with
  | none => (s, none)
  | some t =>
    let s1 := waitAux fuel t s
    (s1, match liveRec s1 t with
         | some r => r.exc
         | none => none)

/-- Modelled from the spec: `task_wait_and_release` (thread.h lines 225-240):
wait, then perform the release step whether or not a captured failure is
re-raised. -/
def task_wait_and_release (fuel : Nat) (ot : Option Nat) (s : PoolState) :
    PoolState × Option Nat :=
  let p := task_wait fuel ot s
  (task_release ot p.1, p.2)

/-- The naive sequential composition `task_wait(t); task_release(t)` in a
language where a re-raised failure aborts the rest of the statement: the
release step is skipped when wait re-raises. -/
def waitThenRelease (fuel : Nat) (ot : Option Nat) (s : PoolState) :
    PoolState × Option Nat :=
  match task_wait fuel ot s with
  | (s1, none) => (task_release ot s1, none)
  | (s1, some e) => (s1, some e)

/-- External interactions with the pool: submit a task, let a worker execute
one ready work unit, release a handle, or wait (with helping). -/
inductive Action where
  | submitA : SubmitArgs → Action
  | execA : Action
  | releaseA : Option Nat → Action
  | waitA : Nat → Option Nat → Action

/-- State reached after one action (return values discarded). -/
def applyAction (s : PoolState) : Action → PoolState
  | Action.submitA a => (submit a s).1
  | Action.execA => exec s
  | Action.releaseA t => task_release t s
  | Action.waitA f t => (task_wait f t s).1

/-- The freshly created pool: no tasks, empty queue, empty trace. -/
def initState : PoolState :=
  { tasks := [], queue := [], trace := [], submitted := [] }

/-- Run a sequence of actions. -/
def steps (acts : List Action) (s : PoolState) : PoolState :=
  acts.foldl applyAction s

/-- The states the pool can reach from creation. -/
def Reachable (s : PoolState) : Prop :=
  ∃ acts : List Action, steps acts initState = s

/-- Number of queue entries of task `t`. -/
def countQ (q : List (Nat × Nat)) (t : Nat) : Nat :=
  q.countP (fun x => x.1 == t)

/-- Number of queue entries for work unit `i` of task `t`. -/
def countQI (q : List (Nat × Nat)) (t i : Nat) : Nat :=
  q.countP (fun x => x == (t, i))

/-- Is this event an invocation of work unit `i` of task `t`? -/
def isRunEv (t i : Nat) : Event → Bool
  | Event.run t' i' _ _ => t' == t && i' == i
  | _ => false

/-- Is this event an invocation of any work unit of task `t`? -/
def isRunEvT (t : Nat) : Event → Bool
  | Event.run t' _ _ _ => t' == t
  | _ => false

/-- Number of recorded invocations of work unit `i` of task `t`. -/
def countRun (tr : List Event) (t i : Nat) : Nat :=
  tr.countP (isRunEv t i)

/-- Number of recorded invocations of any work unit of task `t`. -/
def countRunT (tr : List Event) (t : Nat) : Nat :=
  tr.countP (isRunEvT t)

/-- Number of times the pool freed its internal payload copy of task `t`. -/
def countFree (tr : List Event) (t : Nat) : Nat :=
  tr.countP (fun e => e == Event.freeCopy t)

/-- The failure raised by this event at task `t`, if any. -/
def failOf (t : Nat) : Event → Option Nat
  | Event.run t' _ _ (some er) => if t' == t then some er else none
  | _ => none

/-- All failures raised by work units of task `t`, in trace order. -/
def failuresOf (tr : List Event) (t : Nat) : List Nat :=
  tr.filterMap (failOf t)

/-- The first failure raised by a work unit of task `t`, if any. -/
def firstFailure (tr : List Event) (t : Nat) : Option Nat :=
  (failuresOf tr t).head?

/-- The task an event belongs to (inline fast-path runs belong to none). -/
def eventTask : Event → Option Nat
  | Event.run t _ _ _ => some t
  | Event.inlineRun _ => none
  | Event.completed t => some t
  | Event.delRun t => some t
  | Event.freeCopy t => some t

/-- Ghost record of task `t`: its state at allocation time.  Survives
recycling of the live record. -/
def gRec (s : PoolState) (t : Nat) : Option TaskRec :=
  (s.submitted.find? (fun p => p.1 == t)).map Prod.snd

/-- Declared work-unit count of task `t` (ghost). -/
def gSize (s : PoolState) (t : Nat) : Option Nat :=
  (gRec s t).map TaskRec.size

/-- Whether task `t` was submitted with a callback (ghost). -/
def gHasFunc (s : PoolState) (t : Nat) : Option Bool :=
  (gRec s t).map TaskRec.hasFunc

/-- The payload the pool stored for task `t` at submit time (ghost). -/
def gPayload (s : PoolState) (t : Nat) : Option StoredPayload :=
  (gRec s t).map TaskRec.payload

/-- The declared (non-null, existing) parents of task `t` (ghost). -/
def gDparents (s : PoolState) (t : Nat) : Option (List Nat) :=
  (gRec s t).map TaskRec.dparents

/-- Content of the exception slot of task `t` (none if recycled). -/
def excOf (s : PoolState) (t : Nat) : Option Nat :=
  match liveRec s t with
  | some r => r.exc
  | none => none

/-- Task `t` has a live record and has completed all its work. -/
def liveDone (s : PoolState) (t : Nat) : Bool :=
  match liveRec s t with
  | some r => r.remWork == 0
  | none => false

/-- Did the pool store an internal copy as this task's payload? -/
def isCopied : StoredPayload → Bool
  | StoredPayload.copied _ => true
  | _ => false

/-- Decidable membership of the completion event of `p` in a trace. -/
def completedIn (tr : List Event) (p : Nat) : Bool :=
  decide (Event.completed p ∈ tr)

/-- The global invariant of reachable pool states.  Ties together the task
store, the ready queue, the ghost submission log and the event trace:
identifier discipline, immutability of the descriptive record fields,
queue/trace accounting for the at-most-once execution of work units, the
first-writer-wins failure slot, payload-copy release accounting, and the
dependency-ordering facts (a task is armed only after all its declared
parents completed; its callback invocations appear in the trace strictly
after the parents' completion events). -/
structure Inv (s : PoolState) : Prop where
  ids : s.submitted.map Prod.fst = List.range s.tasks.length
  frozen : ∀ (t : Nat) (r0 r : TaskRec), (t, r0) ∈ s.submitted → s.tasks[t]? = some r →
    r.size = r0.size ∧ r.hasFunc = r0.hasFunc ∧ r.payload = r0.payload ∧
    r.deleter = r0.deleter ∧ r.dparents = r0.dparents ∧ r.outcome = r0.outcome
  dparents_lt : ∀ (t : Nat) (r0 : TaskRec), (t, r0) ∈ s.submitted → ∀ p ∈ r0.dparents, p < t
  events_lt : ∀ e ∈ s.trace, ∀ t, eventTask e = some t → t < s.tasks.length
  queue_lt : ∀ x ∈ s.queue, x.1 < s.tasks.length
  queue_idx : ∀ x ∈ s.queue, ∀ (r : TaskRec), s.tasks[x.1]? = some r → x.2 < effSize r.size
  queue_live : ∀ x ∈ s.queue, ∀ (r : TaskRec), s.tasks[x.1]? = some r →
    r.live = true ∧ r.armed = true
  queue_count : ∀ (t : Nat) (r : TaskRec), s.tasks[t]? = some r → countQ s.queue t ≤ r.remWork
  done_iff : ∀ (t : Nat) (r : TaskRec), s.tasks[t]? = some r →
    (r.remWork = 0 ↔ Event.completed t ∈ s.trace)
  unarmed_clean : ∀ (t : Nat) (r : TaskRec), s.tasks[t]? = some r → r.armed = false →
    countQ s.queue t = 0 ∧ countRunT s.trace t = 0 ∧ r.remWork = effSize r.size
  armed_units : ∀ (t : Nat) (r : TaskRec), s.tasks[t]? = some r → r.armed = true →
    r.hasFunc = true → ∀ i, i < effSize r.size →
      countQI s.queue t i + countRun s.trace t i = 1
  nofunc_norun : ∀ (t : Nat) (r : TaskRec), s.tasks[t]? = some r → r.hasFunc = false →
    countRunT s.trace t = 0
  run_idx : ∀ t i pay res, Event.run t i pay res ∈ s.trace →
    ∀ (r : TaskRec), s.tasks[t]? = some r → i < effSize r.size
  run_payload : ∀ t i pay res, Event.run t i pay res ∈ s.trace →
    ∀ (r : TaskRec), s.tasks[t]? = some r →
      pay = r.payload ∧ res = (if r.hasFunc then r.outcome i else none)
  exc_first : ∀ (t : Nat) (r : TaskRec), s.tasks[t]? = some r → r.exc = firstFailure s.trace t
  free_iff : ∀ (t : Nat) (r : TaskRec), s.tasks[t]? = some r →
    countFree s.trace t =
      (if Event.completed t ∈ s.trace ∧ isCopied r.payload = true then 1 else 0)
  completed_children : ∀ (t : Nat) (r : TaskRec), s.tasks[t]? = some r → r.remWork = 0 →
    r.children = []
  children_rec : ∀ (q : Nat) (rq : TaskRec), s.tasks[q]? = some rq → ∀ c ∈ rq.children,
    ∃ rc, s.tasks[c]? = some rc ∧ rc.live = true ∧ rc.armed = false
  children_count : ∀ (q : Nat) (rq : TaskRec) (c : Nat) (rc : TaskRec),
    s.tasks[q]? = some rq → s.tasks[c]? = some rc →
    rq.children.count c ≤ rc.dparents.count q
  remparents_bound : ∀ (t : Nat) (r : TaskRec), s.tasks[t]? = some r → r.armed = false →
    (r.dparents.filter (fun p => !(completedIn s.trace p))).length ≤ r.remParents
  armed_parents : ∀ (t : Nat) (r : TaskRec), s.tasks[t]? = some r → r.armed = true →
    ∀ p ∈ r.dparents, Event.completed p ∈ s.trace
  parent_before : ∀ (c : Nat) (rc : TaskRec), s.tasks[c]? = some rc → ∀ p ∈ rc.dparents,
    ∀ l₁ l₂ i pay res, s.trace = l₁ ++ Event.run c i pay res :: l₂ →
      Event.completed p ∈ l₁
  run_before_completed : ∀ p l₁ l₂, s.trace = l₁ ++ Event.completed p :: l₂ →
    ∀ j pay res, Event.run p j pay res ∈ l₂ → False

/-- Sample submission: a size-0 task with a callback and no parents. -/
def sampleZero : SubmitArgs :=
  { parents := []
    size := 0
    hasFunc := true
    outcome := fun _ => none
    pnull := true
    pbytes := []
    psize := 0
    deleter := false }

/-- Sample submission: a unit-sized task with a callback and no parents. -/
def sampleUnit : SubmitArgs :=
  { parents := []
    size := 1
    hasFunc := true
    outcome := fun _ => none
    pnull := true
    pbytes := []
    psize := 0
    deleter := false }

/-- Sample submission: a two-unit parent task. -/
def sampleParent : SubmitArgs :=
  { parents := []
    size := 2
    hasFunc := true
    outcome := fun _ => none
    pnull := true
    pbytes := []
    psize := 0
    deleter := false }

/-- Sample submission: a unit-sized child depending on task 0. -/
def sampleChild : SubmitArgs :=
  { parents := [some 0]
    size := 1
    hasFunc := true
    outcome := fun _ => none
    pnull := true
    pbytes := []
    psize := 0
    deleter := false }

/-- Sample submission: a two-unit task whose callback fails on both units. -/
def sampleFailing : SubmitArgs :=
  { parents := []
    size := 2
    hasFunc := true
    outcome := fun i => if i = 0 then some 7 else some 9
    pnull := true
    pbytes := []
    psize := 0
    deleter := false }

/-- Sample submission: a two-unit task with a payload the pool must copy. -/
def sampleCopy : SubmitArgs :=
  { parents := []
    size := 2
    hasFunc := true
    outcome := fun _ => none
    pnull := false
    pbytes := [1, 2, 3, 4, 5]
    psize := 3
    deleter := false }

/-- The failing sample task, executed to completion. -/
def sampleFailingDone : PoolState :=
  steps [Action.submitA sampleFailing, Action.execA, Action.execA] initState

/-- The parent/child sample chain, executed to completion. -/
def sampleChainDone : PoolState :=
  steps [Action.submitA sampleParent, Action.submitA sampleChild,
    Action.execA, Action.execA, Action.execA] initState

/-- The copy-payload sample task, executed to completion. -/
def sampleCopyDone : PoolState :=
  steps [Action.submitA sampleCopy, Action.execA, Action.execA] initState

/-- The size-0 sample task, executed to completion. -/
def sampleZeroDone : PoolState :=
  steps [Action.submitA sampleZero, Action.execA] initState

end Nanothread

namespace enoki

/-- `enoki::blocked_range` (thread.h lines 272-302), with the template
parameter `Int` instantiated at the unbounded integers. -/
structure blocked_range where
  m_begin : Int
  m_end : Int
  m_block_size : Int

/-- `blocked_range::blocks` (thread.h lines 290-292):
`(uint32_t) ((m_end - m_begin + m_block_size - 1) / m_block_size)`.
C++ `/` truncates toward zero (`Int.tdiv`); the cast to `uint32_t` reduces
modulo `2 ^ 32`. -/
def blocked_range.blocks (r : blocked_range) : Nat :=
  ((Int.tdiv (r.m_end - r.m_begin + r.m_block_size - 1) r.m_block_size)
    % (2 ^ 32 : Int)).toNat

/-- The callback built by `enoki::parallel_for` (thread.h lines 316-325):
work-unit index `i` is mapped to the clamped half-open block
beginning at `begin + block_size * i`.  Returns the pair (begin, end) of the
sub-range handed to the user function. -/
def pf_callback (begin_ end_ block_size : Int) (index : Nat) : Int × Int :=
  let b := begin_ + block_size * (index : Int)
  let e := b + block_size
  (b, if end_ < e then end_ else e)

/-- Element `x` lies in the sub-range the `parallel_for` callback hands to the
user function for work-unit index `i`. -/
def inChunk (rg : blocked_range) (i : Nat) (x : Int) : Prop :=
  (pf_callback rg.m_begin rg.m_end rg.m_block_size i).1 ≤ x ∧
  x < (pf_callback rg.m_begin rg.m_end rg.m_block_size i).2

end enoki

namespace enoki

theorem pf_callback_eq (b e k : Int) (i : Nat) :
    pf_callback b e k i =
      (b + (i : Int) * k, min (b + ((i : Int) + 1) * k) e) := by
  have hm : b + k * (i : Int) = b + (i : Int) * k := by ring
  have hc : b + (i : Int) * k + k = b + ((i : Int) + 1) * k := by ring
  unfold pf_callback
  simp only [hm, hc]
  by_cases h : e < b + ((i : Int) + 1) * k
  · rw [if_pos h, min_eq_right (le_of_lt h)]
  · rw [if_neg h, min_eq_left (le_of_not_lt h)]

theorem inChunk_iff (r : blocked_range) (i : Nat) (x : Int) :
    inChunk r i x ↔
      (r.m_begin + (i : Int) * r.m_block_size ≤ x ∧
       x < r.m_begin + ((i : Int) + 1) * r.m_block_size ∧ x < r.m_end) := by
  unfold inChunk
  rw [pf_callback_eq]
  simp only [lt_min_iff]

theorem chunk_lt_false (r : blocked_range) (hk : 1 ≤ r.m_block_size)
    {i j : Nat} {x : Int} (hij : i < j)
    (hi : inChunk r i x) (hj : inChunk r j x) : False := by
  rw [inChunk_iff] at hi hj
  have hij2 : ((i : Int) + 1) ≤ (j : Int) := by exact_mod_cast hij
  have hm : ((i : Int) + 1) * r.m_block_size ≤ (j : Int) * r.m_block_size :=
    mul_le_mul_of_nonneg_right hij2 (by linarith)
  have h1 := hi.2.1
  have h2 := hj.1
  linarith

theorem blocks_eq_of_fit (r : blocked_range) (hbe : r.m_begin ≤ r.m_end)
    (hk : 1 ≤ r.m_block_size)
    (hfit : Int.tdiv (r.m_end - r.m_begin + r.m_block_size - 1) r.m_block_size
      < 2 ^ 32) :
    (r.blocks : Int) =
      (r.m_end - r.m_begin + r.m_block_size - 1) / r.m_block_size := by
  have hk0 : (0 : Int) < r.m_block_size := by linarith
  have hD : 0 ≤ r.m_end - r.m_begin + r.m_block_size - 1 := by linarith
  have htd : Int.tdiv (r.m_end - r.m_begin + r.m_block_size - 1) r.m_block_size
      = (r.m_end - r.m_begin + r.m_block_size - 1) / r.m_block_size :=
    Int.tdiv_eq_ediv hD (le_of_lt hk0)
  have hq0 : 0 ≤ (r.m_end - r.m_begin + r.m_block_size - 1) / r.m_block_size :=
    Int.ediv_nonneg hD (le_of_lt hk0)
  have hfit2 : (r.m_end - r.m_begin + r.m_block_size - 1) / r.m_block_size
      < 2 ^ 32 := by rw [htd] at hfit; exact hfit
  unfold blocked_range.blocks
  rw [htd, Int.emod_eq_of_lt hq0 hfit2, Int.toNat_of_nonneg hq0]

/-- C10 (amended): for `begin ≤ end` and `block_size ≥ 1`, and provided the
exact quotient fits in `uint32_t`, `blocked_range::blocks()` returns the
ceiling of `(end - begin) / block_size`, characterised as the least `m` with
`end - begin ≤ block_size * m`; in particular it returns 0 when
`begin = end`. -/
theorem c10_blocks_ceiling (r : blocked_range) (hbe : r.m_begin ≤ r.m_end)
    (hk : 1 ≤ r.m_block_size)
    (hfit : Int.tdiv (r.m_end - r.m_begin + r.m_block_size - 1) r.m_block_size
      < 2 ^ 32) :
    r.m_end - r.m_begin ≤ r.m_block_size * (r.blocks : Int) ∧
    (∀ m : Nat, r.m_end - r.m_begin ≤ r.m_block_size * (m : Int) →
      r.blocks ≤ m) ∧
    (r.m_begin = r.m_end → r.blocks = 0) := by
  have hq := blocks_eq_of_fit r hbe hk hfit
  have hk0 : (0 : Int) < r.m_block_size := by linarith
  have h1 := Int.ediv_add_emod (r.m_end - r.m_begin + r.m_block_size - 1)
    r.m_block_size
  have h2 := Int.emod_nonneg (r.m_end - r.m_begin + r.m_block_size - 1)
    (ne_of_gt hk0)
  have h3 := Int.emod_lt_of_pos (r.m_end - r.m_begin + r.m_block_size - 1) hk0
  refine ⟨?_, ?_, ?_⟩
  · rw [hq]
    linarith
  · intro m hm
    by_contra hcon
    push_neg at hcon
    have hmi : (m : Int) + 1 ≤ (r.blocks : Int) := by
      have : (m : Int) < (r.blocks : Int) := by exact_mod_cast hcon
      linarith
    have hmul := mul_le_mul_of_nonneg_left hmi (le_of_lt hk0)
    rw [hq] at hmul
    have hexp : r.m_block_size * ((m : Int) + 1) =
        r.m_block_size * (m : Int) + r.m_block_size := by ring
    rw [hexp] at hmul
    linarith
  · intro he
    have h0 : (r.blocks : Int) = 0 := by
      rw [hq, he]
      have hr : r.m_end - r.m_end + r.m_block_size - 1 = r.m_block_size - 1 := by
        ring
      rw [hr]
      exact Int.ediv_eq_zero_of_lt (by linarith) (by linarith)
    exact_mod_cast h0

/-- C10 counterexample: for `blocked_range(0, 2^32, 1)` (legal for any `Int`
instantiation of at least 33 bits, with no overflow in
`end - begin + block_size - 1`), `blocks()` returns 0 because of the
truncating `uint32_t` cast, while the ceiling of `(end - begin) / block_size`
is `2^32`: the claimed equality fails. -/
theorem c10_counterexample :
    blocked_range.blocks { m_begin := 0, m_end := 2 ^ 32, m_block_size := 1 } = 0 ∧
    ¬ ((2 ^ 32 : Int) - 0 ≤ 1 *
      ((blocked_range.blocks
        { m_begin := 0, m_end := 2 ^ 32, m_block_size := 1 } : Nat) : Int)) := by
  have hb : blocked_range.blocks
      { m_begin := 0, m_end := 2 ^ 32, m_block_size := 1 } = 0 := by decide
  refine ⟨hb, ?_⟩
  rw [hb]
  norm_num

/-- C10 witness: the amended theorem applied to `blocked_range(0, 10, 3)`,
whose block count is the ceiling 4. -/
theorem c10_witness :
    (10 : Int) - 0 ≤ 3 *
      ((blocked_range.blocks { m_begin := 0, m_end := 10, m_block_size := 3 } : Nat) : Int) ∧
    blocked_range.blocks { m_begin := 0, m_end := 10, m_block_size := 3 } = 4 := by
  have h := c10_blocks_ceiling { m_begin := 0, m_end := 10, m_block_size := 3 }
    (by decide) (by decide) (by decide)
  refine ⟨h.1, ?_⟩
  decide

/-- C9 (amended): for `begin ≤ end` and `block_size ≥ 1`, and provided the
block count fits in `uint32_t`, the callback built by `enoki::parallel_for`
maps work-unit index `i` to the sub-range
`[begin + i * block_size, min (begin + (i+1) * block_size) end)`; these
sub-ranges are pairwise disjoint, and every element of `[begin, end)` lies in
exactly one sub-range with index below `blocks()` (and every sub-range element
lies in `[begin, end)`), so the user function is applied to each element of
the range exactly once. -/
theorem c9_chunks_partition (r : blocked_range) (hbe : r.m_begin ≤ r.m_end)
    (hk : 1 ≤ r.m_block_size)
    (hfit : Int.tdiv (r.m_end - r.m_begin + r.m_block_size - 1) r.m_block_size
      < 2 ^ 32) :
    (∀ i : Nat, pf_callback r.m_begin r.m_end r.m_block_size i =
      (r.m_begin + (i : Int) * r.m_block_size,
       min (r.m_begin + ((i : Int) + 1) * r.m_block_size) r.m_end)) ∧
    (∀ i j : Nat, ∀ x : Int, i ≠ j → inChunk r i x → inChunk r j x → False) ∧
    (∀ x : Int, r.m_begin ≤ x → x < r.m_end →
      ∃ i : Nat, i < r.blocks ∧ inChunk r i x ∧
        ∀ j : Nat, inChunk r j x → j = i) ∧
    (∀ i : Nat, ∀ x : Int, inChunk r i x → r.m_begin ≤ x ∧ x < r.m_end) := by
  have hk0 : (0 : Int) < r.m_block_size := by linarith
  have hdisj : ∀ i j : Nat, ∀ x : Int, i ≠ j →
      inChunk r i x → inChunk r j x → False := by
    intro i j x hij hi hj
    rcases Nat.lt_or_ge i j with h | h
    · exact chunk_lt_false r hk h hi hj
    · exact chunk_lt_false r hk (lt_of_le_of_ne h (Ne.symm hij)) hj hi
  refine ⟨fun i => pf_callback_eq _ _ _ i, hdisj, ?_, ?_⟩
  · intro x hbx hxe
    have hxb0 : 0 ≤ x - r.m_begin := by linarith
    set q : Int := (x - r.m_begin) / r.m_block_size with hqdef
    have hq0 : 0 ≤ q := Int.ediv_nonneg hxb0 (le_of_lt hk0)
    have h1 := Int.ediv_add_emod (x - r.m_begin) r.m_block_size
    have h2 := Int.emod_nonneg (x - r.m_begin) (ne_of_gt hk0)
    have h3 := Int.emod_lt_of_pos (x - r.m_begin) hk0
    have htn : ((q.toNat : Nat) : Int) = q := Int.toNat_of_nonneg hq0
    have hchunk : inChunk r q.toNat x := by
      rw [inChunk_iff]
      rw [htn]
      refine ⟨by linarith, by linarith [mul_comm r.m_block_size q], hxe⟩
    have hblocks := blocks_eq_of_fit r hbe hk hfit
    have hqlt : q < ((r.blocks : Nat) : Int) := by
      rw [hblocks]
      have hle : x - r.m_begin ≤ r.m_end - r.m_begin - 1 := by linarith
      have hmono := Int.ediv_le_ediv hk0 hle
      have hrw : r.m_end - r.m_begin + r.m_block_size - 1 =
          (r.m_end - r.m_begin - 1) + 1 * r.m_block_size := by ring
      rw [hrw, Int.add_mul_ediv_right _ _ (ne_of_gt hk0)]
      omega
    have hqlt2 : q.toNat < r.blocks := by
      rw [← htn] at hqlt
      exact_mod_cast hqlt
    refine ⟨q.toNat, hqlt2, hchunk, ?_⟩
    intro j hj
    by_contra hne
    exact hdisj j q.toNat x hne hj hchunk
  · intro i x hx
    rw [inChunk_iff] at hx
    have hi0 : 0 ≤ (i : Int) * r.m_block_size :=
      mul_nonneg (by exact_mod_cast Nat.zero_le i) (le_of_lt hk0)
    exact ⟨by linarith [hx.1], hx.2.2⟩

/-- C9 counterexample: for `blocked_range(0, 2^32, 1)` the hypotheses of the
claim hold (`begin ≤ end`, `block_size ≥ 1`), the element 0 lies in
`[begin, end)`, yet no work-unit index below `blocks()` covers it — the
`uint32_t` cast makes `blocks()` 0, so the union of the sub-ranges is empty
rather than `[begin, end)`. -/
theorem c9_counterexample :
    ((0 : Int) ≤ 0 ∧ (0 : Int) < 2 ^ 32) ∧
    ¬ (∃ i : Nat,
        i < blocked_range.blocks { m_begin := 0, m_end := 2 ^ 32, m_block_size := 1 } ∧
        inChunk { m_begin := 0, m_end := 2 ^ 32, m_block_size := 1 } i 0) := by
  refine ⟨⟨le_refl 0, by norm_num⟩, ?_⟩
  rintro ⟨i, hi, -⟩
  have hb : blocked_range.blocks
      { m_begin := 0, m_end := 2 ^ 32, m_block_size := 1 } = 0 := by decide
  rw [hb] at hi
  exact Nat.not_lt_zero i hi

/-- C9 witness: the amended theorem applied to `blocked_range(0, 10, 3)` and
element 5, which lies in exactly one sub-range. -/
theorem c9_witness :
    ∃ i : Nat,
      i < blocked_range.blocks { m_begin := 0, m_end := 10, m_block_size := 3 } ∧
      inChunk { m_begin := 0, m_end := 10, m_block_size := 3 } i 5 ∧
      ∀ j : Nat, inChunk { m_begin := 0, m_end := 10, m_block_size := 3 } j 5 → j = i :=
  (c9_chunks_partition { m_begin := 0, m_end := 10, m_block_size := 3 }
    (by decide) (by decide) (by decide)).2.2.1 5 (by decide) (by decide)

end enoki

namespace Nanothread

theorem linkParent_length (t : Nat) (tasks : List TaskRec) (p : Nat) :
    (linkParent t tasks p).length = tasks.length := by
  unfold linkParent
  cases h : tasks[p]? <;> simp

theorem foldl_linkParent_length (t : Nat) (l : List Nat) (tasks : List TaskRec) :
    (l.foldl (linkParent t) tasks).length = tasks.length := by
  induction l generalizing tasks with
  | nil => rfl
  | cons p ps ih => rw [List.foldl_cons, ih, linkParent_length]

/-- C1: `task_submit_dep` with `size = 1`, no payload deleter, and either no
parents or only already-completed listed parents, returns a null handle, has
already invoked the callback (if non-null) exactly once by appending precisely
one inline-run event to the trace during the call (i.e. on the calling
thread), and touches no other pool state. -/
theorem c1_inline_fast_path (s : PoolState) (a : SubmitArgs)
    (hsz : a.size = 1) (hdel : a.deleter = false)
    (hpar : a.parents = [] ∨
      ∀ p : Nat, some p ∈ a.parents → isIncomplete s p = false) :
    (submit a s).2 = none ∧
    (submit a s).1.trace = s.trace ++
      (if a.hasFunc then [Event.inlineRun (resolvePayload a)] else []) ∧
    (submit a s).1.tasks = s.tasks ∧
    (submit a s).1.queue = s.queue ∧
    (submit a s).1.submitted = s.submitted := by
  have hip : ((a.parents.filterMap id).filter
        (fun p => (liveRec s p).isSome)).filter
      (fun p => isIncomplete s p) = [] := by
    rcases hpar with h | h
    · rw [h]
      rfl
    · rw [List.filter_eq_nil_iff]
      intro p hp
      have hp1 : p ∈ a.parents.filterMap id := List.mem_of_mem_filter hp
      rcases List.mem_filterMap.mp hp1 with ⟨o, ho, hoe⟩
      have hop : o = some p := hoe
      rw [hop] at ho
      rw [h p ho]
      simp
  simp only [submit]
  rw [hip]
  rw [if_pos ⟨hsz, hdel, rfl⟩]
  exact ⟨rfl, rfl, rfl, rfl, rfl⟩

/-- C1 witness: the fast path on the empty pool with the unit-sized sample
task: null handle, and exactly the one inline invocation appended. -/
theorem c1_witness :
    (submit sampleUnit initState).2 = none ∧
    (submit sampleUnit initState).1.trace = initState.trace ++
      (if sampleUnit.hasFunc
        then [Event.inlineRun (resolvePayload sampleUnit)] else []) ∧
    (submit sampleUnit initState).1.tasks = initState.tasks ∧
    (submit sampleUnit initState).1.queue = initState.queue ∧
    (submit sampleUnit initState).1.submitted = initState.submitted :=
  c1_inline_fast_path initState sampleUnit rfl rfl (Or.inl rfl)

/-- C3: `task_submit_dep` with `size = 0` never takes the inline fast path: it
returns a non-null handle (the fresh task id), the trace is unchanged when the
call returns (nothing ran inline on the calling thread), and a task record was
allocated for asynchronous execution. -/
theorem c3_size_zero_async (s : PoolState) (a : SubmitArgs) (hsz : a.size = 0) :
    (submit a s).2 = some s.tasks.length ∧
    (submit a s).1.trace = s.trace ∧
    (submit a s).1.tasks.length = s.tasks.length + 1 := by
  simp only [submit]
  have hcond : ¬ (a.size = 1 ∧ a.deleter = false ∧
      ((a.parents.filterMap id).filter
        (fun p => (liveRec s p).isSome)).filter
      (fun p => isIncomplete s p) = []) := by
    intro hc
    rw [hsz] at hc
    exact absurd hc.1 (by decide)
  rw [if_neg hcond]
  refine ⟨rfl, rfl, ?_⟩
  simp [foldl_linkParent_length]

/-- C3 witness: submitting the size-0 sample task to the empty pool returns
handle 0, leaves the trace empty, and allocates one record. -/
theorem c3_witness :
    (submit sampleZero initState).2 = some initState.tasks.length ∧
    (submit sampleZero initState).1.trace = initState.trace ∧
    (submit sampleZero initState).1.tasks.length = initState.tasks.length + 1 :=
  c3_size_zero_async initState sampleZero rfl

/-- C7: `task_wait_and_release` agrees with the sequential composition
`task_wait; task_release` whenever wait re-raises no failure, and in all cases
(also when a failure is re-raised) its final state is `task_release` applied
to the state `task_wait` leaves, with the same re-raised failure: the handle
has been released whether the call returns normally or raises. -/
theorem c7_wait_release_equiv (f : Nat) (ot : Option Nat) (s : PoolState) :
    ((task_wait f ot s).2 = none →
      task_wait_and_release f ot s = waitThenRelease f ot s) ∧
    (task_wait_and_release f ot s).1 = task_release ot (task_wait f ot s).1 ∧
    (task_wait_and_release f ot s).2 = (task_wait f ot s).2 := by
  refine ⟨?_, rfl, rfl⟩
  intro h
  unfold task_wait_and_release waitThenRelease
  rcases hw : task_wait f ot s with ⟨s1, e⟩
  rw [hw] at h
  simp only at h
  rw [h]

/-- C7 witness: on the completed failing sample task, wait-and-release
re-raises failure 7 yet its final state is the released one; on a fresh null
wait (no failure) the sequential composition agrees exactly. -/
theorem c7_witness :
    (task_wait_and_release 3 (some 0) sampleFailingDone).1 =
      task_release (some 0) (task_wait 3 (some 0) sampleFailingDone).1 ∧
    (task_wait_and_release 3 (some 0) sampleFailingDone).2 = some 7 ∧
    task_wait_and_release 1 none sampleFailingDone =
      waitThenRelease 1 none sampleFailingDone := by
  refine ⟨(c7_wait_release_equiv 3 (some 0) sampleFailingDone).2.1, ?_, ?_⟩
  · rw [(c7_wait_release_equiv 3 (some 0) sampleFailingDone).2.2]
    decide
  · exact (c7_wait_release_equiv 1 none sampleFailingDone).1 (by decide)

/-- C8: `task_release`, `task_wait` and `task_wait_and_release` applied to a
null task handle are no-ops for every pool state and every fuel: they leave
the state unchanged and re-raise nothing. -/
theorem c8_null_noops (f : Nat) (s : PoolState) :
    task_wait f none s = (s, none) ∧
    task_release none s = s ∧
    task_wait_and_release f none s = (s, none) :=
  ⟨rfl, rfl, rfl⟩

/-- C2 counterexample: the size-0 sample task (callback present), executed to
completion: its callback is invoked once (with index 0), not zero times as
the claim states — a size-0 task behaves as a unit-sized task forced to be
asynchronous (thread.h lines 132-136). -/
theorem c2_counterexample :
    countRunT sampleZeroDone.trace 0 = 1 ∧
    ¬ countRunT sampleZeroDone.trace 0 = 0 := by
  constructor <;> decide

theorem taskIdx_lt {l : List TaskRec} {t : Nat} {r : TaskRec}
    (h : l[t]? = some r) : t < l.length := by
  rcases List.getElem?_eq_some.mp h with ⟨h1, _⟩
  exact h1

theorem updAllAux_getElem (f : Nat → TaskRec → TaskRec) (n : Nat)
    (l : List TaskRec) (j : Nat) :
    (updAllAux f n l)[j]? = (l[j]?).map (f (n + j)) := by
  induction l generalizing n j with
  | nil => simp [updAllAux]
  | cons r rs ih =>
    cases j with
    | zero => simp [updAllAux]
    | succ k =>
      rw [updAllAux, List.getElem?_cons_succ, List.getElem?_cons_succ, ih]
      have hn : n + (k + 1) = n + 1 + k := by omega
      rw [hn]

theorem updAll_getElem (f : Nat → TaskRec → TaskRec) (l : List TaskRec)
    (j : Nat) : (updAll f l)[j]? = (l[j]?).map (f j) := by
  unfold updAll
  rw [updAllAux_getElem]
  simp

theorem updAllAux_length (f : Nat → TaskRec → TaskRec) (n : Nat)
    (l : List TaskRec) : (updAllAux f n l).length = l.length := by
  induction l generalizing n with
  | nil => rfl
  | cons r rs ih => simp [updAllAux, ih]

theorem updAll_length (f : Nat → TaskRec → TaskRec) (l : List TaskRec) :
    (updAll f l).length = l.length := updAllAux_length f 0 l

theorem mem_unitsFor {t n a b : Nat} :
    (a, b) ∈ unitsFor t n ↔ a = t ∧ b < n := by
  unfold unitsFor
  constructor
  · intro h
    rcases List.mem_map.mp h with ⟨i, hi, he⟩
    cases he
    exact ⟨rfl, List.mem_range.mp hi⟩
  · rintro ⟨rfl, hb⟩
    exact List.mem_map.mpr ⟨b, List.mem_range.mpr hb, rfl⟩

theorem countQ_unitsFor (t n u : Nat) :
    countQ (unitsFor t n) u = if u = t then n else 0 := by
  unfold countQ unitsFor
  rw [List.countP_map]
  by_cases h : u = t
  · subst h
    rw [if_pos rfl]
    have hall : ∀ i ∈ List.range n,
        ((fun x => x.1 == u) ∘ (fun i => (u, i))) i = true := by
      intro i _
      simp
    rw [List.countP_eq_length.mpr hall, List.length_range]
  · rw [if_neg h]
    apply List.countP_eq_zero.mpr
    intro i _
    simp only [Function.comp]
    intro hc
    exact h ((beq_iff_eq.mp hc).symm)

theorem countP_range_eq (i n : Nat) :
    List.countP (fun j => j == i) (List.range n) = if i < n then 1 else 0 := by
  induction n with
  | zero => simp
  | succ m ih =>
    rw [List.range_succ, List.countP_append, ih]
    by_cases h : i < m
    · rw [if_pos h, if_pos (Nat.lt_succ_of_lt h)]
      have : List.countP (fun j => j == i) [m] = 0 := by
        simp [List.countP_cons]
        omega
      omega
    · rw [if_neg h]
      by_cases h2 : i = m
      · subst h2
        simp [List.countP_cons]
      · rw [if_neg (by omega)]
        simp [List.countP_cons]
        omega

theorem countQI_unitsFor (t n u i : Nat) :
    countQI (unitsFor t n) u i = if u = t ∧ i < n then 1 else 0 := by
  unfold countQI unitsFor
  rw [List.countP_map]
  by_cases h : u = t
  · subst h
    have hcomp : ∀ j : Nat,
        ((fun x => x == (u, i)) ∘ (fun j => (u, j))) j = (j == i) := by
      intro j
      simp [Function.comp, Prod.ext_iff]
    rw [List.countP_congr (fun j _ => by rw [hcomp])]
    rw [countP_range_eq]
    by_cases hi : i < n
    · rw [if_pos hi, if_pos ⟨rfl, hi⟩]
    · rw [if_neg hi, if_neg (by tauto)]
  · rw [if_neg (by tauto)]
    apply List.countP_eq_zero.mpr
    intro j _
    simp only [Function.comp]
    intro hc
    have := Prod.ext_iff.mp (beq_iff_eq.mp hc)
    exact h this.1.symm

theorem countP_flatMap_single (l : List Nat) (f : Nat → List (Nat × Nat))
    (p : (Nat × Nat) → Bool) (c : Nat)
    (hf : ∀ a, ∀ x ∈ f a, x.1 = a) (hp : ∀ x, p x = true → x.1 = c)
    (hnd : l.Nodup) :
    (l.flatMap f).countP p = if c ∈ l then (f c).countP p else 0 := by
  induction l with
  | nil => simp
  | cons a as ih =>
    rw [List.flatMap_cons, List.countP_append]
    rcases List.nodup_cons.mp hnd with ⟨hna, hnas⟩
    by_cases hca : c = a
    · subst hca
      rw [ih hnas, if_neg hna, if_pos (List.mem_cons_self c as)]
      omega
    · have h0 : (f a).countP p = 0 := by
        apply List.countP_eq_zero.mpr
        intro x hx hpx
        exact hca ((hp x hpx).symm.trans (hf a x hx))
      rw [h0, ih hnas]
      by_cases hmem : c ∈ as
      · rw [if_pos hmem, if_pos (List.mem_cons_of_mem a hmem)]
        omega
      · rw [if_neg hmem, if_neg (by simp [List.mem_cons, hca, hmem])]

theorem armedUnits_entry_fst (ch : List Nat) (tasks : List TaskRec) :
    ∀ x ∈ armedUnits ch tasks,
      ∃ rc, tasks[x.1]? = some rc ∧ armsNow ch x.1 rc = true ∧
        x.2 < effSize rc.size := by
  intro x hx
  unfold armedUnits at hx
  rcases List.mem_flatMap.mp hx with ⟨c, hc, hxc⟩
  have hcr := List.mem_filter.mp hc
  rcases hm : tasks[c]? with _ | rc
  · rw [hm] at hxc
    simp at hxc
  · rw [hm] at hxc
    rcases x with ⟨a, b⟩
    rcases mem_unitsFor.mp hxc with ⟨rfl, hb⟩
    refine ⟨rc, hm, ?_, hb⟩
    have h2 := hcr.2
    rw [hm] at h2
    exact h2

theorem countP_armedUnits_none (ch : List Nat) (tasks : List TaskRec)
    (p : (Nat × Nat) → Bool) (c : Nat) (hp : ∀ x, p x = true → x.1 = c)
    (hm : tasks[c]? = none) : (armedUnits ch tasks).countP p = 0 := by
  apply List.countP_eq_zero.mpr
  intro x hx hpx
  rcases armedUnits_entry_fst ch tasks x hx with ⟨rc, hrc, -, -⟩
  rw [hp x hpx] at hrc
  rw [hm] at hrc
  exact Option.noConfusion hrc

theorem countP_armedUnits_some (ch : List Nat) (tasks : List TaskRec)
    (p : (Nat × Nat) → Bool) (c : Nat) (rc : TaskRec)
    (hp : ∀ x, p x = true → x.1 = c) (hm : tasks[c]? = some rc) :
    (armedUnits ch tasks).countP p =
      if armsNow ch c rc = true
        then (unitsFor c (effSize rc.size)).countP p else 0 := by
  unfold armedUnits
  rw [countP_flatMap_single _ _ p c ?hf hp ?hnd]
  case hf =>
    intro a x hx
    rcases hma : tasks[a]? with _ | ra
    · rw [hma] at hx
      simp at hx
    · rw [hma] at hx
      rcases x with ⟨u, v⟩
      exact (mem_unitsFor.mp hx).1
  case hnd => exact (List.nodup_range _).filter _
  by_cases ha : armsNow ch c rc = true
  · rw [if_pos ha]
    have hmem : c ∈ (List.range tasks.length).filter (fun c =>
        match tasks[c]? with
        | some rc => armsNow ch c rc
        | none => false) := by
      apply List.mem_filter.mpr
      refine ⟨List.mem_range.mpr (taskIdx_lt hm), ?_⟩
      simp only [hm]
      exact ha
    rw [if_pos hmem]
    simp only [hm]
  · rw [if_neg ha]
    by_cases hmem : c ∈ (List.range tasks.length).filter (fun c =>
        match tasks[c]? with
        | some rc => armsNow ch c rc
        | none => false)
    · exfalso
      have h2 := (List.mem_filter.mp hmem).2
      simp only [hm] at h2
      exact ha h2
    · rw [if_neg hmem]

theorem append_decomp {tr es l1 l2 : List Event} {e : Event}
    (h : tr ++ es = l1 ++ e :: l2) :
    (∃ m, tr = l1 ++ e :: m ∧ l2 = m ++ es) ∨
    (∃ m, l1 = tr ++ m ∧ es = m ++ e :: l2) := by
  rcases List.append_eq_append_iff.mp h with ⟨a, ha1, ha2⟩ | ⟨cp, hc1, hc2⟩
  · exact Or.inr ⟨a, ha1, ha2⟩
  · cases cp with
    | nil =>
      refine Or.inr ⟨[], ?_, ?_⟩
      · rw [hc1, List.append_nil, List.append_nil]
      · rw [List.nil_append] at hc2 ⊢
        exact hc2.symm
    | cons e2 m =>
      rcases List.cons_eq_cons.mp hc2 with ⟨he1, he2⟩
      subst he1
      exact Or.inl ⟨m, hc1, he2⟩

theorem firstFailure_append (tr es : List Event) (t : Nat) :
    firstFailure (tr ++ es) t = (firstFailure tr t).or (firstFailure es t) := by
  unfold firstFailure failuresOf
  rw [List.filterMap_append, List.head?_append]

theorem failuresOf_append (tr es : List Event) (t : Nat) :
    failuresOf (tr ++ es) t = failuresOf tr t ++ failuresOf es t := by
  unfold failuresOf
  rw [List.filterMap_append]

theorem firstFailure_mem {tr : List Event} {t : Nat} {e : Nat}
    (h : firstFailure tr t = some e) : e ∈ failuresOf tr t := by
  unfold firstFailure at h
  exact List.mem_of_mem_head? (Option.mem_def.mpr h)

theorem firstFailure_runTrace_self (t i : Nat) (r : TaskRec) :
    firstFailure (runTrace t i r) t =
      (if r.hasFunc = true then r.outcome i else none) := by
  unfold firstFailure failuresOf runTrace
  cases hf : r.hasFunc
  · simp
  · simp only [if_pos rfl]
    cases ho : r.outcome i <;> simp [failOf, ho]

theorem firstFailure_runTrace_other (t i : Nat) (r : TaskRec) (u : Nat)
    (hu : u ≠ t) : firstFailure (runTrace t i r) u = none := by
  unfold firstFailure failuresOf runTrace
  cases hf : r.hasFunc
  · simp
  · cases ho : r.outcome i <;>
      simp [failOf, List.filterMap_cons, beq_iff_eq, Ne.symm hu]

theorem failuresOf_completionEvents (t : Nat) (r : TaskRec) (u : Nat) :
    failuresOf (completionEvents t r) u = [] := by
  unfold completionEvents failuresOf
  cases r.deleter <;> cases r.payload <;> simp [failOf]

theorem countP_runTrace (t i : Nat) (r : TaskRec) (p : Event → Bool) :
    List.countP p (runTrace t i r) =
      if r.hasFunc = true ∧
          p (Event.run t i r.payload (r.outcome i)) = true then 1 else 0 := by
  unfold runTrace
  cases hf : r.hasFunc
  · simp
  · simp only [List.countP_cons, List.countP_nil, if_true, true_and]
    by_cases hp : p (Event.run t i r.payload (r.outcome i)) = true
    · simp [hp]
    · simp [hp]

theorem countP_run_completionEvents (t : Nat) (r : TaskRec) (u i : Nat) :
    List.countP (isRunEv u i) (completionEvents t r) = 0 := by
  unfold completionEvents
  cases r.deleter <;> cases r.payload <;> simp [isRunEv, List.countP_cons]

theorem countP_runT_completionEvents (t : Nat) (r : TaskRec) (u : Nat) :
    List.countP (isRunEvT u) (completionEvents t r) = 0 := by
  unfold completionEvents
  cases r.deleter <;> cases r.payload <;> simp [isRunEvT, List.countP_cons]

theorem mem_completionEvents {t : Nat} {r : TaskRec} {e : Event} :
    e ∈ completionEvents t r ↔
      e = Event.completed t ∨ (r.deleter = true ∧ e = Event.delRun t) ∨
      (isCopied r.payload = true ∧ e = Event.freeCopy t) := by
  unfold completionEvents
  cases r.deleter <;> cases hp : r.payload <;>
    simp [isCopied, hp]

theorem countFree_completionEvents (t : Nat) (r : TaskRec) (u : Nat) :
    List.countP (fun e => e == Event.freeCopy u) (completionEvents t r) =
      if u = t ∧ isCopied r.payload = true then 1 else 0 := by
  by_cases hu : u = t
  · subst hu
    unfold completionEvents
    cases r.deleter <;> rcases hp : r.payload with _ | b | b <;>
      simp [isCopied, hp, List.countP_cons, beq_iff_eq]
  · rw [if_neg (by tauto)]
    apply List.countP_eq_zero.mpr
    intro e he hbe
    have hee : e = Event.freeCopy u := beq_iff_eq.mp hbe
    subst hee
    rcases mem_completionEvents.mp he with h | ⟨-, h⟩ | ⟨-, h⟩
    · exact Event.noConfusion h
    · exact Event.noConfusion h
    · injection h with h2
      exact hu h2


theorem linkParent_getElem (t : Nat) (tasks : List TaskRec) (p j : Nat) :
    (linkParent t tasks p)[j]? =
      if j = p then
        (tasks[j]?).map (fun r =>
          { r with children := r.children ++ [t], refcount := r.refcount + 1 })
      else tasks[j]? := by
  unfold linkParent
  rcases hm : tasks[p]? with _ | r
  · by_cases hj : j = p
    · subst hj
      rw [if_pos rfl, hm]
      rfl
    · rw [if_neg hj]
  · rw [List.getElem?_set]
    by_cases hj : j = p
    · subst hj
      rw [if_pos rfl, if_pos rfl, if_pos (taskIdx_lt hm), hm]
      rfl
    · rw [if_neg (fun h => hj h.symm), if_neg hj]

theorem foldl_linkParent_getElem (t : Nat) (l : List Nat)
    (tasks : List TaskRec) (j : Nat) :
    (l.foldl (linkParent t) tasks)[j]? =
      (tasks[j]?).map (fun r =>
        { r with children := r.children ++ List.replicate (l.count j) t
                 refcount := r.refcount + l.count j }) := by
  induction l generalizing tasks with
  | nil =>
    cases hm : tasks[j]? with
    | none => rw [List.foldl_nil, hm]; rfl
    | some r => rw [List.foldl_nil, hm]; simp
  | cons p ps ih =>
    rw [List.foldl_cons, ih, linkParent_getElem]
    by_cases hj : j = p
    · subst hj
      rw [if_pos rfl]
      cases hm : tasks[j]? with
      | none => rfl
      | some r =>
        simp only [Option.map_some']
        have hcnt : (j :: ps).count j = ps.count j + 1 := by
          simp [List.count_cons]
        rw [hcnt]
        have h1 : (r.children ++ [t]) ++ List.replicate (ps.count j) t =
            r.children ++ List.replicate (ps.count j + 1) t := by
          rw [List.append_assoc, List.replicate_succ]
          rfl
        have h2 : r.refcount + 1 + ps.count j = r.refcount + (ps.count j + 1) := by
          omega
        rw [h1, h2]
    · rw [if_neg hj]
      have hne : (p == j) = false :=
        beq_eq_false_iff_ne.mpr (fun h => hj h.symm)
      have hcnt : (p :: ps).count j = ps.count j := by
        simp [List.count_cons, hne]
      rw [hcnt]

theorem decParents_frozen (ch : List Nat) (c : Nat) (rc : TaskRec) :
    (decParents ch c rc).size = rc.size ∧
    (decParents ch c rc).hasFunc = rc.hasFunc ∧
    (decParents ch c rc).outcome = rc.outcome ∧
    (decParents ch c rc).payload = rc.payload ∧
    (decParents ch c rc).deleter = rc.deleter ∧
    (decParents ch c rc).dparents = rc.dparents ∧
    (decParents ch c rc).remWork = rc.remWork ∧
    (decParents ch c rc).children = rc.children ∧
    (decParents ch c rc).refcount = rc.refcount ∧
    (decParents ch c rc).exc = rc.exc ∧
    (decParents ch c rc).live = rc.live := by
  unfold decParents
  split_ifs <;> exact ⟨rfl, rfl, rfl, rfl, rfl, rfl, rfl, rfl, rfl, rfl, rfl⟩

theorem decParents_armed (ch : List Nat) (c : Nat) (rc : TaskRec) :
    (decParents ch c rc).armed = (rc.armed || armsNow ch c rc) := by
  unfold decParents
  split_ifs with h1 h2
  · unfold armsNow
    rw [h1]
    simp
  · show true = (rc.armed || armsNow ch c rc)
    rw [h2, Bool.or_true]
  · show rc.armed = (rc.armed || armsNow ch c rc)
    rw [Bool.eq_false_iff.mpr h2, Bool.or_false]

theorem decParents_remParents (ch : List Nat) (c : Nat) (rc : TaskRec) :
    (decParents ch c rc).remParents = rc.remParents - ch.count c := by
  unfold decParents
  split_ifs with h1 h2
  · rw [h1]
    omega
  · unfold armsNow at h2
    simp only [Bool.and_eq_true, decide_eq_true_eq] at h2
    show (0 : Nat) = rc.remParents - ch.count c
    omega
  · rfl

theorem completedIn_iff {tr : List Event} {p : Nat} :
    completedIn tr p = true ↔ Event.completed p ∈ tr := by
  unfold completedIn
  exact ⟨of_decide_eq_true, decide_eq_true⟩

theorem completedIn_append (tr es : List Event) (p : Nat) :
    completedIn (tr ++ es) p = (completedIn tr p || completedIn es p) := by
  unfold completedIn
  by_cases h1 : Event.completed p ∈ tr
  · simp [h1, List.mem_append]
  · by_cases h2 : Event.completed p ∈ es
    · simp [h1, h2, List.mem_append]
    · simp [h1, h2, List.mem_append]

theorem completedIn_runTrace (t i : Nat) (r : TaskRec) (p : Nat) :
    completedIn (runTrace t i r) p = false := by
  unfold completedIn runTrace
  cases r.hasFunc <;> simp

theorem completedIn_completionEvents (t : Nat) (r : TaskRec) (p : Nat) :
    completedIn (completionEvents t r) p = (p == t) := by
  unfold completedIn
  by_cases h : p = t
  · subst h
    simp [mem_completionEvents]
  · have : ¬ Event.completed p ∈ completionEvents t r := by
      intro hm
      rcases mem_completionEvents.mp hm with h2 | ⟨-, h2⟩ | ⟨-, h2⟩
      · injection h2 with h3
        exact h h3
      · exact Event.noConfusion h2
      · exact Event.noConfusion h2
    simp [this, beq_eq_false_iff_ne, h]

theorem length_filter_and_ne (l : List Nat) (q : Nat → Bool) (t : Nat)
    (hq : q t = true) :
    (l.filter (fun p => q p && !(p == t))).length + l.count t =
      (l.filter q).length := by
  induction l with
  | nil => simp
  | cons a as ih =>
    simp only [List.filter_cons, List.count_cons]
    by_cases ha : a = t
    · subst ha
      simp only [beq_self_eq_true, Bool.not_true, Bool.and_false, hq,
        if_true, if_false]
      simp only [Bool.false_eq_true, if_false, List.length_cons]
      omega
    · have hne : (a == t) = false := beq_eq_false_iff_ne.mpr ha
      simp only [hne, Bool.not_false, Bool.and_true, Bool.false_eq_true,
        if_false]
      cases hqa : q a
      · simp only [Bool.false_eq_true, if_false]
        omega
      · simp only [if_true, List.length_cons]
        omega

theorem count_le_length_filter (l : List Nat) (q : Nat → Bool) (t : Nat)
    (hq : q t = true) : l.count t ≤ (l.filter q).length := by
  have := length_filter_and_ne l q t hq
  omega

theorem countQI_le_countQ (q : List (Nat × Nat)) (t i : Nat) :
    countQI q t i ≤ countQ q t := by
  unfold countQI countQ
  apply List.countP_mono_left
  intro x _ hx
  have : x = (t, i) := beq_iff_eq.mp hx
  subst this
  simp

theorem countRun_le_countRunT (tr : List Event) (t i : Nat) :
    countRun tr t i ≤ countRunT tr t := by
  unfold countRun countRunT
  apply List.countP_mono_left
  intro e _ he
  cases e with
  | run t2 i2 pay res =>
    simp [isRunEv] at he
    simp [isRunEvT, he.1]
  | inlineRun pay => simp [isRunEv] at he
  | completed u => simp [isRunEv] at he
  | delRun u => simp [isRunEv] at he
  | freeCopy u => simp [isRunEv] at he

theorem liveRec_eq_some {s : PoolState} {t : Nat} {r : TaskRec}
    (h : liveRec s t = some r) : s.tasks[t]? = some r ∧ r.live = true := by
  unfold liveRec at h
  split at h
  next r2 hm =>
    split at h
    next hl =>
      cases h
      exact ⟨hm, hl⟩
    next hl => exact Option.noConfusion h
  next hm => exact Option.noConfusion h

theorem liveRec_none {s : PoolState} {t : Nat} {r : TaskRec}
    (h : liveRec s t = none) (hm : s.tasks[t]? = some r) : r.live = false := by
  unfold liveRec at h
  split at h
  next r2 hm2 =>
    rw [hm] at hm2
    cases hm2
    split at h
    next hl => exact Option.noConfusion h
    next hl => exact Bool.eq_false_iff.mpr hl
  next hm2 =>
    rw [hm] at hm2
    exact Option.noConfusion hm2

theorem liveRec_of_rec {s : PoolState} {t : Nat} {r : TaskRec}
    (hm : s.tasks[t]? = some r) (hl : r.live = true) : liveRec s t = some r := by
  unfold liveRec
  rw [hm]
  show (if r.live = true then some r else none) = some r
  rw [if_pos hl]

theorem getElem_set_simp {l : List TaskRec} {t : Nat} {r r' : TaskRec}
    (hm : l[t]? = some r) (j : Nat) :
    (l.set t r')[j]? = if j = t then some r' else l[j]? := by
  rw [List.getElem?_set]
  by_cases hj : t = j
  · subst hj
    rw [if_pos rfl, if_pos rfl, if_pos (taskIdx_lt hm)]
  · rw [if_neg hj, if_neg (fun hh => hj hh.symm)]

theorem countQ_pos_of_mem {q : List (Nat × Nat)} {x : Nat × Nat}
    (hx : x ∈ q) : 0 < countQ q x.1 := by
  unfold countQ
  apply List.countP_pos_iff.mpr
  exact ⟨x, hx, by simp⟩

theorem effSize_pos (n : Nat) : 1 ≤ effSize n := le_max_right n 1

theorem inv_set_admin (s : PoolState) (h : Inv s) (t : Nat) (r r' : TaskRec)
    (hm : s.tasks[t]? = some r)
    (hsize : r'.size = r.size) (hhf : r'.hasFunc = r.hasFunc)
    (hout : r'.outcome = r.outcome) (hpay : r'.payload = r.payload)
    (hdel : r'.deleter = r.deleter) (hdp : r'.dparents = r.dparents)
    (hrw : r'.remWork = r.remWork) (hrp : r'.remParents = r.remParents)
    (harm : r'.armed = r.armed) (hch : r'.children = r.children)
    (hexc : r'.exc = r.exc)
    (hlive2 : r'.live = false → r.remWork = 0) :
    Inv { s with tasks := s.tasks.set t r' } := by
  have hget : ∀ j, (s.tasks.set t r')[j]? =
      if j = t then some r' else s.tasks[j]? := getElem_set_simp hm
  have hrec : ∀ j (rr : TaskRec), (s.tasks.set t r')[j]? = some rr →
      (j = t ∧ rr = r') ∨ (s.tasks[j]? = some rr) := by
    intro j rr hj
    rw [hget j] at hj
    by_cases hjt : j = t
    · rw [if_pos hjt] at hj
      cases hj
      exact Or.inl ⟨hjt, rfl⟩
    · rw [if_neg hjt] at hj
      exact Or.inr hj
  refine ⟨?_, ?_, ?_, ?_, ?_, ?_, ?_, ?_, ?_, ?_, ?_, ?_, ?_, ?_, ?_, ?_,
    ?_, ?_, ?_, ?_, ?_, ?_, ?_⟩
  · show s.submitted.map Prod.fst = List.range (s.tasks.set t r').length
    rw [List.length_set]
    exact h.ids
  · intro t0 r0 rr hsub hmm2
    rcases hrec t0 rr hmm2 with ⟨rfl, rfl⟩ | hold
    · have hf := h.frozen t0 r0 r hsub hm
      rw [hsize, hhf, hpay, hdel, hdp, hout]
      exact hf
    · exact h.frozen t0 r0 rr hsub hold
  · exact h.dparents_lt
  · intro e he u hu
    rw [List.length_set]
    exact h.events_lt e he u hu
  · intro x hx
    rw [List.length_set]
    exact h.queue_lt x hx
  · intro x hx rr hmm2
    rcases hrec x.1 rr hmm2 with ⟨hx1, rfl⟩ | hold
    · rw [hsize]
      exact h.queue_idx x hx r (hx1 ▸ hm)
    · exact h.queue_idx x hx rr hold
  · intro x hx rr hmm2
    rcases hrec x.1 rr hmm2 with ⟨hx1, rfl⟩ | hold
    · have hql := h.queue_live x hx r (hx1 ▸ hm)
      refine ⟨?_, harm.trans hql.2⟩
      cases hbl : rr.live with
      | true => rfl
      | false =>
        exfalso
        have h0 := hlive2 hbl
        have h1 : 0 < countQ s.queue x.1 := countQ_pos_of_mem hx
        have h2 := h.queue_count x.1 r (hx1 ▸ hm)
        omega
    · exact h.queue_live x hx rr hold
  · intro u rr hmm2
    rcases hrec u rr hmm2 with ⟨rfl, rfl⟩ | hold
    · rw [hrw]
      exact h.queue_count u r hm
    · exact h.queue_count u rr hold
  · intro u rr hmm2
    rcases hrec u rr hmm2 with ⟨rfl, rfl⟩ | hold
    · rw [hrw]
      exact h.done_iff u r hm
    · exact h.done_iff u rr hold
  · intro u rr hmm2 harm2
    rcases hrec u rr hmm2 with ⟨rfl, rfl⟩ | hold
    · rw [hrw, hsize]
      exact h.unarmed_clean u r hm (harm ▸ harm2)
    · exact h.unarmed_clean u rr hold harm2
  · intro u rr hmm2 harm2 hhf2 i hi
    rcases hrec u rr hmm2 with ⟨rfl, rfl⟩ | hold
    · exact h.armed_units u r hm (harm ▸ harm2) (hhf ▸ hhf2)
        i (by rw [hsize] at hi; exact hi)
    · exact h.armed_units u rr hold harm2 hhf2 i hi
  · intro u rr hmm2 hhf2
    rcases hrec u rr hmm2 with ⟨rfl, rfl⟩ | hold
    · exact h.nofunc_norun u r hm (hhf ▸ hhf2)
    · exact h.nofunc_norun u rr hold hhf2
  · intro u i pay res hrun rr hmm2
    rcases hrec u rr hmm2 with ⟨rfl, rfl⟩ | hold
    · rw [hsize]
      exact h.run_idx u i pay res hrun r hm
    · exact h.run_idx u i pay res hrun rr hold
  · intro u i pay res hrun rr hmm2
    rcases hrec u rr hmm2 with ⟨rfl, rfl⟩ | hold
    · rw [hpay, hhf, hout]
      exact h.run_payload u i pay res hrun r hm
    · exact h.run_payload u i pay res hrun rr hold
  · intro u rr hmm2
    rcases hrec u rr hmm2 with ⟨rfl, rfl⟩ | hold
    · rw [hexc]
      exact h.exc_first u r hm
    · exact h.exc_first u rr hold
  · intro u rr hmm2
    rcases hrec u rr hmm2 with ⟨rfl, rfl⟩ | hold
    · rw [hpay]
      exact h.free_iff u r hm
    · exact h.free_iff u rr hold
  · intro u rr hmm2 hrw2
    rcases hrec u rr hmm2 with ⟨rfl, rfl⟩ | hold
    · rw [hch]
      exact h.completed_children u r hm (hrw ▸ hrw2)
    · exact h.completed_children u rr hold hrw2
  · intro q rq hq c hc
    have hsub : ∀ rc : TaskRec, s.tasks[c]? = some rc → rc.live = true →
        rc.armed = false →
        ∃ rc2, (s.tasks.set t r')[c]? = some rc2 ∧ rc2.live = true ∧
          rc2.armed = false := by
      intro rc hrc hlc hac
      by_cases hct : c = t
      · have hrr : rc = r := by
          rw [hct] at hrc
          exact Option.some.inj (hrc.symm.trans hm)
        refine ⟨r', by rw [hget c, if_pos hct], ?_, harm.trans (hrr ▸ hac)⟩
        cases hbl : r'.live with
        | true => rfl
        | false =>
          exfalso
          have h0 := hlive2 hbl
          have h1 := (h.unarmed_clean c rc hrc hac).2.2
          have h2 := effSize_pos r.size
          rw [hrr] at h1
          omega
      · refine ⟨rc, ?_, hlc, hac⟩
        rw [hget c, if_neg hct]
        exact hrc
    rcases hrec q rq hq with ⟨hqt, hqe⟩ | holdq
    · have hc2 : c ∈ r.children := by
        rw [hqe, hch] at hc
        exact hc
      rcases h.children_rec t r hm c hc2 with ⟨rc, hrc, hlc, hac⟩
      exact hsub rc hrc hlc hac
    · rcases h.children_rec q rq holdq c hc with ⟨rc, hrc, hlc, hac⟩
      exact hsub rc hrc hlc hac
  · intro q rq c rc hq hc
    rcases hrec q rq hq with ⟨rfl, rfl⟩ | holdq <;>
      rcases hrec c rc hc with ⟨rfl, rfl⟩ | holdc
    · rw [hch, hdp]
      exact h.children_count c r c r hm hm
    · rw [hch]
      exact h.children_count q r c rc hm holdc
    · rw [hdp]
      exact h.children_count q rq c r holdq hm
    · exact h.children_count q rq c rc holdq holdc
  · intro u rr hmm2 harm2
    rcases hrec u rr hmm2 with ⟨rfl, rfl⟩ | hold
    · rw [hdp, hrp]
      exact h.remparents_bound u r hm (harm ▸ harm2)
    · exact h.remparents_bound u rr hold harm2
  · intro u rr hmm2 harm2
    rcases hrec u rr hmm2 with ⟨rfl, rfl⟩ | hold
    · rw [hdp]
      exact h.armed_parents u r hm (harm ▸ harm2)
    · exact h.armed_parents u rr hold harm2
  · intro c rc hc p hp l1 l2 i pay res htr
    rcases hrec c rc hc with ⟨rfl, rfl⟩ | hold
    · exact h.parent_before c r hm p (hdp ▸ hp) l1 l2 i pay res htr
    · exact h.parent_before c rc hold p hp l1 l2 i pay res htr
  · exact h.run_before_completed

theorem inv_release (ot : Option Nat) (s : PoolState) (h : Inv s) :
    Inv (task_release ot s) := by
  cases ot with
  | none => exact h
  | some t =>
    unfold task_release
    show Inv (match liveRec s t with
      | none => s
      | some r =>
        if r.refcount - 1 = 0 ∧ r.remWork = 0 then
          { s with tasks := s.tasks.set t { r with refcount := 0, live := false } }
        else
          { s with tasks := s.tasks.set t { r with refcount := r.refcount - 1 } })
    cases hlr : liveRec s t with
    | none => exact h
    | some r =>
      obtain ⟨hm, hlive⟩ := liveRec_eq_some hlr
      show Inv (if r.refcount - 1 = 0 ∧ r.remWork = 0 then
          { s with tasks := s.tasks.set t { r with refcount := 0, live := false } }
        else
          { s with tasks := s.tasks.set t { r with refcount := r.refcount - 1 } })
      by_cases hc : r.refcount - 1 = 0 ∧ r.remWork = 0
      · rw [if_pos hc]
        exact inv_set_admin s h t r _ hm rfl rfl rfl rfl rfl rfl rfl rfl rfl
          rfl rfl (fun _ => hc.2)
      · rw [if_neg hc]
        exact inv_set_admin s h t r _ hm rfl rfl rfl rfl rfl rfl rfl rfl rfl
          rfl rfl (fun hf => absurd hlive (by rw [show r.live = false from hf]; simp))

theorem inv_init : Inv initState := by
  have hT : ∀ (j : Nat) (r : TaskRec), initState.tasks[j]? = some r → False := by
    intro j r hm
    simp [initState] at hm
  have hS : ∀ (p : Nat × TaskRec), p ∈ initState.submitted → False := by
    intro p hp
    simp [initState] at hp
  have hE : ∀ (e : Event), e ∈ initState.trace → False := by
    intro e he
    simp [initState] at he
  have hQ : ∀ (x : Nat × Nat), x ∈ initState.queue → False := by
    intro x hx
    simp [initState] at hx
  refine ⟨rfl, ?_, ?_, ?_, ?_, ?_, ?_, ?_, ?_, ?_, ?_, ?_, ?_, ?_, ?_, ?_,
    ?_, ?_, ?_, ?_, ?_, ?_, ?_⟩
  · intro t r0 r hsub hm
    exact (hS _ hsub).elim
  · intro t r0 hsub
    exact (hS _ hsub).elim
  · intro e he
    exact (hE e he).elim
  · intro x hx
    exact (hQ x hx).elim
  · intro x hx
    exact (hQ x hx).elim
  · intro x hx
    exact (hQ x hx).elim
  · intro t r hm
    exact (hT t r hm).elim
  · intro t r hm
    exact (hT t r hm).elim
  · intro t r hm
    exact (hT t r hm).elim
  · intro t r hm
    exact (hT t r hm).elim
  · intro t r hm
    exact (hT t r hm).elim
  · intro t i pay res hrun
    exact (hE _ hrun).elim
  · intro t i pay res hrun
    exact (hE _ hrun).elim
  · intro t r hm
    exact (hT t r hm).elim
  · intro t r hm
    exact (hT t r hm).elim
  · intro t r hm
    exact (hT t r hm).elim
  · intro q rq hq
    exact (hT q rq hq).elim
  · intro q rq c rc hq
    exact (hT q rq hq).elim
  · intro t r hm
    exact (hT t r hm).elim
  · intro t r hm
    exact (hT t r hm).elim
  · intro c rc hc
    exact (hT c rc hc).elim
  · intro p l1 l2 htr
    simp [initState] at htr

theorem count_filter_le_count (p : Nat → Bool) (l : List Nat) (a : Nat) :
    (l.filter p).count a ≤ l.count a := by
  induction l with
  | nil => simp
  | cons b bs ih =>
    rw [List.filter_cons, List.count_cons]
    by_cases hb : p b = true
    · rw [if_pos hb, List.count_cons]
      omega
    · rw [if_neg hb]
      omega

theorem ghost_lt {s : PoolState} (h : Inv s) {t0 : Nat} {r0 : TaskRec}
    (hsub : (t0, r0) ∈ s.submitted) : t0 < s.tasks.length := by
  have hmem : t0 ∈ s.submitted.map Prod.fst := List.mem_map.mpr ⟨(t0, r0), hsub, rfl⟩
  rw [h.ids] at hmem
  exact List.mem_range.mp hmem

theorem ghost_exists {s : PoolState} (h : Inv s) {t : Nat}
    (ht : t < s.tasks.length) : ∃ r0, (t, r0) ∈ s.submitted := by
  have hmem : t ∈ s.submitted.map Prod.fst := by
    rw [h.ids]
    exact List.mem_range.mpr ht
  rcases List.mem_map.mp hmem with ⟨⟨t2, r0⟩, hp, he⟩
  cases he
  exact ⟨r0, hp⟩

theorem failuresOf_mem_run {tr : List Event} {u : Nat} {e : Nat}
    (h : e ∈ failuresOf tr u) :
    ∃ i pay, Event.run u i pay (some e) ∈ tr := by
  unfold failuresOf at h
  rcases List.mem_filterMap.mp h with ⟨ev, hev, hfe⟩
  cases ev with
  | run t2 i2 pay res =>
    cases res with
    | none => exact Option.noConfusion hfe
    | some er =>
      have hfe2 : (if (t2 == u) = true then some er else none) = some e := hfe
      by_cases ht : (t2 == u) = true
      · rw [if_pos ht] at hfe2
        cases hfe2
        have ht2 : t2 = u := beq_iff_eq.mp ht
        subst ht2
        exact ⟨i2, pay, hev⟩
      · rw [if_neg ht] at hfe2
        exact Option.noConfusion hfe2
  | inlineRun pay => exact Option.noConfusion hfe
  | completed t2 => exact Option.noConfusion hfe
  | delRun t2 => exact Option.noConfusion hfe
  | freeCopy t2 => exact Option.noConfusion hfe

theorem inv_append_inert (s : PoolState) (h : Inv s) (es : List Event)
    (hno : ∀ e ∈ es, eventTask e = none) :
    Inv { s with trace := s.trace ++ es } := by
  have hnorun : ∀ u i pay res, Event.run u i pay res ∈ es → False := by
    intro u i pay res hm
    have := hno _ hm
    exact Option.noConfusion this
  have hnocompleted : ∀ u, Event.completed u ∈ es → False := by
    intro u hm
    have := hno _ hm
    exact Option.noConfusion this
  have hnofree : ∀ u, Event.freeCopy u ∈ es → False := by
    intro u hm
    have := hno _ hm
    exact Option.noConfusion this
  have hcrun : ∀ u i, List.countP (isRunEv u i) es = 0 := by
    intro u i
    apply List.countP_eq_zero.mpr
    intro e he hp
    cases e with
    | run t2 i2 pay res => exact hnorun t2 i2 pay res he
    | inlineRun pay => simp [isRunEv] at hp
    | completed t2 => simp [isRunEv] at hp
    | delRun t2 => simp [isRunEv] at hp
    | freeCopy t2 => simp [isRunEv] at hp
  have hcrunT : ∀ u, List.countP (isRunEvT u) es = 0 := by
    intro u
    apply List.countP_eq_zero.mpr
    intro e he hp
    cases e with
    | run t2 i2 pay res => exact hnorun t2 i2 pay res he
    | inlineRun pay => simp [isRunEvT] at hp
    | completed t2 => simp [isRunEvT] at hp
    | delRun t2 => simp [isRunEvT] at hp
    | freeCopy t2 => simp [isRunEvT] at hp
  have hcfree : ∀ u, List.countP (fun e => e == Event.freeCopy u) es = 0 := by
    intro u
    apply List.countP_eq_zero.mpr
    intro e he hp
    have : e = Event.freeCopy u := beq_iff_eq.mp hp
    subst this
    exact (hnofree u he).elim
  have hff : ∀ u, failuresOf es u = [] := by
    intro u
    apply List.filterMap_eq_nil.mpr
    intro e he
    cases e with
    | run t2 i2 pay res => exact (hnorun t2 i2 pay res he).elim
    | inlineRun pay => rfl
    | completed t2 => rfl
    | delRun t2 => rfl
    | freeCopy t2 => rfl
  have hmem2 : ∀ u, (Event.completed u ∈ s.trace ++ es) ↔
      Event.completed u ∈ s.trace := by
    intro u
    rw [List.mem_append]
    constructor
    · rintro (hh | hh)
      · exact hh
      · exact (hnocompleted u hh).elim
    · exact Or.inl
  have hcomIn : ∀ u, completedIn (s.trace ++ es) u = completedIn s.trace u := by
    intro u
    rw [completedIn_append]
    cases hcc : completedIn es u with
    | true =>
      exfalso
      exact hnocompleted u (completedIn_iff.mp hcc)
    | false => rw [Bool.or_false]
  refine ⟨h.ids, h.frozen, h.dparents_lt, ?_, h.queue_lt, h.queue_idx,
    h.queue_live, h.queue_count, ?_, ?_, ?_, ?_, ?_, ?_, ?_, ?_,
    h.completed_children, h.children_rec, h.children_count, ?_, ?_, ?_, ?_⟩
  · intro e he u hu
    rcases List.mem_append.mp he with hh | hh
    · exact h.events_lt e hh u hu
    · rw [hno e hh] at hu
      exact Option.noConfusion hu
  · intro u rr hm
    rw [hmem2 u]
    exact h.done_iff u rr hm
  · intro u rr hm harm
    have old := h.unarmed_clean u rr hm harm
    refine ⟨old.1, ?_, old.2.2⟩
    show List.countP (isRunEvT u) (s.trace ++ es) = 0
    rw [List.countP_append, hcrunT u]
    exact old.2.1
  · intro u rr hm harm hhf i hi
    have old := h.armed_units u rr hm harm hhf i hi
    show countQI s.queue u i + List.countP (isRunEv u i) (s.trace ++ es) = 1
    rw [List.countP_append, hcrun u i]
    unfold countRun at old
    omega
  · intro u rr hm hhf
    show List.countP (isRunEvT u) (s.trace ++ es) = 0
    rw [List.countP_append, hcrunT u]
    have old := h.nofunc_norun u rr hm hhf
    unfold countRunT at old
    omega
  · intro u i pay res hrun rr hm
    rcases List.mem_append.mp hrun with hh | hh
    · exact h.run_idx u i pay res hh rr hm
    · exact (hnorun u i pay res hh).elim
  · intro u i pay res hrun rr hm
    rcases List.mem_append.mp hrun with hh | hh
    · exact h.run_payload u i pay res hh rr hm
    · exact (hnorun u i pay res hh).elim
  · intro u rr hm
    show rr.exc = firstFailure (s.trace ++ es) u
    rw [firstFailure_append]
    unfold firstFailure
    rw [hff u]
    show rr.exc = (firstFailure s.trace u).or none
    rw [Option.or_none]
    exact h.exc_first u rr hm
  · intro u rr hm
    show List.countP (fun e => e == Event.freeCopy u) (s.trace ++ es) = _
    rw [List.countP_append, hcfree u]
    have old := h.free_iff u rr hm
    rw [Nat.add_zero]
    by_cases hc : Event.completed u ∈ s.trace ∧ isCopied rr.payload = true
    · rw [if_pos ⟨(hmem2 u).mpr hc.1, hc.2⟩]
      rw [if_pos hc] at old
      exact old
    · have hc2 : ¬ (Event.completed u ∈ s.trace ++ es ∧
          isCopied rr.payload = true) := by
        intro hcc
        exact hc ⟨(hmem2 u).mp hcc.1, hcc.2⟩
      rw [if_neg hc2]
      rw [if_neg hc] at old
      exact old
  · intro u rr hm harm
    have old := h.remparents_bound u rr hm harm
    have : rr.dparents.filter (fun p => !(completedIn (s.trace ++ es) p)) =
        rr.dparents.filter (fun p => !(completedIn s.trace p)) := by
      apply List.filter_congr
      intro p _
      rw [hcomIn p]
    rw [this]
    exact old
  · intro u rr hm harm p hp
    rw [List.mem_append]
    exact Or.inl (h.armed_parents u rr hm harm p hp)
  · intro c rc hc p hp l1 l2 i pay res htr
    rcases append_decomp htr with ⟨m, hm1, -⟩ | ⟨m, -, hm2⟩
    · exact h.parent_before c rc hc p hp l1 m i pay res hm1
    · exfalso
      have hrm : Event.run c i pay res ∈ es := by
        rw [hm2]
        exact List.mem_append_right m (List.mem_cons_self _ _)
      exact hnorun c i pay res hrm
  · intro p l1 l2 htr j pay res hj
    rcases append_decomp htr with ⟨m, hm1, hm2⟩ | ⟨m, -, hm2⟩
    · rw [hm2] at hj
      rcases List.mem_append.mp hj with hh | hh
      · exact h.run_before_completed p l1 m hm1 j pay res hh
      · exact hnorun p j pay res hh
    · have hcm : Event.completed p ∈ es := by
        rw [hm2]
        exact List.mem_append_right m (List.mem_cons_self _ _)
      exact (hnocompleted p hcm).elim

set_option maxHeartbeats 1000000

theorem inv_submit_slow (s : PoolState) (h : Inv s) (a : SubmitArgs)
    (dpar ipar : List Nat)
    (hdp : dpar = (a.parents.filterMap id).filter
      (fun p => (liveRec s p).isSome))
    (hip : ipar = dpar.filter (fun p => isIncomplete s p)) :
    Inv { tasks := (ipar.foldl (linkParent s.tasks.length) s.tasks) ++
            [freshRec a dpar ipar]
          queue := if ipar.isEmpty then
              s.queue ++ unitsFor s.tasks.length (effSize a.size) else s.queue
          trace := s.trace
          submitted := s.submitted ++ [(s.tasks.length, freshRec a dpar ipar)] } := by
  set len := s.tasks.length with hlend
  set r := freshRec a dpar ipar with hrd
  set tasks1 := ipar.foldl (linkParent len) s.tasks with ht1
  have hlen1 : tasks1.length = len := foldl_linkParent_length len ipar s.tasks
  have htlen : (tasks1 ++ [r]).length = len + 1 := by
    rw [List.length_append, hlen1]
    rfl
  have hdparlive : ∀ p ∈ dpar, ∃ rp, s.tasks[p]? = some rp ∧ rp.live = true := by
    intro p hp
    rw [hdp] at hp
    have hs := (List.mem_filter.mp hp).2
    rcases hlr : liveRec s p with _ | rp
    · rw [hlr] at hs
      simp at hs
    · exact ⟨rp, (liveRec_eq_some hlr).1, (liveRec_eq_some hlr).2⟩
  have hdpar_lt : ∀ p ∈ dpar, p < len := by
    intro p hp
    rcases hdparlive p hp with ⟨rp, hrp, -⟩
    exact taskIdx_lt hrp
  have hipar_sub : ∀ p ∈ ipar, p ∈ dpar := by
    rw [hip]
    exact fun p hp => List.mem_of_mem_filter hp
  have hipar_inc : ∀ p rp, p ∈ ipar → s.tasks[p]? = some rp → rp.remWork ≠ 0 := by
    intro p rp hp hrp
    have hinc : isIncomplete s p = true := by
      rw [hip] at hp
      exact (List.mem_filter.mp hp).2
    rcases hdparlive p (hipar_sub p hp) with ⟨rp2, hrp2, hl2⟩
    rw [hrp] at hrp2
    cases hrp2
    unfold isIncomplete at hinc
    rw [liveRec_of_rec hrp hl2] at hinc
    simp at hinc
    exact hinc
  have hcnt0 : ∀ j, j ∉ ipar → ipar.count j = 0 := by
    intro j hj
    exact List.count_eq_zero.mpr hj
  have hget : ∀ j, (tasks1 ++ [r])[j]? =
      if j = len then some r
      else (s.tasks[j]?).map (fun rr =>
        { rr with children := rr.children ++ List.replicate (ipar.count j) len
                  refcount := rr.refcount + ipar.count j }) := by
    intro j
    by_cases hj : j = len
    · subst hj
      rw [if_pos rfl, List.getElem?_append_right (by omega), hlen1]
      simp
    · rw [if_neg hj]
      by_cases hlt : j < len
      · rw [List.getElem?_append, if_pos (by omega), ht1,
          foldl_linkParent_getElem]
      · have hj2 : len < j := by omega
        rw [List.getElem?_append, if_neg (by omega)]
        rw [List.getElem?_eq_none (by simp [hlen1]; omega)]
        rw [List.getElem?_eq_none (by omega : s.tasks.length ≤ j)]
        rfl
  have hrec2 : ∀ j (rr : TaskRec), (tasks1 ++ [r])[j]? = some rr →
      (j = len ∧ rr = r) ∨
      (j < len ∧ ∃ rr0, s.tasks[j]? = some rr0 ∧
        rr = { rr0 with
          children := rr0.children ++ List.replicate (ipar.count j) len
          refcount := rr0.refcount + ipar.count j }) := by
    intro j rr hj
    rw [hget j] at hj
    by_cases hjl : j = len
    · rw [if_pos hjl] at hj
      cases hj
      exact Or.inl ⟨hjl, rfl⟩
    · rw [if_neg hjl] at hj
      rcases hmo : s.tasks[j]? with _ | rr0
      · rw [hmo] at hj
        exact Option.noConfusion hj
      · rw [hmo] at hj
        simp only [Option.map_some'] at hj
        cases hj
        exact Or.inr ⟨taskIdx_lt hmo, rr0, rfl, rfl⟩
  have hfresh_norunT : countRunT s.trace len = 0 := by
    apply List.countP_eq_zero.mpr
    intro e he hp
    cases e with
    | run t2 i2 pay res =>
      have ht2 : t2 = len := by
        simp [isRunEvT] at hp
        exact hp
      subst ht2
      exact absurd (h.events_lt _ he len rfl) (lt_irrefl len)
    | inlineRun pay => simp [isRunEvT] at hp
    | completed t2 => simp [isRunEvT] at hp
    | delRun t2 => simp [isRunEvT] at hp
    | freeCopy t2 => simp [isRunEvT] at hp
  have hfresh_norun : ∀ i, countRun s.trace len i = 0 := by
    intro i
    have := countRun_le_countRunT s.trace len i
    omega
  have hfresh_nocompleted : Event.completed len ∉ s.trace := by
    intro hc
    exact absurd (h.events_lt _ hc len rfl) (lt_irrefl len)
  have hfresh_nofree : countFree s.trace len = 0 := by
    apply List.countP_eq_zero.mpr
    intro e he hp
    have he2 : e = Event.freeCopy len := beq_iff_eq.mp hp
    subst he2
    exact absurd (h.events_lt _ he len rfl) (lt_irrefl len)
  have hfresh_norunev : ∀ i pay res, Event.run len i pay res ∈ s.trace → False := by
    intro i pay res hrun
    exact absurd (h.events_lt _ hrun len rfl) (lt_irrefl len)
  have hfresh_noQ : countQ s.queue len = 0 := by
    apply List.countP_eq_zero.mpr
    intro x hx hp
    have hx1 : x.1 = len := beq_iff_eq.mp hp
    have := h.queue_lt x hx
    omega
  have hfresh_noQI : ∀ i, countQI s.queue len i = 0 := by
    intro i
    have := countQI_le_countQ s.queue len i
    omega
  have hfresh_ff : firstFailure s.trace len = none := by
    cases hf : firstFailure s.trace len with
    | none => rfl
    | some e =>
      exfalso
      rcases failuresOf_mem_run (firstFailure_mem hf) with ⟨i, pay, hrun⟩
      exact hfresh_norunev i pay (some e) hrun
  -- queue membership and counting for the new queue
  have hqmem : ∀ x : Nat × Nat,
      x ∈ (if ipar.isEmpty then
        s.queue ++ unitsFor len (effSize a.size) else s.queue) →
      x ∈ s.queue ∨ (ipar.isEmpty = true ∧ x.1 = len ∧
        x.2 < effSize a.size) := by
    intro x hx
    by_cases hemp : ipar.isEmpty
    · rw [if_pos hemp] at hx
      rcases List.mem_append.mp hx with hh | hh
      · exact Or.inl hh
      · rcases x with ⟨u, v⟩
        rcases mem_unitsFor.mp hh with ⟨h1, h2⟩
        exact Or.inr ⟨hemp, h1, h2⟩
    · rw [if_neg hemp] at hx
      exact Or.inl hx
  have hqcount : ∀ u, countQ (if ipar.isEmpty then
      s.queue ++ unitsFor len (effSize a.size) else s.queue) u =
      countQ s.queue u +
        (if ipar.isEmpty = true ∧ u = len then effSize a.size else 0) := by
    intro u
    by_cases hemp : ipar.isEmpty
    · rw [if_pos hemp]
      unfold countQ
      rw [List.countP_append]
      show countQ s.queue u + countQ (unitsFor len (effSize a.size)) u = _
      rw [countQ_unitsFor]
      by_cases hu : u = len
      · rw [if_pos hu, if_pos ⟨hemp, hu⟩]
        rfl
      · rw [if_neg hu, if_neg (by tauto)]
        rfl
    · rw [if_neg hemp, if_neg (by tauto), Nat.add_zero]
  have hqcountI : ∀ u i, countQI (if ipar.isEmpty then
      s.queue ++ unitsFor len (effSize a.size) else s.queue) u i =
      countQI s.queue u i +
        (if ipar.isEmpty = true ∧ u = len ∧ i < effSize a.size
          then 1 else 0) := by
    intro u i
    by_cases hemp : ipar.isEmpty
    · rw [if_pos hemp]
      unfold countQI
      rw [List.countP_append]
      show countQI s.queue u i + countQI (unitsFor len (effSize a.size)) u i = _
      rw [countQI_unitsFor]
      by_cases hu : u = len ∧ i < effSize a.size
      · rw [if_pos hu, if_pos ⟨hemp, hu.1, hu.2⟩]
        rfl
      · rw [if_neg hu, if_neg (by tauto)]
        rfl
    · rw [if_neg hemp, if_neg (by tauto), Nat.add_zero]
  refine ⟨?_, ?_, ?_, ?_, ?_, ?_, ?_, ?_, ?_, ?_, ?_, ?_, ?_, ?_, ?_, ?_,
    ?_, ?_, ?_, ?_, ?_, ?_, ?_⟩
  · show (s.submitted ++ [(len, r)]).map Prod.fst =
      List.range (tasks1 ++ [r]).length
    rw [htlen, List.map_append, h.ids, List.range_succ]
    rfl
  · intro t0 r0 rr hsub hmm
    rcases List.mem_append.mp hsub with hold | hnew
    · have ht0 : t0 < len := ghost_lt h hold
      rcases hrec2 t0 rr hmm with ⟨he, -⟩ | ⟨-, rr0, hmo, hre⟩
      · omega
      · have old := h.frozen t0 r0 rr0 hold hmo
        rw [hre]
        exact old
    · have hnew2 : (t0, r0) = (len, r) := by simpa using hnew
      injection hnew2 with h1 h2
      subst h1
      subst h2
      rcases hrec2 len rr hmm with ⟨-, hre⟩ | ⟨hlt, -⟩
      · rw [hre]
        exact ⟨rfl, rfl, rfl, rfl, rfl, rfl⟩
      · omega
  · intro t0 r0 hsub p hp
    rcases List.mem_append.mp hsub with hold | hnew
    · exact h.dparents_lt t0 r0 hold p hp
    · have hnew2 : (t0, r0) = (len, r) := by simpa using hnew
      injection hnew2 with h1 h2
      subst h1
      subst h2
      have hp2 : p ∈ dpar := hp
      exact hdpar_lt p hp2
  · intro e he u hu
    have old := h.events_lt e he u hu
    show u < (tasks1 ++ [r]).length
    rw [htlen]
    omega
  · intro x hx
    show x.1 < (tasks1 ++ [r]).length
    rw [htlen]
    rcases hqmem x hx with hh | ⟨-, h1, -⟩
    · have := h.queue_lt x hh
      omega
    · omega
  · intro x hx rr hmm
    rcases hqmem x hx with hh | ⟨-, h1, h2⟩
    · have hxl := h.queue_lt x hh
      rcases hrec2 x.1 rr hmm with ⟨he, -⟩ | ⟨-, rr0, hmo, hre⟩
      · omega
      · have hSz : rr.size = rr0.size := by rw [hre]
        rw [hSz]
        exact h.queue_idx x hh rr0 hmo
    · rcases hrec2 x.1 rr hmm with ⟨-, hre⟩ | ⟨hlt, -⟩
      · have hSz : rr.size = a.size := by rw [hre]; rfl
        rw [hSz]
        exact h2
      · omega
  · intro x hx rr hmm
    rcases hqmem x hx with hh | ⟨hemp, h1, -⟩
    · have hxl := h.queue_lt x hh
      rcases hrec2 x.1 rr hmm with ⟨he, -⟩ | ⟨-, rr0, hmo, hre⟩
      · omega
      · have hL : rr.live = rr0.live := by rw [hre]
        have hA : rr.armed = rr0.armed := by rw [hre]
        rw [hL, hA]
        exact h.queue_live x hh rr0 hmo
    · rcases hrec2 x.1 rr hmm with ⟨-, hre⟩ | ⟨hlt, -⟩
      · have hL : rr.live = true := by rw [hre]; rfl
        have hA : rr.armed = ipar.isEmpty := by rw [hre]; rfl
        rw [hL, hA]
        exact ⟨rfl, hemp⟩
      · omega
  · intro u rr hmm
    show countQ (if ipar.isEmpty then
      s.queue ++ unitsFor len (effSize a.size) else s.queue) u ≤ rr.remWork
    rw [hqcount u]
    rcases hrec2 u rr hmm with ⟨he, hre⟩ | ⟨hlt, rr0, hmo, hre⟩
    · subst he
      have hR : rr.remWork = effSize a.size := by rw [hre]; rfl
      rw [hR, hfresh_noQ]
      by_cases hemp : ipar.isEmpty = true
      · rw [if_pos ⟨hemp, rfl⟩]
        omega
      · rw [if_neg (fun hc => hemp hc.1)]
        omega
    · have hR : rr.remWork = rr0.remWork := by rw [hre]
      rw [hR]
      have old := h.queue_count u rr0 hmo
      have hni : ¬(ipar.isEmpty = true ∧ u = len) := by
        intro hc
        omega
      rw [if_neg hni]
      omega
  · intro u rr hmm
    rcases hrec2 u rr hmm with ⟨he, hre⟩ | ⟨hlt, rr0, hmo, hre⟩
    · subst he
      have hR : rr.remWork = effSize a.size := by rw [hre]; rfl
      rw [hR]
      constructor
      · intro h0
        exfalso
        have := effSize_pos a.size
        omega
      · intro hc
        exact absurd hc hfresh_nocompleted
    · have hR : rr.remWork = rr0.remWork := by rw [hre]
      rw [hR]
      exact h.done_iff u rr0 hmo
  · intro u rr hmm harm2
    rcases hrec2 u rr hmm with ⟨he, hre⟩ | ⟨hlt, rr0, hmo, hre⟩
    · subst he
      have hA : rr.armed = ipar.isEmpty := by rw [hre]; rfl
      rw [hA] at harm2
      refine ⟨?_, hfresh_norunT, by rw [hre]; rfl⟩
      show countQ (if ipar.isEmpty then
        s.queue ++ unitsFor len (effSize a.size) else s.queue) len = 0
      rw [hqcount len, hfresh_noQ]
      have hni : ¬(ipar.isEmpty = true ∧ len = len) := by
        intro hc
        rw [harm2] at hc
        exact Bool.noConfusion hc.1
      rw [if_neg hni]
    · have hA : rr.armed = rr0.armed := by rw [hre]
      have old := h.unarmed_clean u rr0 hmo (hA ▸ harm2)
      refine ⟨?_, old.2.1, by rw [hre]; exact old.2.2⟩
      show countQ (if ipar.isEmpty then
        s.queue ++ unitsFor len (effSize a.size) else s.queue) u = 0
      rw [hqcount u]
      have hni : ¬(ipar.isEmpty = true ∧ u = len) := by
        intro hc
        omega
      rw [if_neg hni]
      omega
  · intro u rr hmm harm2 hhf2 i hi
    rcases hrec2 u rr hmm with ⟨he, hre⟩ | ⟨hlt, rr0, hmo, hre⟩
    · subst he
      have hA : rr.armed = ipar.isEmpty := by rw [hre]; rfl
      have hemp : ipar.isEmpty = true := by rw [← hA]; exact harm2
      have hSz : rr.size = a.size := by rw [hre]; rfl
      rw [hSz] at hi
      show countQI (if ipar.isEmpty then
        s.queue ++ unitsFor len (effSize a.size) else s.queue) len i +
        countRun s.trace len i = 1
      rw [hqcountI len i, hfresh_noQI i, hfresh_norun i,
        if_pos ⟨hemp, rfl, hi⟩]
    · have hA : rr.armed = rr0.armed := by rw [hre]
      have hH : rr.hasFunc = rr0.hasFunc := by rw [hre]
      have hSz : rr.size = rr0.size := by rw [hre]
      rw [hSz] at hi
      have old := h.armed_units u rr0 hmo (hA ▸ harm2) (hH ▸ hhf2) i hi
      show countQI (if ipar.isEmpty then
        s.queue ++ unitsFor len (effSize a.size) else s.queue) u i +
        countRun s.trace u i = 1
      rw [hqcountI u i]
      have hni : ¬(ipar.isEmpty = true ∧ u = len ∧ i < effSize a.size) := by
        intro hc
        have := hc.2.1
        omega
      rw [if_neg hni]
      omega
  · intro u rr hmm hhf2
    rcases hrec2 u rr hmm with ⟨he, hre⟩ | ⟨hlt, rr0, hmo, hre⟩
    · subst he
      exact hfresh_norunT
    · have hH : rr.hasFunc = rr0.hasFunc := by rw [hre]
      exact h.nofunc_norun u rr0 hmo (hH ▸ hhf2)
  · intro u i pay res hrun rr hmm
    rcases hrec2 u rr hmm with ⟨he, hre⟩ | ⟨hlt, rr0, hmo, hre⟩
    · subst he
      exact (hfresh_norunev i pay res hrun).elim
    · have hSz : rr.size = rr0.size := by rw [hre]
      rw [hSz]
      exact h.run_idx u i pay res hrun rr0 hmo
  · intro u i pay res hrun rr hmm
    rcases hrec2 u rr hmm with ⟨he, hre⟩ | ⟨hlt, rr0, hmo, hre⟩
    · subst he
      exact (hfresh_norunev i pay res hrun).elim
    · have hP : rr.payload = rr0.payload := by rw [hre]
      have hH : rr.hasFunc = rr0.hasFunc := by rw [hre]
      have hO : rr.outcome = rr0.outcome := by rw [hre]
      rw [hP, hH, hO]
      exact h.run_payload u i pay res hrun rr0 hmo
  · intro u rr hmm
    rcases hrec2 u rr hmm with ⟨he, hre⟩ | ⟨hlt, rr0, hmo, hre⟩
    · subst he
      have hE : rr.exc = none := by rw [hre]; rfl
      rw [hE, hfresh_ff]
    · have hE : rr.exc = rr0.exc := by rw [hre]
      rw [hE]
      exact h.exc_first u rr0 hmo
  · intro u rr hmm
    rcases hrec2 u rr hmm with ⟨he, hre⟩ | ⟨hlt, rr0, hmo, hre⟩
    · subst he
      show countFree s.trace len = _
      rw [hfresh_nofree, if_neg (fun hc => hfresh_nocompleted hc.1)]
    · have hP : rr.payload = rr0.payload := by rw [hre]
      rw [hP]
      exact h.free_iff u rr0 hmo
  · intro u rr hmm hrw0
    rcases hrec2 u rr hmm with ⟨he, hre⟩ | ⟨hlt, rr0, hmo, hre⟩
    · subst he
      exfalso
      have hR : rr.remWork = effSize a.size := by rw [hre]; rfl
      have := effSize_pos a.size
      omega
    · have hR : rr.remWork = rr0.remWork := by rw [hre]
      have old := h.completed_children u rr0 hmo (hR ▸ hrw0)
      have hC : rr.children =
          rr0.children ++ List.replicate (ipar.count u) len := by rw [hre]
      have hc0 : ipar.count u = 0 := by
        cases hcu : ipar.count u with
        | zero => rfl
        | succ n =>
          exfalso
          have hmem : u ∈ ipar := by
            by_contra hnm
            rw [hcnt0 u hnm] at hcu
            exact Nat.noConfusion hcu
          exact hipar_inc u rr0 hmem hmo (hR ▸ hrw0)
      rw [hC, old, hc0]
      simp
  · intro q rq hq c hc
    rcases hrec2 q rq hq with ⟨he, hre⟩ | ⟨hlt, rq0, hmoq, hre⟩
    · exfalso
      have hC : rq.children = [] := by rw [hre]; rfl
      rw [hC] at hc
      exact List.not_mem_nil c hc
    · have hC : rq.children =
          rq0.children ++ List.replicate (ipar.count q) len := by rw [hre]
      rw [hC] at hc
      rcases List.mem_append.mp hc with hh | hh
      · rcases h.children_rec q rq0 hmoq c hh with ⟨rc, hrc, hlc, hac⟩
        have hcl : c < len := taskIdx_lt hrc
        refine ⟨{ rc with
            children := rc.children ++ List.replicate (ipar.count c) len
            refcount := rc.refcount + ipar.count c }, ?_, hlc, hac⟩
        rw [hget c, if_neg (by omega), hrc]
        rfl
      · have hcl : c = len := List.eq_of_mem_replicate hh
        subst hcl
        refine ⟨r, by rw [hget len, if_pos rfl], rfl, ?_⟩
        have hq0 : ipar ≠ [] := by
          intro hnil
          rw [hnil] at hh
          simp at hh
        show ipar.isEmpty = false
        cases hip2 : ipar with
        | nil => exact absurd hip2 hq0
        | cons z zs => rfl
  · intro q rq c rc hq hc
    rcases hrec2 q rq hq with ⟨heq, hreq⟩ | ⟨hltq, rq0, hmoq, hreq⟩
    · have hC : rq.children = [] := by rw [hreq]; rfl
      rw [hC]
      simp
    · rcases hrec2 c rc hc with ⟨hec, hrc⟩ | ⟨hltc, rc0, hmoc, hrc⟩
      · subst hec
        have hC : rq.children =
            rq0.children ++ List.replicate (ipar.count q) len := by rw [hreq]
        have hD : rc.dparents = dpar := by rw [hrc]; rfl
        rw [hC, hD, List.count_append, List.count_replicate]
        have h0 : rq0.children.count len = 0 := by
          apply List.count_eq_zero.mpr
          intro hmem
          rcases h.children_rec q rq0 hmoq len hmem with ⟨rc2, hrc2, -, -⟩
          exact absurd (taskIdx_lt hrc2) (lt_irrefl len)
        rw [h0, if_pos (beq_self_eq_true len)]
        have hle := count_filter_le_count (fun p => isIncomplete s p) dpar q
        rw [← hip] at hle
        omega
      · have hC : rq.children =
            rq0.children ++ List.replicate (ipar.count q) len := by rw [hreq]
        have hD : rc.dparents = rc0.dparents := by rw [hrc]
        rw [hC, hD, List.count_append, List.count_replicate]
        have hne : (len == c) = false := beq_eq_false_iff_ne.mpr (by omega)
        rw [hne]
        simp only [Bool.false_eq_true, if_false]
        have old := h.children_count q rq0 c rc0 hmoq hmoc
        omega
  · intro u rr hmm harm2
    rcases hrec2 u rr hmm with ⟨he, hre⟩ | ⟨hlt, rr0, hmo, hre⟩
    · subst he
      have hD : rr.dparents = dpar := by rw [hre]; rfl
      have hRP : rr.remParents = ipar.length := by rw [hre]; rfl
      rw [hD, hRP]
      have hfeq : dpar.filter (fun p => !(completedIn s.trace p)) =
          dpar.filter (fun p => isIncomplete s p) := by
        apply List.filter_congr
        intro p hp
        rcases hdparlive p hp with ⟨rp, hrp, hlp⟩
        have hiff := h.done_iff p rp hrp
        have hinc : isIncomplete s p = !(rp.remWork == 0) := by
          unfold isIncomplete
          rw [liveRec_of_rec hrp hlp]
        rw [hinc]
        cases hcc : completedIn s.trace p with
        | true =>
          have hmem := completedIn_iff.mp hcc
          have h0 : rp.remWork = 0 := hiff.mpr hmem
          rw [h0]
          rfl
        | false =>
          have hnmem : Event.completed p ∉ s.trace := by
            intro hmem2
            rw [completedIn_iff.mpr hmem2] at hcc
            exact Bool.noConfusion hcc
          have h0 : rp.remWork ≠ 0 := fun hz => hnmem (hiff.mp hz)
          have h2 : (rp.remWork == 0) = false := by
            rw [beq_eq_false_iff_ne]
            exact h0
          rw [h2]
      rw [hfeq, ← hip]
    · have hD : rr.dparents = rr0.dparents := by rw [hre]
      have hRP : rr.remParents = rr0.remParents := by rw [hre]
      have hA : rr.armed = rr0.armed := by rw [hre]
      rw [hD, hRP]
      exact h.remparents_bound u rr0 hmo (hA ▸ harm2)
  · intro u rr hmm harm2 p hp
    rcases hrec2 u rr hmm with ⟨he, hre⟩ | ⟨hlt, rr0, hmo, hre⟩
    · subst he
      have hD : rr.dparents = dpar := by rw [hre]; rfl
      have hA : rr.armed = ipar.isEmpty := by rw [hre]; rfl
      rw [hD] at hp
      have hemp : ipar.isEmpty = true := by rw [← hA]; exact harm2
      have hnil : ipar = [] := by
        cases hip2 : ipar with
        | nil => rfl
        | cons z zs =>
          rw [hip2] at hemp
          exact Bool.noConfusion hemp
      have hninc : isIncomplete s p = false := by
        cases hii : isIncomplete s p with
        | false => rfl
        | true =>
          exfalso
          have hpin : p ∈ ipar := by
            rw [hip]
            exact List.mem_filter.mpr ⟨hp, hii⟩
          rw [hnil] at hpin
          exact List.not_mem_nil p hpin
      rcases hdparlive p hp with ⟨rp, hrp, hlp⟩
      have hinc : isIncomplete s p = !(rp.remWork == 0) := by
        unfold isIncomplete
        rw [liveRec_of_rec hrp hlp]
      rw [hinc] at hninc
      have h0 : rp.remWork = 0 := by
        cases hrw2 : rp.remWork with
        | zero => rfl
        | succ n =>
          rw [hrw2] at hninc
          simp at hninc
      exact (h.done_iff p rp hrp).mp h0
    · have hD : rr.dparents = rr0.dparents := by rw [hre]
      have hA : rr.armed = rr0.armed := by rw [hre]
      rw [hD] at hp
      exact h.armed_parents u rr0 hmo (hA ▸ harm2) p hp
  · intro c rc hc p hp l1 l2 i pay res htr
    rcases hrec2 c rc hc with ⟨he, hre⟩ | ⟨hlt, rc0, hmo, hre⟩
    · subst he
      exfalso
      have hrm : Event.run len i pay res ∈ s.trace := by
        have htr2 : s.trace = l1 ++ Event.run len i pay res :: l2 := htr
        rw [htr2]
        exact List.mem_append_right l1 (List.mem_cons_self _ _)
      exact hfresh_norunev i pay res hrm
    · have hD : rc.dparents = rc0.dparents := by rw [hre]
      rw [hD] at hp
      exact h.parent_before c rc0 hmo p hp l1 l2 i pay res htr
  · exact h.run_before_completed

/-- Task submission preserves the pool invariant. -/
theorem inv_submit (a : SubmitArgs) (s : PoolState) (h : Inv s) :
    Inv (submit a s).1 := by
  simp only [submit]
  split
  · apply inv_append_inert s h
    intro e he
    cases hhf : a.hasFunc with
    | true =>
      rw [hhf] at he
      simp only [if_true] at he
      have he2 := List.mem_singleton.mp he
      subst he2
      rfl
    | false =>
      rw [hhf] at he
      simp at he
  · exact inv_submit_slow s h a _ _ rfl rfl

theorem mem_runTrace {t i : Nat} {r : TaskRec} {e : Event}
    (h : e ∈ runTrace t i r) :
    r.hasFunc = true ∧ e = Event.run t i r.payload (r.outcome i) := by
  unfold runTrace at h
  cases hf : r.hasFunc
  · rw [hf] at h
    simp at h
  · rw [hf] at h
    simp only [if_true] at h
    exact ⟨rfl, List.mem_singleton.mp h⟩

theorem count_two_le_length (l : List Nat) (a b : Nat) (hne : a ≠ b) :
    l.count a + l.count b ≤ l.length := by
  induction l with
  | nil => simp
  | cons x xs ih =>
    rw [List.count_cons, List.count_cons, List.length_cons]
    by_cases hxa : x = a
    · have hxb : (x == b) = false := beq_eq_false_iff_ne.mpr (by omega)
      rw [hxb]
      have hxa2 : (x == a) = true := beq_iff_eq.mpr hxa
      rw [hxa2]
      simp only [if_true, if_false, Bool.false_eq_true]
      omega
    · have hxa2 : (x == a) = false := beq_eq_false_iff_ne.mpr hxa
      rw [hxa2]
      simp only [Bool.false_eq_true, if_false]
      cases hxb : x == b
      · simp only [Bool.false_eq_true, if_false]
        omega
      · simp only [if_true]
        omega

theorem countQ_cons (a b : Nat) (q : List (Nat × Nat)) (u : Nat) :
    countQ ((a, b) :: q) u = countQ q u + (if a = u then 1 else 0) := by
  unfold countQ
  rw [List.countP_cons]
  by_cases h : a = u
  · simp [h]
  · simp [beq_eq_false_iff_ne.mpr h, h]

theorem countQI_cons (a b : Nat) (q : List (Nat × Nat)) (u i : Nat) :
    countQI ((a, b) :: q) u i =
      countQI q u i + (if a = u ∧ b = i then 1 else 0) := by
  unfold countQI
  rw [List.countP_cons]
  by_cases h : a = u ∧ b = i
  · rcases h with ⟨rfl, rfl⟩
    simp
  · have h2 : ((a, b) == (u, i)) = false := by
      apply beq_eq_false_iff_ne.mpr
      intro hc
      injection hc with h3 h4
      exact h ⟨h3, h4⟩
    simp [h2, h]

theorem countQ_append (q1 q2 : List (Nat × Nat)) (u : Nat) :
    countQ (q1 ++ q2) u = countQ q1 u + countQ q2 u := by
  unfold countQ
  rw [List.countP_append]

theorem countQI_append (q1 q2 : List (Nat × Nat)) (u i : Nat) :
    countQI (q1 ++ q2) u i = countQI q1 u i + countQI q2 u i := by
  unfold countQI
  rw [List.countP_append]

theorem countRun_append (t1 t2 : List Event) (u i : Nat) :
    countRun (t1 ++ t2) u i = countRun t1 u i + countRun t2 u i := by
  unfold countRun
  rw [List.countP_append]

theorem countRunT_append (t1 t2 : List Event) (u : Nat) :
    countRunT (t1 ++ t2) u = countRunT t1 u + countRunT t2 u := by
  unfold countRunT
  rw [List.countP_append]

theorem countFree_append (t1 t2 : List Event) (u : Nat) :
    countFree (t1 ++ t2) u = countFree t1 u + countFree t2 u := by
  unfold countFree
  rw [List.countP_append]

theorem countRun_runTrace (t i : Nat) (r : TaskRec) (u j : Nat) :
    countRun (runTrace t i r) u j =
      if r.hasFunc = true ∧ u = t ∧ j = i then 1 else 0 := by
  unfold countRun
  rw [countP_runTrace]
  by_cases h : u = t ∧ j = i
  · rcases h with ⟨rfl, rfl⟩
    by_cases hf : r.hasFunc = true
    · rw [if_pos ⟨hf, by simp [isRunEv]⟩, if_pos ⟨hf, rfl, rfl⟩]
    · rw [if_neg (by tauto), if_neg (by tauto)]
  · have h2 : isRunEv u j (Event.run t i r.payload (r.outcome i)) = false := by
      unfold isRunEv
      rcases Decidable.not_and_iff_or_not.mp h with h3 | h3
      · simp [beq_eq_false_iff_ne.mpr (fun hh => h3 hh.symm)]
      · simp [beq_eq_false_iff_ne.mpr (fun hh => h3 hh.symm)]
    rw [h2]
    rw [if_neg (by simp), if_neg (by tauto)]

theorem countRunT_runTrace (t i : Nat) (r : TaskRec) (u : Nat) :
    countRunT (runTrace t i r) u =
      if r.hasFunc = true ∧ u = t then 1 else 0 := by
  unfold countRunT
  rw [countP_runTrace]
  by_cases h : u = t
  · subst h
    by_cases hf : r.hasFunc = true
    · rw [if_pos ⟨hf, by simp [isRunEvT]⟩, if_pos ⟨hf, rfl⟩]
    · rw [if_neg (by tauto), if_neg (by tauto)]
  · have h2 : isRunEvT u (Event.run t i r.payload (r.outcome i)) = false := by
      unfold isRunEvT
      simp [beq_eq_false_iff_ne.mpr (fun hh => h hh.symm)]
    rw [h2]
    rw [if_neg (by simp), if_neg (by tauto)]

theorem countFree_runTrace (t i : Nat) (r : TaskRec) (u : Nat) :
    countFree (runTrace t i r) u = 0 := by
  unfold countFree
  rw [countP_runTrace]
  rw [if_neg (by simp)]

theorem count_filter_eq (l : List Nat) (p : Nat → Bool) (a : Nat)
    (hp : p a = true) : (l.filter p).count a = l.count a := by
  induction l with
  | nil => simp
  | cons x xs ih =>
    rw [List.filter_cons, List.count_cons]
    by_cases hxa : x = a
    · subst hxa
      rw [hp]
      simp only [if_true, List.count_cons, beq_self_eq_true]
      omega
    · have hxa2 : (x == a) = false := beq_eq_false_iff_ne.mpr hxa
      rw [hxa2]
      simp only [Bool.false_eq_true, if_false]
      cases hpx : p x
      · simp only [Bool.false_eq_true, if_false]
        omega
      · simp only [if_true, List.count_cons, hxa2]
        simp only [Bool.false_eq_true, if_false]
        omega

theorem armsNow_elim {ch : List Nat} {c : Nat} {rc : TaskRec}
    (h : armsNow ch c rc = true) :
    0 < ch.count c ∧ rc.remParents ≤ ch.count c ∧ rc.armed = false := by
  unfold armsNow at h
  simp only [Bool.and_eq_true, decide_eq_true_eq, Bool.not_eq_true'] at h
  exact ⟨h.1.1, h.1.2, h.2⟩

theorem armsNow_false_of_le {ch : List Nat} {c : Nat} {rc : TaskRec}
    (h : ¬ rc.remParents ≤ ch.count c) : armsNow ch c rc = false := by
  unfold armsNow
  rw [decide_eq_false h]
  simp

theorem notCompletedIn_of_not_mem {tr : List Event} {p : Nat}
    (h : Event.completed p ∉ tr) : (!(completedIn tr p)) = true := by
  cases hc : completedIn tr p
  · rfl
  · exact absurd (completedIn_iff.mp hc) h

theorem firstFailure_completionEvents (t : Nat) (r : TaskRec) (u : Nat) :
    firstFailure (completionEvents t r) u = none := by
  unfold firstFailure
  rw [failuresOf_completionEvents]
  rfl

theorem armsNow_false_of_second_parent (s : PoolState) (h : Inv s)
    (t : Nat) (r : TaskRec) (hm : s.tasks[t]? = some r)
    (hnt : Event.completed t ∉ s.trace)
    (q : Nat) (rq : TaskRec) (hq : s.tasks[q]? = some rq) (hqt : q ≠ t)
    (hnq : Event.completed q ∉ s.trace)
    (c : Nat) (rc : TaskRec) (hc : s.tasks[c]? = some rc)
    (hcm : c ∈ rq.children) (hac : rc.armed = false) :
    armsNow r.children c rc = false := by
  apply armsNow_false_of_le
  have hb := h.remparents_bound c rc hc hac
  have h1 : r.children.count c ≤ rc.dparents.count t :=
    h.children_count t r c rc hm hc
  have h2 : 1 ≤ rq.children.count c := by
    by_contra hn
    rw [Nat.not_le] at hn
    have h0 : rq.children.count c = 0 := by omega
    exact (List.count_eq_zero.mp h0) hcm
  have h3 : rq.children.count c ≤ rc.dparents.count q :=
    h.children_count q rq c rc hq hc
  have hqmem : q ∈ rc.dparents := by
    by_contra hn
    rw [List.count_eq_zero.mpr hn] at h3
    omega
  have hcf_t : (rc.dparents.filter (fun p => !(completedIn s.trace p))).count t =
      rc.dparents.count t :=
    count_filter_eq _ _ t (notCompletedIn_of_not_mem hnt)
  have hqf : q ∈ rc.dparents.filter (fun p => !(completedIn s.trace p)) :=
    List.mem_filter.mpr ⟨hqmem, notCompletedIn_of_not_mem hnq⟩
  have hqf1 : 1 ≤ (rc.dparents.filter (fun p => !(completedIn s.trace p))).count q := by
    by_contra hn
    rw [Nat.not_le] at hn
    have h0 : (rc.dparents.filter (fun p => !(completedIn s.trace p))).count q = 0 := by
      omega
    exact (List.count_eq_zero.mp h0) hqf
  have h4 := count_two_le_length
    (rc.dparents.filter (fun p => !(completedIn s.trace p))) t q
    (fun he => hqt he.symm)
  omega

theorem parents_done_of_armsNow (s : PoolState) (h : Inv s)
    (t : Nat) (r : TaskRec) (hm : s.tasks[t]? = some r)
    (hnt : Event.completed t ∉ s.trace)
    (u : Nat) (ru : TaskRec) (hu : s.tasks[u]? = some ru)
    (ha : armsNow r.children u ru = true) :
    ∀ p ∈ ru.dparents, Event.completed p ∈ s.trace ∨ p = t := by
  intro p hp
  by_cases hpt : p = t
  · exact Or.inr hpt
  by_cases hpc : Event.completed p ∈ s.trace
  · exact Or.inl hpc
  exfalso
  rcases armsNow_elim ha with ⟨h1, h2, h3⟩
  have hb := h.remparents_bound u ru hu h3
  have hcc : r.children.count u ≤ ru.dparents.count t :=
    h.children_count t r u ru hm hu
  have hcf_t : (ru.dparents.filter (fun p2 => !(completedIn s.trace p2))).count t =
      ru.dparents.count t :=
    count_filter_eq _ _ t (notCompletedIn_of_not_mem hnt)
  have hpf : p ∈ ru.dparents.filter (fun p2 => !(completedIn s.trace p2)) :=
    List.mem_filter.mpr ⟨hp, notCompletedIn_of_not_mem hpc⟩
  have hpf1 : 1 ≤ (ru.dparents.filter (fun p2 => !(completedIn s.trace p2))).count p := by
    by_contra hn
    rw [Nat.not_le] at hn
    have h0 : (ru.dparents.filter (fun p2 => !(completedIn s.trace p2))).count p = 0 := by
      omega
    exact (List.count_eq_zero.mp h0) hpf
  have h4 := count_two_le_length
    (ru.dparents.filter (fun p2 => !(completedIn s.trace p2))) t p
    (fun he => hpt he.symm)
  omega

theorem inv_exec_dec (s : PoolState) (h : Inv s) (t i : Nat)
    (rest : List (Nat × Nat)) (r : TaskRec)
    (hq : s.queue = (t, i) :: rest) (hm : s.tasks[t]? = some r)
    (hl : r.live = true) (hrw : ¬ r.remWork = 1) :
    Inv { s with
      queue := rest
      tasks := s.tasks.set t { r with remWork := r.remWork - 1, exc := newExc r i }
      trace := s.trace ++ runTrace t i r } := by
  have htmem : (t, i) ∈ s.queue := by
    rw [hq]
    exact List.mem_cons_self _ _
  have ht_lt : t < s.tasks.length := taskIdx_lt hm
  have harm_t : r.armed = true := (h.queue_live _ htmem r hm).2
  have hiu : i < effSize r.size := h.queue_idx _ htmem r hm
  have hrw_ge : 1 ≤ r.remWork := by
    have h1 : 0 < countQ s.queue t := countQ_pos_of_mem htmem
    have h2 := h.queue_count t r hm
    omega
  have hrw2 : 2 ≤ r.remWork := by omega
  set r1 : TaskRec :=
    { r with remWork := r.remWork - 1, exc := newExc r i } with hr1d
  set tr1 : List Event := s.trace ++ runTrace t i r with htr1d
  have hget : ∀ j, (s.tasks.set t r1)[j]? =
      if j = t then some r1 else s.tasks[j]? := getElem_set_simp hm
  have hrec : ∀ j (rr : TaskRec), (s.tasks.set t r1)[j]? = some rr →
      (j = t ∧ rr = r1) ∨ (j ≠ t ∧ s.tasks[j]? = some rr) := by
    intro j rr hj
    rw [hget j] at hj
    by_cases hjt : j = t
    · rw [if_pos hjt] at hj
      cases hj
      exact Or.inl ⟨hjt, rfl⟩
    · rw [if_neg hjt] at hj
      exact Or.inr ⟨hjt, hj⟩
  have hqc : ∀ u, countQ s.queue u = countQ rest u + (if t = u then 1 else 0) := by
    intro u
    rw [hq, countQ_cons]
  have hqci : ∀ u j, countQI s.queue u j =
      countQI rest u j + (if t = u ∧ i = j then 1 else 0) := by
    intro u j
    rw [hq, countQI_cons]
  have htr_run : ∀ u j, countRun tr1 u j = countRun s.trace u j +
      (if r.hasFunc = true ∧ u = t ∧ j = i then 1 else 0) := by
    intro u j
    rw [htr1d, countRun_append, countRun_runTrace]
  have htr_runT : ∀ u, countRunT tr1 u = countRunT s.trace u +
      (if r.hasFunc = true ∧ u = t then 1 else 0) := by
    intro u
    rw [htr1d, countRunT_append, countRunT_runTrace]
  have htr_free : ∀ u, countFree tr1 u = countFree s.trace u := by
    intro u
    rw [htr1d, countFree_append, countFree_runTrace]
    omega
  have hcomp : ∀ p, completedIn tr1 p = completedIn s.trace p := by
    intro p
    rw [htr1d, completedIn_append, completedIn_runTrace, Bool.or_false]
  have hcompmem : ∀ p, Event.completed p ∈ tr1 ↔ Event.completed p ∈ s.trace := by
    intro p
    constructor
    · intro hp
      exact completedIn_iff.mp (by rw [← hcomp p]; exact completedIn_iff.mpr hp)
    · intro hp
      exact completedIn_iff.mp (by rw [hcomp p]; exact completedIn_iff.mpr hp)
  have hff : ∀ u, u ≠ t → firstFailure tr1 u = firstFailure s.trace u := by
    intro u hu
    rw [htr1d, firstFailure_append, firstFailure_runTrace_other t i r u hu]
    cases firstFailure s.trace u <;> rfl
  have hff_t : firstFailure tr1 t = newExc r i := by
    rw [htr1d, firstFailure_append, firstFailure_runTrace_self]
    have hex := h.exc_first t r hm
    unfold newExc
    rw [← hex]
    cases r.exc <;> rfl
  have hmemtr : ∀ e, e ∈ tr1 → e ∈ s.trace ∨
      (r.hasFunc = true ∧ e = Event.run t i r.payload (r.outcome i)) := by
    intro e he
    rw [htr1d] at he
    rcases List.mem_append.mp he with h1 | h1
    · exact Or.inl h1
    · exact Or.inr (mem_runTrace h1)
  refine ⟨?_, ?_, ?_, ?_, ?_, ?_, ?_, ?_, ?_, ?_, ?_, ?_, ?_, ?_, ?_, ?_,
    ?_, ?_, ?_, ?_, ?_, ?_, ?_⟩
  · show s.submitted.map Prod.fst = List.range (s.tasks.set t r1).length
    rw [List.length_set]
    exact h.ids
  · intro t0 r0 rr hsub hmm
    rcases hrec t0 rr hmm with ⟨he, hre⟩ | ⟨hne, hmo⟩
    · subst he
      have old := h.frozen t0 r0 r hsub hm
      rw [hre]
      exact old
    · exact h.frozen t0 r0 rr hsub hmo
  · exact h.dparents_lt
  · intro e he u hu
    show u < (s.tasks.set t r1).length
    rw [List.length_set]
    rcases hmemtr e he with h1 | ⟨-, h1⟩
    · exact h.events_lt e h1 u hu
    · subst h1
      cases hu
      exact ht_lt
  · intro x hx
    have hx2 : x ∈ s.queue := by
      rw [hq]
      exact List.mem_cons_of_mem _ hx
    show x.1 < (s.tasks.set t r1).length
    rw [List.length_set]
    exact h.queue_lt x hx2
  · intro x hx rr hmm
    have hx2 : x ∈ s.queue := by
      rw [hq]
      exact List.mem_cons_of_mem _ hx
    rcases hrec x.1 rr hmm with ⟨he, hre⟩ | ⟨hne, hmo⟩
    · have old := h.queue_idx x hx2 r (he ▸ hm)
      rw [hre]
      exact old
    · exact h.queue_idx x hx2 rr hmo
  · intro x hx rr hmm
    have hx2 : x ∈ s.queue := by
      rw [hq]
      exact List.mem_cons_of_mem _ hx
    rcases hrec x.1 rr hmm with ⟨he, hre⟩ | ⟨hne, hmo⟩
    · have old := h.queue_live x hx2 r (he ▸ hm)
      rw [hre]
      exact old
    · exact h.queue_live x hx2 rr hmo
  · intro u rr hmm
    show countQ rest u ≤ rr.remWork
    rcases hrec u rr hmm with ⟨he, hre⟩ | ⟨hne, hmo⟩
    · subst he
      have old := h.queue_count u r hm
      have hc := hqc u
      have hrw1 : rr.remWork = r.remWork - 1 := by rw [hre]
      rw [if_pos rfl] at hc
      omega
    · have old := h.queue_count u rr hmo
      have hc := hqc u
      omega
  · intro u rr hmm
    rcases hrec u rr hmm with ⟨he, hre⟩ | ⟨hne, hmo⟩
    · subst he
      have hrw1 : rr.remWork = r.remWork - 1 := by rw [hre]
      constructor
      · intro h0
        omega
      · intro hc
        have hc2 := (hcompmem u).mp hc
        have := (h.done_iff u r hm).mpr hc2
        omega
    · have old := h.done_iff u rr hmo
      rw [old]
      exact (hcompmem u).symm
  · intro u rr hmm harm2
    rcases hrec u rr hmm with ⟨he, hre⟩ | ⟨hne, hmo⟩
    · subst he
      exfalso
      have hA : rr.armed = r.armed := by rw [hre]
      rw [hA, harm_t] at harm2
      exact Bool.noConfusion harm2
    · have old := h.unarmed_clean u rr hmo harm2
      refine ⟨?_, ?_, old.2.2⟩
      · show countQ rest u = 0
        have hc := hqc u
        by_cases hut : t = u
        · subst hut
          exfalso
          have hql := h.queue_live _ htmem rr hmo
          rw [hql.2] at harm2
          exact Bool.noConfusion harm2
        · rw [if_neg hut] at hc
          omega
      · show countRunT tr1 u = 0
        rw [htr_runT u, if_neg (fun hc => hne hc.2), old.2.1]
  · intro u rr hmm harm2 hhf2 j hj
    rcases hrec u rr hmm with ⟨he, hre⟩ | ⟨hne, hmo⟩
    · subst he
      have hSz : rr.size = r.size := by rw [hre]
      have hH : rr.hasFunc = r.hasFunc := by rw [hre]
      rw [hSz] at hj
      have hrf : r.hasFunc = true := by rw [← hH]; exact hhf2
      have old := h.armed_units u r hm harm_t hrf j hj
      show countQI rest u j + countRun tr1 u j = 1
      have hci := hqci u j
      rw [htr_run u j]
      by_cases hji : j = i
      · subst hji
        rw [if_pos ⟨rfl, rfl⟩] at hci
        rw [if_pos ⟨hrf, rfl, rfl⟩]
        omega
      · rw [if_neg (fun hc => hji hc.2.symm)] at hci
        rw [if_neg (fun hc => hji hc.2.2)]
        omega
    · have old := h.armed_units u rr hmo harm2 hhf2 j hj
      show countQI rest u j + countRun tr1 u j = 1
      have hci := hqci u j
      rw [htr_run u j, if_neg (fun hc => hne hc.2.1)]
      rw [if_neg (fun hc => hne hc.1.symm)] at hci
      omega
  · intro u rr hmm hhf2
    rcases hrec u rr hmm with ⟨he, hre⟩ | ⟨hne, hmo⟩
    · subst he
      have hH : rr.hasFunc = r.hasFunc := by rw [hre]
      have hrf : r.hasFunc = false := by rw [← hH]; exact hhf2
      have old := h.nofunc_norun u r hm hrf
      show countRunT tr1 u = 0
      rw [htr_runT u, if_neg (fun hc => by rw [hrf] at hc; exact Bool.noConfusion hc.1)]
      omega
    · have old := h.nofunc_norun u rr hmo hhf2
      show countRunT tr1 u = 0
      rw [htr_runT u, if_neg (fun hc => hne hc.2)]
      omega
  · intro u j pay res hrun rr hmm
    have hrun2 : Event.run u j pay res ∈ tr1 := hrun
    rcases hrec u rr hmm with ⟨he, hre⟩ | ⟨hne, hmo⟩
    · subst he
      have hSz : rr.size = r.size := by rw [hre]
      rw [hSz]
      rcases hmemtr _ hrun2 with h1 | ⟨-, h1⟩
      · exact h.run_idx u j pay res h1 r hm
      · injection h1 with e1 e2 e3 e4
        subst e2
        exact hiu
    · rcases hmemtr _ hrun2 with h1 | ⟨-, h1⟩
      · exact h.run_idx u j pay res h1 rr hmo
      · exfalso
        injection h1 with e1 e2 e3 e4
        exact hne e1
  · intro u j pay res hrun rr hmm
    have hrun2 : Event.run u j pay res ∈ tr1 := hrun
    rcases hrec u rr hmm with ⟨he, hre⟩ | ⟨hne, hmo⟩
    · subst he
      have hP : rr.payload = r.payload := by rw [hre]
      have hH : rr.hasFunc = r.hasFunc := by rw [hre]
      have hO : rr.outcome = r.outcome := by rw [hre]
      rw [hP, hH, hO]
      rcases hmemtr _ hrun2 with h1 | ⟨hf1, h1⟩
      · exact h.run_payload u j pay res h1 r hm
      · injection h1 with e1 e2 e3 e4
        subst e2
        subst e3
        subst e4
        rw [if_pos hf1]
        exact ⟨rfl, rfl⟩
    · rcases hmemtr _ hrun2 with h1 | ⟨-, h1⟩
      · exact h.run_payload u j pay res h1 rr hmo
      · exfalso
        injection h1 with e1 e2 e3 e4
        exact hne e1
  · intro u rr hmm
    rcases hrec u rr hmm with ⟨he, hre⟩ | ⟨hne, hmo⟩
    · subst he
      have hE : rr.exc = newExc r i := by rw [hre]
      rw [hE]
      exact hff_t.symm
    · have hE := h.exc_first u rr hmo
      rw [hE]
      exact (hff u hne).symm
  · intro u rr hmm
    show countFree tr1 u = _
    rw [htr_free u]
    rcases hrec u rr hmm with ⟨he, hre⟩ | ⟨hne, hmo⟩
    · subst he
      have hP : rr.payload = r.payload := by rw [hre]
      rw [hP]
      have old := h.free_iff u r hm
      rw [old]
      by_cases hc : Event.completed u ∈ s.trace ∧ isCopied r.payload = true
      · rw [if_pos hc, if_pos ⟨(hcompmem u).mpr hc.1, hc.2⟩]
      · rw [if_neg hc, if_neg (fun hc2 => hc ⟨(hcompmem u).mp hc2.1, hc2.2⟩)]
    · have old := h.free_iff u rr hmo
      rw [old]
      by_cases hc : Event.completed u ∈ s.trace ∧ isCopied rr.payload = true
      · rw [if_pos hc, if_pos ⟨(hcompmem u).mpr hc.1, hc.2⟩]
      · rw [if_neg hc, if_neg (fun hc2 => hc ⟨(hcompmem u).mp hc2.1, hc2.2⟩)]
  · intro u rr hmm hrw0
    rcases hrec u rr hmm with ⟨he, hre⟩ | ⟨hne, hmo⟩
    · exfalso
      have hrw1 : rr.remWork = r.remWork - 1 := by rw [hre]
      omega
    · have hC := h.completed_children u rr hmo hrw0
      exact hC
  · intro q rq hq2 c hc
    rcases hrec q rq hq2 with ⟨he, hre⟩ | ⟨hne, hmo⟩
    · have hmq : s.tasks[q]? = some r := by rw [he]; exact hm
      have hC : rq.children = r.children := by rw [hre]
      rw [hC] at hc
      rcases h.children_rec q r hmq c hc with ⟨rc, hrc, hlc, hac⟩
      have hct : c ≠ t := by
        intro hct
        rw [hct, hm] at hrc
        cases hrc
        rw [harm_t] at hac
        exact Bool.noConfusion hac
      refine ⟨rc, ?_, hlc, hac⟩
      rw [hget c, if_neg hct]
      exact hrc
    · rcases h.children_rec q rq hmo c hc with ⟨rc, hrc, hlc, hac⟩
      have hct : c ≠ t := by
        intro hct
        rw [hct, hm] at hrc
        cases hrc
        rw [harm_t] at hac
        exact Bool.noConfusion hac
      refine ⟨rc, ?_, hlc, hac⟩
      rw [hget c, if_neg hct]
      exact hrc
  · intro q rq c rc hq2 hc2
    have hCq : ∀ (hh : (s.tasks.set t r1)[q]? = some rq),
        ∃ rq0, s.tasks[q]? = some rq0 ∧ rq.children = rq0.children := by
      intro hh
      rcases hrec q rq hh with ⟨he, hre⟩ | ⟨hne, hmo⟩
      · exact ⟨r, he ▸ hm, by rw [hre]⟩
      · exact ⟨rq, hmo, rfl⟩
    have hCc : ∀ (hh : (s.tasks.set t r1)[c]? = some rc),
        ∃ rc0, s.tasks[c]? = some rc0 ∧ rc.dparents = rc0.dparents := by
      intro hh
      rcases hrec c rc hh with ⟨he, hre⟩ | ⟨hne, hmo⟩
      · exact ⟨r, he ▸ hm, by rw [hre]⟩
      · exact ⟨rc, hmo, rfl⟩
    rcases hCq hq2 with ⟨rq0, hmq, hcq⟩
    rcases hCc hc2 with ⟨rc0, hmc, hcc⟩
    rw [hcq, hcc]
    exact h.children_count q rq0 c rc0 hmq hmc
  · intro u rr hmm harm2
    rcases hrec u rr hmm with ⟨he, hre⟩ | ⟨hne, hmo⟩
    · exfalso
      have hA : rr.armed = r.armed := by rw [hre]
      rw [hA, harm_t] at harm2
      exact Bool.noConfusion harm2
    · have old := h.remparents_bound u rr hmo harm2
      have hfeq : rr.dparents.filter (fun p => !(completedIn tr1 p)) =
          rr.dparents.filter (fun p => !(completedIn s.trace p)) := by
        apply List.filter_congr
        intro p hp
        rw [hcomp p]
      show (rr.dparents.filter (fun p => !(completedIn tr1 p))).length ≤
        rr.remParents
      rw [hfeq]
      exact old
  · intro u rr hmm harm2 p hp
    rcases hrec u rr hmm with ⟨he, hre⟩ | ⟨hne, hmo⟩
    · subst he
      have hD : rr.dparents = r.dparents := by rw [hre]
      rw [hD] at hp
      have old := h.armed_parents u r hm harm_t p hp
      exact (hcompmem p).mpr old
    · have old := h.armed_parents u rr hmo harm2 p hp
      exact (hcompmem p).mpr old
  · intro c rc hc2 p hp l1 l2 j pay res htr
    have hDc : ∃ rc0, s.tasks[c]? = some rc0 ∧ rc.dparents = rc0.dparents := by
      rcases hrec c rc hc2 with ⟨he, hre⟩ | ⟨hne, hmo⟩
      · exact ⟨r, he ▸ hm, by rw [hre]⟩
      · exact ⟨rc, hmo, rfl⟩
    rcases hDc with ⟨rc0, hmc, hcc⟩
    rw [hcc] at hp
    have htr2 : s.trace ++ runTrace t i r = l1 ++ Event.run c j pay res :: l2 := htr
    rcases append_decomp htr2 with ⟨m, hA, hB⟩ | ⟨m, hA, hB⟩
    · exact h.parent_before c rc0 hmc p hp l1 m j pay res hA
    · have hmem : Event.run c j pay res ∈ runTrace t i r := by
        rw [hB]
        exact List.mem_append_right m (List.mem_cons_self _ _)
      rcases mem_runTrace hmem with ⟨-, he⟩
      injection he with e1 e2 e3 e4
      rw [e1] at hmc
      have hrc0 : rc0 = r := by
        rw [hm] at hmc
        cases hmc
        rfl
      rw [hrc0] at hp
      have old := h.armed_parents t r hm harm_t p hp
      rw [hA]
      exact List.mem_append_left m old
  · intro p l1 l2 htr j pay res hrun
    have htr2 : s.trace ++ runTrace t i r = l1 ++ Event.completed p :: l2 := htr
    rcases append_decomp htr2 with ⟨m, hA, hB⟩ | ⟨m, hA, hB⟩
    · rw [hB] at hrun
      rcases List.mem_append.mp hrun with h1 | h1
      · exact h.run_before_completed p l1 m hA j pay res h1
      · rcases mem_runTrace h1 with ⟨-, he⟩
        injection he with e1 e2 e3 e4
        have hcp : Event.completed p ∈ s.trace := by
          rw [hA]
          exact List.mem_append_right l1 (List.mem_cons_self _ _)
        rw [e1] at hcp
        have := (h.done_iff t r hm).mpr hcp
        omega
    · have hmem : Event.completed p ∈ runTrace t i r := by
        rw [hB]
        exact List.mem_append_right m (List.mem_cons_self _ _)
      rcases mem_runTrace hmem with ⟨-, he⟩
      exact Event.noConfusion he

theorem inv_exec_complete (s : PoolState) (h : Inv s) (t i : Nat)
    (rest : List (Nat × Nat)) (r : TaskRec)
    (hq : s.queue = (t, i) :: rest) (hm : s.tasks[t]? = some r)
    (hl : r.live = true) (hrw : r.remWork = 1) :
    Inv { tasks := (updAll (fun c rc => if c = t then rc else
            decParents r.children c rc) s.tasks).set t
            { r with
              remWork := 0
              exc := newExc r i
              children := []
              refcount := r.refcount - r.children.length
              live := decide (r.refcount - r.children.length ≠ 0) }
          queue := rest ++ armedUnits r.children s.tasks
          trace := (s.trace ++ runTrace t i r) ++ completionEvents t r
          submitted := s.submitted } := by
  have htmem : (t, i) ∈ s.queue := by
    rw [hq]
    exact List.mem_cons_self _ _
  have ht_lt : t < s.tasks.length := taskIdx_lt hm
  have harm_t : r.armed = true := (h.queue_live _ htmem r hm).2
  have hiu : i < effSize r.size := h.queue_idx _ htmem r hm
  have hnt : Event.completed t ∉ s.trace := by
    intro hc
    have := (h.done_iff t r hm).mpr hc
    omega
  have hqc : ∀ u, countQ s.queue u = countQ rest u + (if t = u then 1 else 0) := by
    intro u
    rw [hq, countQ_cons]
  have hqci : ∀ u j, countQI s.queue u j =
      countQI rest u j + (if t = u ∧ i = j then 1 else 0) := by
    intro u j
    rw [hq, countQI_cons]
  have hrest_t : countQ rest t = 0 := by
    have h1 := h.queue_count t r hm
    have h2 := hqc t
    rw [if_pos rfl] at h2
    omega
  have hresti_t : ∀ j, countQI rest t j = 0 := by
    intro j
    have := countQI_le_countQ rest t j
    omega
  set ch : List Nat := r.children with hchd
  set r2 : TaskRec := { r with
    remWork := 0
    exc := newExc r i
    children := []
    refcount := r.refcount - ch.length
    live := decide (r.refcount - ch.length ≠ 0) } with hr2d
  set f : Nat → TaskRec → TaskRec :=
    fun c rc => if c = t then rc else decParents ch c rc with hfd
  set tr2 : List Event :=
    (s.trace ++ runTrace t i r) ++ completionEvents t r with htr2d
  have hup_t : (updAll f s.tasks)[t]? = some r := by
    rw [updAll_getElem, hm]
    show some (if t = t then r else decParents ch t r) = some r
    rw [if_pos rfl]
  have hgetC : ∀ j, ((updAll f s.tasks).set t r2)[j]? =
      if j = t then some r2
      else (s.tasks[j]?).map (fun rc => decParents ch j rc) := by
    intro j
    rw [getElem_set_simp hup_t j]
    by_cases hjt : j = t
    · rw [if_pos hjt, if_pos hjt]
    · rw [if_neg hjt, if_neg hjt, updAll_getElem]
      cases hmo : s.tasks[j]? with
      | none => rfl
      | some rc =>
        show some (if j = t then rc else decParents ch j rc) =
          some (decParents ch j rc)
        rw [if_neg hjt]
  have hrecC : ∀ j (rr : TaskRec), ((updAll f s.tasks).set t r2)[j]? = some rr →
      (j = t ∧ rr = r2) ∨
      (j ≠ t ∧ ∃ rc0, s.tasks[j]? = some rc0 ∧ rr = decParents ch j rc0) := by
    intro j rr hj
    rw [hgetC j] at hj
    by_cases hjt : j = t
    · rw [if_pos hjt] at hj
      cases hj
      exact Or.inl ⟨hjt, rfl⟩
    · rw [if_neg hjt] at hj
      cases hmo : s.tasks[j]? with
      | none =>
        rw [hmo] at hj
        exact Option.noConfusion hj
      | some rc0 =>
        rw [hmo] at hj
        refine Or.inr ⟨hjt, rc0, rfl, ?_⟩
        injection hj with h2
        exact h2.symm
  have hchild : ∀ c ∈ ch, ∃ rc, s.tasks[c]? = some rc ∧ rc.live = true ∧
      rc.armed = false := h.children_rec t r hm
  have hch_ne : ∀ c ∈ ch, c ≠ t := by
    intro c hc hct
    rcases hchild c hc with ⟨rc, hrc, -, hac⟩
    rw [hct, hm] at hrc
    cases hrc
    rw [harm_t] at hac
    exact Bool.noConfusion hac
  have hcount_t : ch.count t = 0 := by
    apply List.count_eq_zero.mpr
    intro hmem
    exact hch_ne t hmem rfl
  have harms_t : armsNow ch t r = false := by
    unfold armsNow
    rw [harm_t]
    simp
  have hAU : ∀ u (ru : TaskRec), s.tasks[u]? = some ru →
      countQ (armedUnits ch s.tasks) u =
        if armsNow ch u ru = true then effSize ru.size else 0 := by
    intro u ru hmo
    show (armedUnits ch s.tasks).countP (fun x => x.1 == u) = _
    rw [countP_armedUnits_some ch s.tasks _ u ru
      (fun x hx => beq_iff_eq.mp hx) hmo]
    by_cases ha : armsNow ch u ru = true
    · rw [if_pos ha, if_pos ha]
      have h2 := countQ_unitsFor u (effSize ru.size) u
      rw [if_pos rfl] at h2
      exact h2
    · rw [if_neg ha, if_neg ha]
  have hAUI : ∀ u j (ru : TaskRec), s.tasks[u]? = some ru →
      countQI (armedUnits ch s.tasks) u j =
        if armsNow ch u ru = true ∧ j < effSize ru.size then 1 else 0 := by
    intro u j ru hmo
    show (armedUnits ch s.tasks).countP (fun x => x == (u, j)) = _
    rw [countP_armedUnits_some ch s.tasks _ u ru
      (fun x hx => by rw [beq_iff_eq.mp hx]) hmo]
    by_cases ha : armsNow ch u ru = true
    · rw [if_pos ha]
      have h2 := countQI_unitsFor u (effSize ru.size) u j
      show countQI (unitsFor u (effSize ru.size)) u j = _
      rw [h2]
      by_cases hj : j < effSize ru.size
      · rw [if_pos ⟨rfl, hj⟩, if_pos ⟨ha, hj⟩]
      · rw [if_neg (by tauto), if_neg (by tauto)]
    · rw [if_neg ha, if_neg (by tauto)]
  have htrC_run : ∀ u j, countRun tr2 u j = countRun s.trace u j +
      (if r.hasFunc = true ∧ u = t ∧ j = i then 1 else 0) := by
    intro u j
    rw [htr2d, countRun_append, countRun_append, countRun_runTrace]
    have h0 : countRun (completionEvents t r) u j = 0 :=
      countP_run_completionEvents t r u j
    rw [h0]
    omega
  have htrC_runT : ∀ u, countRunT tr2 u = countRunT s.trace u +
      (if r.hasFunc = true ∧ u = t then 1 else 0) := by
    intro u
    rw [htr2d, countRunT_append, countRunT_append, countRunT_runTrace]
    have h0 : countRunT (completionEvents t r) u = 0 :=
      countP_runT_completionEvents t r u
    rw [h0]
    omega
  have htrC_free : ∀ u, countFree tr2 u = countFree s.trace u +
      (if u = t ∧ isCopied r.payload = true then 1 else 0) := by
    intro u
    rw [htr2d, countFree_append, countFree_append, countFree_runTrace]
    have h0 : countFree (completionEvents t r) u =
        (if u = t ∧ isCopied r.payload = true then 1 else 0) :=
      countFree_completionEvents t r u
    rw [h0]
    omega
  have hcompC : ∀ p, completedIn tr2 p = (completedIn s.trace p || (p == t)) := by
    intro p
    rw [htr2d, completedIn_append, completedIn_append, completedIn_runTrace,
      completedIn_completionEvents, Bool.or_false]
  have hcmemC : ∀ p, Event.completed p ∈ tr2 ↔
      (Event.completed p ∈ s.trace ∨ p = t) := by
    intro p
    rw [← completedIn_iff, hcompC p, Bool.or_eq_true, completedIn_iff,
      beq_iff_eq]
  have hctmem : Event.completed t ∈ tr2 := (hcmemC t).mpr (Or.inr rfl)
  have hffC_t : firstFailure tr2 t = newExc r i := by
    rw [htr2d, firstFailure_append, firstFailure_append,
      firstFailure_runTrace_self, firstFailure_completionEvents,
      Option.or_none]
    have hex := h.exc_first t r hm
    rw [← hex]
    unfold newExc
    cases hre : r.exc with
    | some e => rfl
    | none => exact Option.none_or
  have hffC : ∀ u, u ≠ t → firstFailure tr2 u = firstFailure s.trace u := by
    intro u hu
    rw [htr2d, firstFailure_append, firstFailure_append,
      firstFailure_runTrace_other t i r u hu, firstFailure_completionEvents,
      Option.or_none, Option.or_none]
  have hdpf_size : ∀ j (rc : TaskRec), (decParents ch j rc).size = rc.size :=
    fun j rc => (decParents_frozen ch j rc).1
  have hdpf_hf : ∀ j (rc : TaskRec), (decParents ch j rc).hasFunc = rc.hasFunc :=
    fun j rc => (decParents_frozen ch j rc).2.1
  have hdpf_out : ∀ j (rc : TaskRec), (decParents ch j rc).outcome = rc.outcome :=
    fun j rc => (decParents_frozen ch j rc).2.2.1
  have hdpf_pay : ∀ j (rc : TaskRec), (decParents ch j rc).payload = rc.payload :=
    fun j rc => (decParents_frozen ch j rc).2.2.2.1
  have hdpf_del : ∀ j (rc : TaskRec), (decParents ch j rc).deleter = rc.deleter :=
    fun j rc => (decParents_frozen ch j rc).2.2.2.2.1
  have hdpf_dp : ∀ j (rc : TaskRec), (decParents ch j rc).dparents = rc.dparents :=
    fun j rc => (decParents_frozen ch j rc).2.2.2.2.2.1
  have hdpf_rw : ∀ j (rc : TaskRec), (decParents ch j rc).remWork = rc.remWork :=
    fun j rc => (decParents_frozen ch j rc).2.2.2.2.2.2.1
  have hdpf_ch : ∀ j (rc : TaskRec), (decParents ch j rc).children = rc.children :=
    fun j rc => (decParents_frozen ch j rc).2.2.2.2.2.2.2.1
  have hdpf_rc : ∀ j (rc : TaskRec), (decParents ch j rc).refcount = rc.refcount :=
    fun j rc => (decParents_frozen ch j rc).2.2.2.2.2.2.2.2.1
  have hdpf_exc : ∀ j (rc : TaskRec), (decParents ch j rc).exc = rc.exc :=
    fun j rc => (decParents_frozen ch j rc).2.2.2.2.2.2.2.2.2.1
  have hdpf_live : ∀ j (rc : TaskRec), (decParents ch j rc).live = rc.live :=
    fun j rc => (decParents_frozen ch j rc).2.2.2.2.2.2.2.2.2.2
  have hmemtrC : ∀ e, e ∈ tr2 → e ∈ s.trace ∨
      (r.hasFunc = true ∧ e = Event.run t i r.payload (r.outcome i)) ∨
      e ∈ completionEvents t r := by
    intro e he
    rw [htr2d] at he
    rcases List.mem_append.mp he with h1 | h1
    · rcases List.mem_append.mp h1 with h2 | h2
      · exact Or.inl h2
      · exact Or.inr (Or.inl (mem_runTrace h2))
    · exact Or.inr (Or.inr h1)
  refine ⟨?_, ?_, ?_, ?_, ?_, ?_, ?_, ?_, ?_, ?_, ?_, ?_, ?_, ?_, ?_, ?_,
    ?_, ?_, ?_, ?_, ?_, ?_, ?_⟩
  · show s.submitted.map Prod.fst =
      List.range ((updAll f s.tasks).set t r2).length
    rw [List.length_set, updAll_length]
    exact h.ids
  · intro t0 r0 rr hsub hmm
    rcases hrecC t0 rr hmm with ⟨he, hre⟩ | ⟨hne, rc0, hmo, hre⟩
    · have hmt : s.tasks[t0]? = some r := by rw [he]; exact hm
      have old := h.frozen t0 r0 r hsub hmt
      have h1 : rr.size = r.size := by rw [hre]
      have h2 : rr.hasFunc = r.hasFunc := by rw [hre]
      have h3 : rr.payload = r.payload := by rw [hre]
      have h4 : rr.deleter = r.deleter := by rw [hre]
      have h5 : rr.dparents = r.dparents := by rw [hre]
      have h6 : rr.outcome = r.outcome := by rw [hre]
      rw [h1, h2, h3, h4, h5, h6]
      exact old
    · have old := h.frozen t0 r0 rc0 hsub hmo
      have h1 : rr.size = rc0.size := by rw [hre]; exact hdpf_size _ _
      have h2 : rr.hasFunc = rc0.hasFunc := by rw [hre]; exact hdpf_hf _ _
      have h3 : rr.payload = rc0.payload := by rw [hre]; exact hdpf_pay _ _
      have h4 : rr.deleter = rc0.deleter := by rw [hre]; exact hdpf_del _ _
      have h5 : rr.dparents = rc0.dparents := by rw [hre]; exact hdpf_dp _ _
      have h6 : rr.outcome = rc0.outcome := by rw [hre]; exact hdpf_out _ _
      rw [h1, h2, h3, h4, h5, h6]
      exact old
  · exact h.dparents_lt
  · intro e he u hu
    show u < ((updAll f s.tasks).set t r2).length
    rw [List.length_set, updAll_length]
    rcases hmemtrC e he with h1 | ⟨-, h1⟩ | h1
    · exact h.events_lt e h1 u hu
    · subst h1
      cases hu
      exact ht_lt
    · rcases mem_completionEvents.mp h1 with h2 | ⟨-, h2⟩ | ⟨-, h2⟩ <;>
        (subst h2; cases hu; exact ht_lt)
  · intro x hx
    show x.1 < ((updAll f s.tasks).set t r2).length
    rw [List.length_set, updAll_length]
    have hx2 : x ∈ rest ++ armedUnits ch s.tasks := hx
    rcases List.mem_append.mp hx2 with h1 | h1
    · exact h.queue_lt x (by rw [hq]; exact List.mem_cons_of_mem _ h1)
    · rcases armedUnits_entry_fst ch s.tasks x h1 with ⟨rc, hrc, -, -⟩
      exact taskIdx_lt hrc
  · intro x hx rr hmm
    have hx2 : x ∈ rest ++ armedUnits ch s.tasks := hx
    rcases List.mem_append.mp hx2 with h1 | h1
    · have hxt : x.1 ≠ t := by
        intro hxt
        have hpos := countQ_pos_of_mem h1
        rw [hxt] at hpos
        omega
      rcases hrecC x.1 rr hmm with ⟨he, -⟩ | ⟨-, rc0, hmo, hre⟩
      · exact absurd he hxt
      · have old := h.queue_idx x
          (by rw [hq]; exact List.mem_cons_of_mem _ h1) rc0 hmo
        have hs : rr.size = rc0.size := by rw [hre]; exact hdpf_size _ _
        rw [hs]
        exact old
    · rcases armedUnits_entry_fst ch s.tasks x h1 with ⟨rc, hrc, ha, hxlt⟩
      have hxt : x.1 ≠ t := by
        intro hxt
        rw [hxt] at hrc ha
        rw [hm] at hrc
        cases hrc
        rw [harms_t] at ha
        exact Bool.noConfusion ha
      rcases hrecC x.1 rr hmm with ⟨he, -⟩ | ⟨-, rc0, hmo, hre⟩
      · exact absurd he hxt
      · rw [hmo] at hrc
        injection hrc with he2
        rw [← he2] at hxlt
        have hs : rr.size = rc0.size := by rw [hre]; exact hdpf_size _ _
        rw [hs]
        exact hxlt
  · intro x hx rr hmm
    have hx2 : x ∈ rest ++ armedUnits ch s.tasks := hx
    rcases List.mem_append.mp hx2 with h1 | h1
    · have hxt : x.1 ≠ t := by
        intro hxt
        have hpos := countQ_pos_of_mem h1
        rw [hxt] at hpos
        omega
      rcases hrecC x.1 rr hmm with ⟨he, -⟩ | ⟨-, rc0, hmo, hre⟩
      · exact absurd he hxt
      · have old := h.queue_live x
          (by rw [hq]; exact List.mem_cons_of_mem _ h1) rc0 hmo
        have hlv : rr.live = rc0.live := by rw [hre]; exact hdpf_live _ _
        have har : rr.armed = (rc0.armed || armsNow ch x.1 rc0) := by
          rw [hre]; exact decParents_armed ch x.1 rc0
        rw [hlv, har, old.1, old.2]
        exact ⟨rfl, rfl⟩
    · rcases armedUnits_entry_fst ch s.tasks x h1 with ⟨rc, hrc, ha, hxlt⟩
      have hxt : x.1 ≠ t := by
        intro hxt
        rw [hxt] at hrc ha
        rw [hm] at hrc
        cases hrc
        rw [harms_t] at ha
        exact Bool.noConfusion ha
      rcases hrecC x.1 rr hmm with ⟨he, -⟩ | ⟨-, rc0, hmo, hre⟩
      · exact absurd he hxt
      · rw [hmo] at hrc
        injection hrc with he2
        rw [← he2] at ha
        have hmemch : x.1 ∈ ch := by
          by_contra hnm
          have h0 : ch.count x.1 = 0 := List.count_eq_zero.mpr hnm
          rcases armsNow_elim ha with ⟨h1c, -, -⟩
          omega
        rcases hchild x.1 hmemch with ⟨rc1, hrc1, hlv1, -⟩
        rw [hmo] at hrc1
        injection hrc1 with he3
        rw [← he3] at hlv1
        have hlv : rr.live = rc0.live := by rw [hre]; exact hdpf_live _ _
        have har : rr.armed = (rc0.armed || armsNow ch x.1 rc0) := by
          rw [hre]; exact decParents_armed ch x.1 rc0
        rw [hlv, har, ha, hlv1]
        exact ⟨rfl, by simp⟩
  · intro u rr hmm
    show countQ (rest ++ armedUnits ch s.tasks) u ≤ rr.remWork
    rw [countQ_append]
    rcases hrecC u rr hmm with ⟨he, hre⟩ | ⟨hne, rc0, hmo, hre⟩
    · have hR : rr.remWork = 0 := by rw [hre]
      have hAUt := hAU u r (by rw [he]; exact hm)
      have harms_u : armsNow ch u r = false := by rw [he]; exact harms_t
      rw [harms_u] at hAUt
      simp only [Bool.false_eq_true, if_false] at hAUt
      have hrest_u : countQ rest u = 0 := by rw [he]; exact hrest_t
      rw [hR, hrest_u, hAUt]
    · have hR : rr.remWork = rc0.remWork := by rw [hre]; exact hdpf_rw _ _
      rw [hR]
      have hAUu := hAU u rc0 hmo
      by_cases ha : armsNow ch u rc0 = true
      · rcases armsNow_elim ha with ⟨-, -, harm0⟩
        have old := h.unarmed_clean u rc0 hmo harm0
        have h1q := old.1
        have h2 := hqc u
        rw [if_neg (fun hh => hne hh.symm)] at h2
        rw [if_pos ha] at hAUu
        rw [hAUu, old.2.2]
        omega
      · rw [if_neg ha] at hAUu
        have old := h.queue_count u rc0 hmo
        have h2 := hqc u
        rw [if_neg (fun hh => hne hh.symm)] at h2
        rw [hAUu]
        omega
  · intro u rr hmm
    rcases hrecC u rr hmm with ⟨he, hre⟩ | ⟨hne, rc0, hmo, hre⟩
    · have hR : rr.remWork = 0 := by rw [hre]
      rw [hR]
      constructor
      · intro h0
        show Event.completed u ∈ tr2
        rw [he]
        exact hctmem
      · intro h0
        rfl
    · have hR : rr.remWork = rc0.remWork := by rw [hre]; exact hdpf_rw _ _
      rw [hR]
      have old := h.done_iff u rc0 hmo
      rw [old]
      show Event.completed u ∈ s.trace ↔ Event.completed u ∈ tr2
      rw [hcmemC u]
      constructor
      · exact Or.inl
      · intro hc
        rcases hc with hc | hc
        · exact hc
        · exact absurd hc hne
  · intro u rr hmm harm2
    rcases hrecC u rr hmm with ⟨he, hre⟩ | ⟨hne, rc0, hmo, hre⟩
    · exfalso
      have hA : rr.armed = r.armed := by rw [hre]
      rw [hA, harm_t] at harm2
      exact Bool.noConfusion harm2
    · have har : rr.armed = (rc0.armed || armsNow ch u rc0) := by
        rw [hre]; exact decParents_armed ch u rc0
      rw [har] at harm2
      rcases Bool.or_eq_false_iff.mp harm2 with ⟨harm0, hansf⟩
      have old := h.unarmed_clean u rc0 hmo harm0
      refine ⟨?_, ?_, ?_⟩
      · show countQ (rest ++ armedUnits ch s.tasks) u = 0
        rw [countQ_append]
        have h2 := hqc u
        rw [if_neg (fun hh => hne hh.symm)] at h2
        have hAUu := hAU u rc0 hmo
        rw [hansf] at hAUu
        simp only [Bool.false_eq_true, if_false] at hAUu
        have h1q := old.1
        omega
      · show countRunT tr2 u = 0
        rw [htrC_runT u, if_neg (fun hc => hne hc.2), old.2.1]
      · have hR : rr.remWork = rc0.remWork := by rw [hre]; exact hdpf_rw _ _
        have hS : rr.size = rc0.size := by rw [hre]; exact hdpf_size _ _
        rw [hR, hS]
        exact old.2.2
  · intro u rr hmm harm2 hhf2 j hj
    rcases hrecC u rr hmm with ⟨he, hre⟩ | ⟨hne, rc0, hmo, hre⟩
    · have hS : rr.size = r.size := by rw [hre]
      have hH : rr.hasFunc = r.hasFunc := by rw [hre]
      rw [hS] at hj
      have hrf : r.hasFunc = true := by rw [← hH]; exact hhf2
      have old := h.armed_units t r hm harm_t hrf j hj
      rw [he]
      show countQI (rest ++ armedUnits ch s.tasks) t j + countRun tr2 t j = 1
      rw [countQI_append, htrC_run t j]
      have hAUt := hAUI t j r hm
      rw [harms_t] at hAUt
      simp only [Bool.false_eq_true, false_and, if_false] at hAUt
      rw [hresti_t j, hAUt]
      have hci := hqci t j
      rw [hresti_t j] at hci
      by_cases hji : j = i
      · rw [if_pos ⟨hrf, rfl, hji⟩]
        rw [if_pos ⟨rfl, hji.symm⟩] at hci
        omega
      · rw [if_neg (fun hc => hji hc.2.2)]
        rw [if_neg (fun hc => hji hc.2.symm)] at hci
        omega
    · have hS : rr.size = rc0.size := by rw [hre]; exact hdpf_size _ _
      have hH : rr.hasFunc = rc0.hasFunc := by rw [hre]; exact hdpf_hf _ _
      have har : rr.armed = (rc0.armed || armsNow ch u rc0) := by
        rw [hre]; exact decParents_armed ch u rc0
      rw [hS] at hj
      have hrf : rc0.hasFunc = true := by rw [← hH]; exact hhf2
      rw [har] at harm2
      show countQI (rest ++ armedUnits ch s.tasks) u j + countRun tr2 u j = 1
      rw [countQI_append, htrC_run u j, if_neg (fun hc => hne hc.2.1)]
      have hAUu := hAUI u j rc0 hmo
      have hci := hqci u j
      rw [if_neg (fun hc => hne hc.1.symm)] at hci
      by_cases ha : armsNow ch u rc0 = true
      · rcases armsNow_elim ha with ⟨-, -, harm0⟩
        have old := h.unarmed_clean u rc0 hmo harm0
        have h1q := old.1
        have h2r := old.2.1
        have hqi0 : countQI s.queue u j = 0 := by
          have := countQI_le_countQ s.queue u j
          omega
        have hrun0 : countRun s.trace u j = 0 := by
          have := countRun_le_countRunT s.trace u j
          omega
        rw [if_pos ⟨ha, hj⟩] at hAUu
        omega
      · have harm0 : rc0.armed = true := by
          cases hb : rc0.armed
          · rw [hb, Bool.false_or] at harm2
            exact absurd harm2 ha
          · rfl
        have old := h.armed_units u rc0 hmo harm0 hrf j hj
        have hAU0 : countQI (armedUnits ch s.tasks) u j = 0 := by
          rw [hAUu, if_neg (fun hc => ha hc.1)]
        omega
  · intro u rr hmm hhf2
    rcases hrecC u rr hmm with ⟨he, hre⟩ | ⟨hne, rc0, hmo, hre⟩
    · have hH : rr.hasFunc = r.hasFunc := by rw [hre]
      have hrf : r.hasFunc = false := by rw [← hH]; exact hhf2
      have old := h.nofunc_norun t r hm hrf
      rw [he]
      show countRunT tr2 t = 0
      rw [htrC_runT t,
        if_neg (fun hc => by rw [hrf] at hc; exact Bool.noConfusion hc.1)]
      omega
    · have hH : rr.hasFunc = rc0.hasFunc := by rw [hre]; exact hdpf_hf _ _
      have hrf : rc0.hasFunc = false := by rw [← hH]; exact hhf2
      have old := h.nofunc_norun u rc0 hmo hrf
      show countRunT tr2 u = 0
      rw [htrC_runT u, if_neg (fun hc => hne hc.2)]
      omega
  · intro u j pay res hrun rr hmm
    have hrun2 : Event.run u j pay res ∈ tr2 := hrun
    rcases hrecC u rr hmm with ⟨he, hre⟩ | ⟨hne, rc0, hmo, hre⟩
    · have hS : rr.size = r.size := by rw [hre]
      rw [hS]
      rcases hmemtrC _ hrun2 with h1 | ⟨-, h1⟩ | h1
      · exact h.run_idx u j pay res h1 r (by rw [he]; exact hm)
      · injection h1 with e1 e2 e3 e4
        subst e2
        exact hiu
      · exfalso
        rcases mem_completionEvents.mp h1 with h2 | ⟨-, h2⟩ | ⟨-, h2⟩ <;>
          exact Event.noConfusion h2
    · have hS : rr.size = rc0.size := by rw [hre]; exact hdpf_size _ _
      rw [hS]
      rcases hmemtrC _ hrun2 with h1 | ⟨-, h1⟩ | h1
      · exact h.run_idx u j pay res h1 rc0 hmo
      · exfalso
        injection h1 with e1 e2 e3 e4
        exact hne e1
      · exfalso
        rcases mem_completionEvents.mp h1 with h2 | ⟨-, h2⟩ | ⟨-, h2⟩ <;>
          exact Event.noConfusion h2
  · intro u j pay res hrun rr hmm
    have hrun2 : Event.run u j pay res ∈ tr2 := hrun
    rcases hrecC u rr hmm with ⟨he, hre⟩ | ⟨hne, rc0, hmo, hre⟩
    · have hP : rr.payload = r.payload := by rw [hre]
      have hH : rr.hasFunc = r.hasFunc := by rw [hre]
      have hO : rr.outcome = r.outcome := by rw [hre]
      rw [hP, hH, hO]
      rcases hmemtrC _ hrun2 with h1 | ⟨hf1, h1⟩ | h1
      · exact h.run_payload u j pay res h1 r (by rw [he]; exact hm)
      · injection h1 with e1 e2 e3 e4
        subst e2
        subst e3
        subst e4
        rw [if_pos hf1]
        exact ⟨rfl, rfl⟩
      · exfalso
        rcases mem_completionEvents.mp h1 with h2 | ⟨-, h2⟩ | ⟨-, h2⟩ <;>
          exact Event.noConfusion h2
    · have hP : rr.payload = rc0.payload := by rw [hre]; exact hdpf_pay _ _
      have hH : rr.hasFunc = rc0.hasFunc := by rw [hre]; exact hdpf_hf _ _
      have hO : rr.outcome = rc0.outcome := by rw [hre]; exact hdpf_out _ _
      rw [hP, hH, hO]
      rcases hmemtrC _ hrun2 with h1 | ⟨-, h1⟩ | h1
      · exact h.run_payload u j pay res h1 rc0 hmo
      · exfalso
        injection h1 with e1 e2 e3 e4
        exact hne e1
      · exfalso
        rcases mem_completionEvents.mp h1 with h2 | ⟨-, h2⟩ | ⟨-, h2⟩ <;>
          exact Event.noConfusion h2
  · intro u rr hmm
    rcases hrecC u rr hmm with ⟨he, hre⟩ | ⟨hne, rc0, hmo, hre⟩
    · have hE : rr.exc = newExc r i := by rw [hre]
      rw [hE, he]
      exact hffC_t.symm
    · have hE : rr.exc = rc0.exc := by rw [hre]; exact hdpf_exc _ _
      rw [hE, h.exc_first u rc0 hmo]
      exact (hffC u hne).symm
  · intro u rr hmm
    show countFree tr2 u =
      if Event.completed u ∈ tr2 ∧ isCopied rr.payload = true then 1 else 0
    rw [htrC_free u]
    rcases hrecC u rr hmm with ⟨he, hre⟩ | ⟨hne, rc0, hmo, hre⟩
    · have hP : rr.payload = r.payload := by rw [hre]
      rw [hP, he]
      have h0 : countFree s.trace t = 0 := by
        rw [h.free_iff t r hm]
        exact if_neg (fun hc => hnt hc.1)
      rw [h0]
      by_cases hic : isCopied r.payload = true
      · rw [if_pos (⟨rfl, hic⟩ : t = t ∧ isCopied r.payload = true),
          if_pos (⟨hctmem, hic⟩ :
            Event.completed t ∈ tr2 ∧ isCopied r.payload = true)]
      · rw [if_neg (fun hc : t = t ∧ isCopied r.payload = true => hic hc.2),
          if_neg (fun hc : Event.completed t ∈ tr2 ∧
            isCopied r.payload = true => hic hc.2)]
    · have hP : rr.payload = rc0.payload := by rw [hre]; exact hdpf_pay _ _
      rw [hP]
      have old := h.free_iff u rc0 hmo
      have h0 : (if u = t ∧ isCopied r.payload = true then 1 else 0) = 0 :=
        if_neg (fun hc => hne hc.1)
      rw [h0, old]
      have hcm : (Event.completed u ∈ tr2) ↔ Event.completed u ∈ s.trace := by
        rw [hcmemC u]
        constructor
        · intro hc2
          rcases hc2 with hc2 | hc2
          · exact hc2
          · exact absurd hc2 hne
        · exact Or.inl
      by_cases hc2 : Event.completed u ∈ s.trace ∧ isCopied rc0.payload = true
      · rw [if_pos hc2, if_pos ⟨hcm.mpr hc2.1, hc2.2⟩]
      · rw [if_neg hc2, if_neg (fun hh => hc2 ⟨hcm.mp hh.1, hh.2⟩)]
  · intro u rr hmm hrw0
    rcases hrecC u rr hmm with ⟨he, hre⟩ | ⟨hne, rc0, hmo, hre⟩
    · have hC : rr.children = [] := by rw [hre]
      exact hC
    · have hC : rr.children = rc0.children := by rw [hre]; exact hdpf_ch _ _
      have hR : rr.remWork = rc0.remWork := by rw [hre]; exact hdpf_rw _ _
      rw [hC]
      exact h.completed_children u rc0 hmo (hR ▸ hrw0)
  · intro q rq hq2 c hc
    rcases hrecC q rq hq2 with ⟨he, hre⟩ | ⟨hne, rq0, hmo, hre⟩
    · exfalso
      have hC : rq.children = [] := by rw [hre]
      rw [hC] at hc
      exact List.not_mem_nil c hc
    · have hC : rq.children = rq0.children := by rw [hre]; exact hdpf_ch _ _
      rw [hC] at hc
      rcases h.children_rec q rq0 hmo c hc with ⟨rc, hrc, hlc, hac⟩
      have hct : c ≠ t := by
        intro hct
        rw [hct, hm] at hrc
        injection hrc with he2
        rw [← he2] at hac
        rw [harm_t] at hac
        exact Bool.noConfusion hac
      have hq_nc : Event.completed q ∉ s.trace := by
        intro hcq
        have h0 := (h.done_iff q rq0 hmo).mpr hcq
        have h1 := h.completed_children q rq0 hmo h0
        rw [h1] at hc
        exact List.not_mem_nil c hc
      have hanf : armsNow ch c rc = false :=
        armsNow_false_of_second_parent s h t r hm hnt q rq0 hmo hne hq_nc
          c rc hrc hc hac
      refine ⟨decParents ch c rc, ?_, ?_, ?_⟩
      · rw [hgetC c, if_neg hct, hrc]
        rfl
      · rw [hdpf_live c rc]
        exact hlc
      · rw [decParents_armed, hac, hanf]
        rfl
  · intro q rq c rc hq2 hc2
    rcases hrecC q rq hq2 with ⟨heq, hreq⟩ | ⟨hneq, rq0, hmoq, hreq⟩
    · have hC : rq.children = [] := by rw [hreq]
      rw [hC]
      simp
    · have hC : rq.children = rq0.children := by rw [hreq]; exact hdpf_ch _ _
      rw [hC]
      rcases hrecC c rc hc2 with ⟨hec, hrec2⟩ | ⟨hnec, rc0, hmoc, hrec2⟩
      · have hD : rc.dparents = r.dparents := by rw [hrec2]
        rw [hD, hec]
        exact h.children_count q rq0 t r hmoq hm
      · have hD : rc.dparents = rc0.dparents := by rw [hrec2]; exact hdpf_dp _ _
        rw [hD]
        exact h.children_count q rq0 c rc0 hmoq hmoc
  · intro u rr hmm harm2
    rcases hrecC u rr hmm with ⟨he, hre⟩ | ⟨hne, rc0, hmo, hre⟩
    · exfalso
      have hA : rr.armed = r.armed := by rw [hre]
      rw [hA, harm_t] at harm2
      exact Bool.noConfusion harm2
    · have har : rr.armed = (rc0.armed || armsNow ch u rc0) := by
        rw [hre]; exact decParents_armed ch u rc0
      rw [har] at harm2
      rcases Bool.or_eq_false_iff.mp harm2 with ⟨harm0, hansf⟩
      have old := h.remparents_bound u rc0 hmo harm0
      have hD : rr.dparents = rc0.dparents := by rw [hre]; exact hdpf_dp _ _
      have hRP : rr.remParents = rc0.remParents - ch.count u := by
        rw [hre]; exact decParents_remParents ch u rc0
      rw [hD, hRP]
      have hfeq : rc0.dparents.filter (fun p => !(completedIn tr2 p)) =
          rc0.dparents.filter
            (fun p => !(completedIn s.trace p) && !(p == t)) := by
        apply List.filter_congr
        intro p hp
        rw [hcompC p, Bool.not_or]
      have hlfe : (rc0.dparents.filter
            (fun p => !(completedIn s.trace p) && !(p == t))).length +
          rc0.dparents.count t =
          (rc0.dparents.filter (fun p => !(completedIn s.trace p))).length :=
        length_filter_and_ne rc0.dparents
          (fun p => !(completedIn s.trace p)) t (notCompletedIn_of_not_mem hnt)
      have hcc : ch.count u ≤ rc0.dparents.count t :=
        h.children_count t r u rc0 hm hmo
      show (rc0.dparents.filter (fun p => !(completedIn tr2 p))).length ≤ _
      rw [hfeq]
      omega
  · intro u rr hmm harm2 p hp
    rcases hrecC u rr hmm with ⟨he, hre⟩ | ⟨hne, rc0, hmo, hre⟩
    · have hD : rr.dparents = r.dparents := by rw [hre]
      rw [hD] at hp
      have old := h.armed_parents t r hm harm_t p hp
      exact (hcmemC p).mpr (Or.inl old)
    · have har : rr.armed = (rc0.armed || armsNow ch u rc0) := by
        rw [hre]; exact decParents_armed ch u rc0
      rw [har] at harm2
      have hD : rr.dparents = rc0.dparents := by rw [hre]; exact hdpf_dp _ _
      rw [hD] at hp
      cases hb : rc0.armed with
      | true =>
        have old := h.armed_parents u rc0 hmo hb p hp
        exact (hcmemC p).mpr (Or.inl old)
      | false =>
        have ha : armsNow ch u rc0 = true := by
          rw [hb, Bool.false_or] at harm2
          exact harm2
        have hres := parents_done_of_armsNow s h t r hm hnt u rc0 hmo ha p hp
        exact (hcmemC p).mpr hres
  · intro c rc hc2 p hp l1 l2 j pay res htr
    have hDc : ∃ rc0, s.tasks[c]? = some rc0 ∧ rc.dparents = rc0.dparents ∧
        (c = t → rc0 = r) := by
      rcases hrecC c rc hc2 with ⟨he, hre⟩ | ⟨hne, rc0, hmo, hre⟩
      · exact ⟨r, by rw [he]; exact hm, by rw [hre], fun hh => rfl⟩
      · exact ⟨rc0, hmo, by rw [hre]; exact hdpf_dp _ _,
          fun hh => absurd hh hne⟩
    rcases hDc with ⟨rc0, hmc, hcc, hct⟩
    rw [hcc] at hp
    have htr2e : (s.trace ++ runTrace t i r) ++ completionEvents t r =
        l1 ++ Event.run c j pay res :: l2 := htr
    rcases append_decomp htr2e with ⟨m, hA, hB⟩ | ⟨m, hA, hB⟩
    · rcases append_decomp hA with ⟨m2, hA2, hB2⟩ | ⟨m2, hA2, hB2⟩
      · exact h.parent_before c rc0 hmc p hp l1 m2 j pay res hA2
      · have hmem : Event.run c j pay res ∈ runTrace t i r := by
          rw [hB2]
          exact List.mem_append_right m2 (List.mem_cons_self _ _)
        rcases mem_runTrace hmem with ⟨-, he⟩
        injection he with e1 e2 e3 e4
        rw [e1] at hct
        have hr0 : rc0 = r := hct rfl
        rw [hr0] at hp
        have old := h.armed_parents t r hm harm_t p hp
        rw [hA2]
        exact List.mem_append_left m2 old
    · exfalso
      have hmem : Event.run c j pay res ∈ completionEvents t r := by
        rw [hB]
        exact List.mem_append_right m (List.mem_cons_self _ _)
      rcases mem_completionEvents.mp hmem with h2 | ⟨-, h2⟩ | ⟨-, h2⟩ <;>
        exact Event.noConfusion h2
  · intro p l1 l2 htr j pay res hrun
    have htr2e : (s.trace ++ runTrace t i r) ++ completionEvents t r =
        l1 ++ Event.completed p :: l2 := htr
    rcases append_decomp htr2e with ⟨m, hA, hB⟩ | ⟨m, hA, hB⟩
    · rcases append_decomp hA with ⟨m2, hA2, hB2⟩ | ⟨m2, hA2, hB2⟩
      · rw [hB] at hrun
        rcases List.mem_append.mp hrun with h1 | h1
        · rw [hB2] at h1
          rcases List.mem_append.mp h1 with h2 | h2
          · exact h.run_before_completed p l1 m2 hA2 j pay res h2
          · rcases mem_runTrace h2 with ⟨-, he⟩
            injection he with e1 e2 e3 e4
            have hcp : Event.completed p ∈ s.trace := by
              rw [hA2]
              exact List.mem_append_right l1 (List.mem_cons_self _ _)
            rw [e1] at hcp
            exact hnt hcp
        · rcases mem_completionEvents.mp h1 with h2 | ⟨-, h2⟩ | ⟨-, h2⟩ <;>
            exact Event.noConfusion h2
      · have hmem : Event.completed p ∈ runTrace t i r := by
          rw [hB2]
          exact List.mem_append_right m2 (List.mem_cons_self _ _)
        rcases mem_runTrace hmem with ⟨-, he⟩
        exact Event.noConfusion he
    · have hmem : Event.run p j pay res ∈ completionEvents t r := by
        rw [hB]
        exact List.mem_append_right m (List.mem_cons_of_mem _ hrun)
      rcases mem_completionEvents.mp hmem with h2 | ⟨-, h2⟩ | ⟨-, h2⟩ <;>
        exact Event.noConfusion h2

theorem inv_exec (s : PoolState) (h : Inv s) : Inv (exec s) := by
  unfold exec
  split
  next hq => exact h
  next t i rest hq =>
    split
    next hlr =>
      exfalso
      have htmem : (t, i) ∈ s.queue := by
        rw [hq]
        exact List.mem_cons_self _ _
      have htlt : t < s.tasks.length := h.queue_lt _ htmem
      have hm : s.tasks[t]? = some s.tasks[t] := List.getElem?_eq_getElem htlt
      have hlive := (h.queue_live _ htmem _ hm).1
      rw [liveRec_of_rec hm hlive] at hlr
      exact Option.noConfusion hlr
    next r hlr =>
      rcases liveRec_eq_some hlr with ⟨hm, hl⟩
      split
      next hrw => exact inv_exec_complete s h t i rest r hq hm hl hrw
      next hrw => exact inv_exec_dec s h t i rest r hq hm hl hrw

theorem inv_waitAux (fuel t : Nat) (s : PoolState) (h : Inv s) :
    Inv (waitAux fuel t s) := by
  induction fuel generalizing s with
  | zero => exact h
  | succ f ih =>
    unfold waitAux
    split
    next => exact h
    next r hlr =>
      split
      next => exact h
      next => exact ih (exec s) (inv_exec s h)

theorem inv_wait (fuel : Nat) (ot : Option Nat) (s : PoolState) (h : Inv s) :
    Inv (task_wait fuel ot s).1 := by
  unfold task_wait
  cases ot with
  | none => exact h
  | some t => exact inv_waitAux fuel t s h

theorem inv_apply (s : PoolState) (h : Inv s) (a : Action) :
    Inv (applyAction s a) := by
  cases a with
  | submitA args => exact inv_submit args s h
  | execA => exact inv_exec s h
  | releaseA ot => exact inv_release ot s h
  | waitA f ot => exact inv_wait f ot s h

theorem inv_steps (acts : List Action) (s : PoolState) (h : Inv s) :
    Inv (steps acts s) := by
  induction acts generalizing s with
  | nil => exact h
  | cons a as ih =>
    unfold steps
    rw [List.foldl_cons]
    exact ih (applyAction s a) (inv_apply s h a)

theorem reachable_inv (s : PoolState) (h : Reachable s) : Inv s := by
  rcases h with ⟨acts, hacts⟩
  rw [← hacts]
  exact inv_steps acts initState inv_init

theorem exists_run_of_countRun_pos {tr : List Event} {t i : Nat}
    (h : 0 < countRun tr t i) : ∃ pay res, Event.run t i pay res ∈ tr := by
  unfold countRun at h
  rcases List.countP_pos_iff.mp h with ⟨e, he, hpe⟩
  cases e with
  | run t2 i2 pay res =>
    unfold isRunEv at hpe
    simp only [Bool.and_eq_true, beq_iff_eq] at hpe
    rw [hpe.1, hpe.2] at he
    exact ⟨pay, res, he⟩
  | inlineRun pay => simp [isRunEv] at hpe
  | completed u => simp [isRunEv] at hpe
  | delRun u => simp [isRunEv] at hpe
  | freeCopy u => simp [isRunEv] at hpe

theorem completed_units_ran (s : PoolState) (h : Inv s)
    (t : Nat) (r : TaskRec) (hm : s.tasks[t]? = some r)
    (hdone : r.remWork = 0) (hf : r.hasFunc = true) :
    ∀ i, i < effSize r.size → countRun s.trace t i = 1 := by
  intro i hi
  have harm : r.armed = true := by
    cases hb : r.armed
    · exfalso
      have h1 := (h.unarmed_clean t r hm hb).2.2
      have h2 := effSize_pos r.size
      omega
    · rfl
  have hau := h.armed_units t r hm harm hf i hi
  have hqc := h.queue_count t r hm
  have hqi := countQI_le_countQ s.queue t i
  omega

/-- C2 (amended): for every reachable pool state and every completed task, if
the callback is non-null it has been invoked exactly once per work unit: once
for each index below `effSize size = max size 1` (a size-0 task counts as a
single asynchronous work unit, invoked once with index 0 — thread.h lines
132-136 — not zero times as the spec sentence states) and never at any other
index; a task with a null callback is never invoked. -/
theorem c2_exact_invocations (s : PoolState) (hre : Reachable s)
    (t : Nat) (r : TaskRec) (hm : s.tasks[t]? = some r)
    (hdone : r.remWork = 0) :
    (r.hasFunc = true →
      (∀ i, i < effSize r.size → countRun s.trace t i = 1) ∧
      (∀ i, effSize r.size ≤ i → countRun s.trace t i = 0)) ∧
    (r.hasFunc = false → countRunT s.trace t = 0) := by
  have h := reachable_inv s hre
  constructor
  · intro hf
    constructor
    · exact completed_units_ran s h t r hm hdone hf
    · intro i hi
      by_contra hc
      have hpos : 0 < countRun s.trace t i := by omega
      rcases exists_run_of_countRun_pos hpos with ⟨pay, res, hmem⟩
      have := h.run_idx t i pay res hmem r hm
      omega
  · intro hf
    exact h.nofunc_norun t r hm hf

/-- Witness for C2 (amended): the completed size-0 sample task ran exactly
once at index 0 and never at index 1. -/
theorem c2_witness :
    countRun sampleZeroDone.trace 0 0 = 1 ∧
    countRun sampleZeroDone.trace 0 1 = 0 := by
  have hs : (sampleZeroDone.tasks[0]?).isSome = true := by decide
  rcases Option.isSome_iff_exists.mp hs with ⟨r, hm⟩
  have hx1 : (sampleZeroDone.tasks[0]?).map (fun r2 => r2.remWork) =
      some 0 := by decide
  have hx2 : (sampleZeroDone.tasks[0]?).map (fun r2 => r2.hasFunc) =
      some true := by decide
  have hx3 : (sampleZeroDone.tasks[0]?).map (fun r2 => effSize r2.size) =
      some 1 := by decide
  rw [hm] at hx1 hx2 hx3
  have hrw : r.remWork = 0 := by simpa using hx1
  have hhf : r.hasFunc = true := by simpa using hx2
  have hsz : effSize r.size = 1 := by simpa using hx3
  have hth := c2_exact_invocations sampleZeroDone
    ⟨[Action.submitA sampleZero, Action.execA], rfl⟩ 0 r hm hrw
  exact ⟨(hth.1 hhf).1 0 (by omega), (hth.1 hhf).2 1 (by omega)⟩

/-- C4: a submission with no deleter, non-zero size and a non-null payload
stores an internal copy of the first `payload_size` bytes, determined by
those bytes alone (so the caller may free or reuse its buffer immediately);
in every reachable state each invocation of such a task is passed the stored
copy, and the copy is freed exactly once, at completion. -/
theorem c4_payload_copy (s : PoolState) (hre : Reachable s) (a : SubmitArgs)
    (hdel : a.deleter = false) (hsz : a.size ≠ 0) (hpn : a.pnull = false) :
    resolvePayload a = StoredPayload.copied (a.pbytes.take a.psize) ∧
    (∀ a2 : SubmitArgs, a2.deleter = false → a2.size ≠ 0 → a2.pnull = false →
      a2.pbytes.take a2.psize = a.pbytes.take a.psize →
      resolvePayload a2 = resolvePayload a) ∧
    (∀ t (r0 : TaskRec), (t, r0) ∈ s.submitted → isCopied r0.payload = true →
      (∀ i pay res, Event.run t i pay res ∈ s.trace → pay = r0.payload) ∧
      countFree s.trace t =
        (if Event.completed t ∈ s.trace then 1 else 0)) := by
  have h := reachable_inv s hre
  have hres : ∀ a2 : SubmitArgs, a2.deleter = false → a2.size ≠ 0 →
      a2.pnull = false →
      resolvePayload a2 = StoredPayload.copied (a2.pbytes.take a2.psize) := by
    intro a2 h1 h2 h3
    unfold resolvePayload
    rw [if_neg ?hc1, if_neg ?hc2]
    case hc1 =>
      intro hc
      rcases hc with hc | hc
      · exact h2 hc
      · rw [h1] at hc
        exact Bool.noConfusion hc
    case hc2 =>
      intro hc
      rw [h3] at hc
      exact Bool.noConfusion hc
  refine ⟨hres a hdel hsz hpn, ?_, ?_⟩
  · intro a2 h1 h2 h3 h4
    rw [hres a2 h1 h2 h3, hres a hdel hsz hpn, h4]
  · intro t r0 hsub hcp
    have ht_lt := ghost_lt h hsub
    have hmr : s.tasks[t]? = some (s.tasks[t]) := List.getElem?_eq_getElem ht_lt
    have hfr := h.frozen t r0 (s.tasks[t]) hsub hmr
    have hpay : (s.tasks[t]).payload = r0.payload := hfr.2.2.1
    constructor
    · intro i pay res hrun
      have h1 := (h.run_payload t i pay res hrun (s.tasks[t]) hmr).1
      rw [h1, hpay]
    · have hfi := h.free_iff t (s.tasks[t]) hmr
      rw [hpay] at hfi
      rw [hfi]
      by_cases hc : Event.completed t ∈ s.trace
      · rw [if_pos ⟨hc, hcp⟩, if_pos hc]
      · rw [if_neg (fun hh => hc hh.1), if_neg hc]

/-- Witness for C4: the copy-payload sample stores the 3-byte copy `[1,2,3]`
of its 5-byte buffer, and after completion the copy has been freed exactly
once. -/
theorem c4_witness :
    resolvePayload sampleCopy = StoredPayload.copied [1, 2, 3] ∧
    countFree sampleCopyDone.trace 0 = 1 := by
  have hth := c4_payload_copy sampleCopyDone
    ⟨[Action.submitA sampleCopy, Action.execA, Action.execA], rfl⟩
    sampleCopy rfl (by decide) rfl
  refine ⟨?_, by decide⟩
  rw [hth.1]
  rfl

/-- C5: in every reachable state, if task `c` lists `p` among its live
dependency parents, then at the point of any recorded invocation of a work
unit of `c` the completion of `p` — and in particular every invocation of
every work unit of `p` — already lies strictly earlier in the trace. -/
theorem c5_dependency_ordering (s : PoolState) (hre : Reachable s)
    (c : Nat) (rc : TaskRec) (hmc : s.tasks[c]? = some rc)
    (p : Nat) (hp : p ∈ rc.dparents)
    (l1 l2 : List Event) (i : Nat) (pay : StoredPayload) (res : Option Nat)
    (htr : s.trace = l1 ++ Event.run c i pay res :: l2) :
    Event.completed p ∈ l1 ∧
    (∀ j pay2 res2, Event.run p j pay2 res2 ∈ s.trace →
      Event.run p j pay2 res2 ∈ l1) := by
  have h := reachable_inv s hre
  have hcl1 : Event.completed p ∈ l1 :=
    h.parent_before c rc hmc p hp l1 l2 i pay res htr
  refine ⟨hcl1, ?_⟩
  intro j pay2 res2 hrun
  have hpc : p < c := by
    rcases ghost_exists h (taskIdx_lt hmc) with ⟨r0, hsub⟩
    have hfr := (h.frozen c r0 rc hsub hmc).2.2.2.2.1
    have hp0 : p ∈ r0.dparents := by rw [← hfr]; exact hp
    exact h.dparents_lt c r0 hsub p hp0
  rw [htr] at hrun
  rcases List.mem_append.mp hrun with h1 | h1
  · exact h1
  · exfalso
    rcases List.mem_cons.mp h1 with h2 | h2
    · injection h2 with e1 e2 e3 e4
      omega
    · rcases List.append_of_mem hcl1 with ⟨la, lb, hl1⟩
      have htr3 : s.trace = la ++ Event.completed p ::
          (lb ++ Event.run c i pay res :: l2) := by
        rw [htr, hl1]
        simp
      exact h.run_before_completed p la _ htr3 j pay2 res2
        (List.mem_append_right lb (List.mem_cons_of_mem _ h2))

/-- Witness for C5: in the completed parent/child sample chain, the single
invocation of child task 1 is preceded by both invocations and the
completion of parent task 0. -/
theorem c5_witness :
    Event.completed 0 ∈
      [Event.run 0 0 StoredPayload.nullp none,
       Event.run 0 1 StoredPayload.nullp none, Event.completed 0] ∧
    (∀ j pay2 res2, Event.run 0 j pay2 res2 ∈ sampleChainDone.trace →
      Event.run 0 j pay2 res2 ∈
        [Event.run 0 0 StoredPayload.nullp none,
         Event.run 0 1 StoredPayload.nullp none, Event.completed 0]) := by
  have hs : (sampleChainDone.tasks[1]?).isSome = true := by decide
  rcases Option.isSome_iff_exists.mp hs with ⟨rc, hmc⟩
  have hx : (sampleChainDone.tasks[1]?).map (fun r2 => r2.dparents) =
      some [0] := by decide
  rw [hmc] at hx
  have hdp : rc.dparents = [0] := by simpa using hx
  have hp : 0 ∈ rc.dparents := by
    rw [hdp]
    exact List.mem_singleton.mpr rfl
  exact c5_dependency_ordering sampleChainDone
    ⟨[Action.submitA sampleParent, Action.submitA sampleChild, Action.execA,
      Action.execA, Action.execA], rfl⟩
    1 rc hmc 0 hp
    [Event.run 0 0 StoredPayload.nullp none,
     Event.run 0 1 StoredPayload.nullp none, Event.completed 0]
    [Event.completed 1] 0 StoredPayload.nullp none rfl

/-- C6: in every reachable state, if a completed live task recorded at least
one callback failure then the exception slot holds exactly the first failure
raised; every work unit still executed; `task_wait` re-raises that failure
without changing the state, and a repeated wait re-raises the same failure
(the slot stays populated). -/
theorem c6_failure_channel (s : PoolState) (hre : Reachable s) (fuel : Nat)
    (t : Nat) (r : TaskRec) (hm : s.tasks[t]? = some r)
    (hlv : r.live = true) (hdone : r.remWork = 0)
    (hfail : failuresOf s.trace t ≠ []) :
    ∃ e, firstFailure s.trace t = some e ∧
      r.exc = some e ∧
      e ∈ failuresOf s.trace t ∧
      task_wait fuel (some t) s = (s, some e) ∧
      task_wait fuel (some t) (task_wait fuel (some t) s).1 = (s, some e) ∧
      (r.hasFunc = true → ∀ i, i < effSize r.size →
        countRun s.trace t i = 1) := by
  have h := reachable_inv s hre
  have hex : ∃ e, firstFailure s.trace t = some e := by
    unfold firstFailure
    cases hhd : (failuresOf s.trace t).head? with
    | some e => exact ⟨e, rfl⟩
    | none =>
      exfalso
      exact hfail (List.head?_eq_none_iff.mp hhd)
  rcases hex with ⟨e, hfe⟩
  have hexc : r.exc = some e := by rw [h.exc_first t r hm, hfe]
  have hwa : waitAux fuel t s = s := by
    cases fuel with
    | zero => rfl
    | succ f =>
      unfold waitAux
      rw [liveRec_of_rec hm hlv]
      show (if r.remWork = 0 then s else waitAux f t (exec s)) = s
      rw [if_pos hdone]
  have hwait : task_wait fuel (some t) s = (s, some e) := by
    show (waitAux fuel t s,
      match liveRec (waitAux fuel t s) t with
      | some r2 => r2.exc
      | none => none) = (s, some e)
    rw [hwa, liveRec_of_rec hm hlv]
    show (s, r.exc) = (s, some e)
    rw [hexc]
  refine ⟨e, hfe, hexc, firstFailure_mem hfe, hwait, ?_, ?_⟩
  · rw [hwait]
    exact hwait
  · intro hf
    exact completed_units_ran s h t r hm hdone hf

/-- Witness for C6: the failing sample task retains its first failure `7`;
waiting re-raises it and leaves the state unchanged. -/
theorem c6_witness :
    (∃ e, firstFailure sampleFailingDone.trace 0 = some e ∧
      task_wait 1 (some 0) sampleFailingDone = (sampleFailingDone, some e)) ∧
    firstFailure sampleFailingDone.trace 0 = some 7 := by
  have hs : (sampleFailingDone.tasks[0]?).isSome = true := by decide
  rcases Option.isSome_iff_exists.mp hs with ⟨r, hm⟩
  have hx1 : (sampleFailingDone.tasks[0]?).map (fun r2 => r2.live) =
      some true := by decide
  have hx2 : (sampleFailingDone.tasks[0]?).map (fun r2 => r2.remWork) =
      some 0 := by decide
  rw [hm] at hx1 hx2
  have hlv : r.live = true := by simpa using hx1
  have hrw : r.remWork = 0 := by simpa using hx2
  have hth := c6_failure_channel sampleFailingDone
    ⟨[Action.submitA sampleFailing, Action.execA, Action.execA], rfl⟩ 1
    0 r hm hlv hrw (by decide)
  rcases hth with ⟨e, h1, h2, h3, h4, h5, h6⟩
  exact ⟨⟨e, h1, h4⟩, by decide⟩
